import Mathlib

/-! # Verification development for `framework.hpp` (namespace `svg`)

The C++ type `double` is embedded as `Double K`: a finite value of an ordered
field `K`, or one of the three special values `+inf`, `-inf`, `NaN` (zero is
unsigned).  An arithmetic operation on finite values computes the exact result
in `K` and delivers it through `Rounding.round`; on the special values it
follows IEEE-754, so the `__isnan` test and every division by zero of the source
keep their meaning.  There are two arithmetics:

* `Binary64` (the rational numbers with `round64`): IEEE-754 binary64, rounding
  to nearest, ties to even, with subnormal numbers, underflow to zero and
  overflow to infinity.  This is the arithmetic of the code.
* `ExactArith` (the real and the rational numbers): every result is delivered
  exactly.  This is the idealisation "over exact real arithmetic".

The `libm` functions (`sqrt`, `acos`, `cos`, `sin`) and the constant `M_PI` are
fields of `Libm K`.  Values of `size_t` are natural numbers, with the arithmetic
of `size_t` taken modulo `2 ^ w`; the construction of a `std::vector` can fail.
The output stream is the list of the pieces written to it, together with its
good/failed state.
-/

set_option linter.unusedSectionVars false

namespace svg

/-- The C++ type `double`: a finite value, or `+inf`, `-inf`, `NaN`. -/
inductive Double (K : Type) where
  | fin (x : K)
  | pinf
  | ninf
  | nan
  deriving DecidableEq, Repr

/-- The arithmetic of `double`: how the exact result of an operation on finite values, or the
exact value of a decimal literal, is delivered as a double. -/
class Rounding (K : Type) where
  round : K → Double K

/-- The idealised arithmetic: every exact result is delivered as it is. -/
class ExactArith (K : Type) extends Rounding K where
  round_eq : ∀ x : K, round x = Double.fin x

/-- The functions of `<cmath>` used by the source, on finite arguments in their domain. -/
structure Libm (K : Type) where
  sqrt : K → K
  acos : K → K
  cos : K → K
  sin : K → K
  /-- The constant `M_PI`. -/
  pi : K

namespace Double

variable {K : Type} [LinearOrderedField K] [Rounding K]

/-- A decimal literal of the source, such as `0.001`. -/
def lit (x : K) : Double K := Rounding.round x

/-- Addition of doubles. -/
def add : Double K → Double K → Double K
  | fin a, fin b => Rounding.round (a + b)
  | nan, _ => nan
  | _, nan => nan
  | pinf, ninf => nan
  | ninf, pinf => nan
  | pinf, _ => pinf
  | _, pinf => pinf
  | ninf, _ => ninf
  | _, ninf => ninf

/-- Unary minus of doubles. -/
def neg : Double K → Double K
  | fin a => fin (-a)
  | pinf => ninf
  | ninf => pinf
  | nan => nan

/-- Subtraction of doubles. -/
def sub (a b : Double K) : Double K := add a (neg b)

/-- The product of an infinity (`+inf` when `positive`, else `-inf`) and the finite value `t`. -/
def infTimes (positive : Bool) (t : K) : Double K :=
  if t = 0 then nan else if decide (0 < t) = positive then pinf else ninf

/-- Multiplication of doubles. -/
def mul : Double K → Double K → Double K
  | fin a, fin b => Rounding.round (a * b)
  | nan, _ => nan
  | _, nan => nan
  | pinf, fin b => infTimes true b
  | ninf, fin b => infTimes false b
  | fin a, pinf => infTimes true a
  | fin a, ninf => infTimes false a
  | pinf, pinf => pinf
  | ninf, ninf => pinf
  | pinf, ninf => ninf
  | ninf, pinf => ninf

/-- Division of doubles: `0/0` is `NaN`, `x/0` is an infinity for `x ≠ 0`. -/
def div : Double K → Double K → Double K
  | fin a, fin b =>
    if b = 0 then (if a = 0 then nan else if 0 < a then pinf else ninf)
    else Rounding.round (a / b)
  | nan, _ => nan
  | _, nan => nan
  | fin _, pinf => fin 0
  | fin _, ninf => fin 0
  | pinf, fin b => if 0 ≤ b then pinf else ninf
  | ninf, fin b => if 0 ≤ b then ninf else pinf
  | pinf, pinf => nan
  | pinf, ninf => nan
  | ninf, pinf => nan
  | ninf, ninf => nan

instance : Add (Double K) := ⟨add⟩
instance : Sub (Double K) := ⟨sub⟩
instance : Mul (Double K) := ⟨mul⟩
instance : Div (Double K) := ⟨div⟩
instance : Neg (Double K) := ⟨neg⟩

/-- The comparison `a < b` of doubles; false when either side is `NaN`. -/
def lt : Double K → Double K → Bool
  | fin a, fin b => decide (a < b)
  | nan, _ => false
  | _, nan => false
  | ninf, ninf => false
  | ninf, _ => true
  | pinf, _ => false
  | fin _, pinf => true
  | fin _, ninf => false

/-- The comparison `a > b` of doubles. -/
def gt (a b : Double K) : Bool := lt b a

/-- The comparison `a == b` of doubles; false when either side is `NaN`. -/
def beq : Double K → Double K → Bool
  | fin a, fin b => decide (a = b)
  | pinf, pinf => true
  | ninf, ninf => true
  | _, _ => false

/-- The function `fabs`. -/
def fabs : Double K → Double K
  | fin a => fin |a|
  | pinf => pinf
  | ninf => pinf
  | nan => nan

/-- The test `__isnan`. -/
def isnan : Double K → Bool
  | nan => true
  | _ => false

/-- The function `sqrt`: `NaN` on negative arguments. -/
def sqrt (m : Libm K) : Double K → Double K
  | fin a => if 0 ≤ a then fin (m.sqrt a) else nan
  | pinf => pinf
  | ninf => nan
  | nan => nan

/-- The function `acos`: `NaN` outside `[-1, 1]`. -/
def acos (m : Libm K) : Double K → Double K
  | fin a => if -1 ≤ a ∧ a ≤ 1 then fin (m.acos a) else nan
  | pinf => nan
  | ninf => nan
  | nan => nan

/-- The function `cos`: `NaN` on infinities. -/
def cos (m : Libm K) : Double K → Double K
  | fin a => fin (m.cos a)
  | pinf => nan
  | ninf => nan
  | nan => nan

/-- The function `sin`: `NaN` on infinities. -/
def sin (m : Libm K) : Double K → Double K
  | fin a => fin (m.sin a)
  | pinf => nan
  | ninf => nan
  | nan => nan

end Double

open Double

section Definitions

variable {K : Type} [LinearOrderedField K] [Rounding K]

/-- The struct `svg::Vector`. -/
structure Vector (K : Type) where
  X : Double K
  Y : Double K
  deriving DecidableEq, Repr

/-- The struct `svg::Point`. -/
structure Point (K : Type) where
  X : Double K
  Y : Double K
  deriving DecidableEq, Repr

/-- The struct `svg::LineSegment`. -/
structure LineSegment (K : Type) where
  P1 : Point K
  P2 : Point K
  deriving DecidableEq, Repr

namespace Vector

/-- `Vector::operator==`: both coordinate differences below `0.001` in absolute value. -/
def eq (self rhs : Vector K) : Bool :=
  lt (fabs (self.X - rhs.X)) (lit (1 / 1000)) && lt (fabs (self.Y - rhs.Y)) (lit (1 / 1000))

/-- `Vector::operator!=`. -/
def ne (self rhs : Vector K) : Bool := !(eq rhs self)

/-- `Vector::operator*(double)`. -/
def mul (self : Vector K) (n : Double K) : Vector K := ⟨self.X * n, self.Y * n⟩

/-- `Vector::norm`. -/
def norm (m : Libm K) (self : Vector K) : Vector K :=
  let length := Double.sqrt m (self.X * self.X + self.Y * self.Y)
  ⟨self.X / length, self.Y / length⟩

/-- `Vector::getLength`. -/
def getLength (m : Libm K) (self : Vector K) : Double K :=
  Double.sqrt m (self.X * self.X + self.Y * self.Y)

/-- The argument handed to `acos` in `Vector::getAngle`. -/
def getAngleArg (m : Libm K) (self v : Vector K) : Double K :=
  let epsilon : Double K := lit (9999 / 10000)
  (self.X * v.X + self.Y * v.Y) / (getLength m self * getLength m v) * epsilon

/-- `Vector::getAngle`. -/
def getAngle (m : Libm K) (self v : Vector K) : Double K :=
  Double.acos m (getAngleArg m self v)

end Vector

namespace Point

/-- `Point::operator==`: exact comparison of both coordinates. -/
def eq (self rhs : Point K) : Bool := beq self.X rhs.X && beq self.Y rhs.Y

/-- `Point::operator-`. -/
def sub (self p : Point K) : Vector K := ⟨self.X - p.X, self.Y - p.Y⟩

/-- `Point::operator+`. -/
def add (self : Point K) (v : Vector K) : Point K := ⟨self.X + v.X, self.Y + v.Y⟩

end Point

namespace LineSegment

/-- `LineSegment::NO_INTERSECTION`, that is `std::numeric_limits<double>::min()`, `2^-1022`. -/
def NO_INTERSECTION : Double K := fin (1 / 2 ^ 1022)

/-- `LineSegment::getVec`. -/
def getVec (self : LineSegment K) : Vector K := Point.sub self.P2 self.P1

/-- The condition of the first `if` of `LineSegment::intersect` (the parallel check). -/
def parallelCheck (m : Libm K) (self ls : LineSegment K) : Bool :=
  Vector.eq (Vector.norm m (getVec ls)) (Vector.norm m (getVec self))
    || Vector.eq (Vector.mul (Vector.norm m (getVec ls)) (fin (-1))) (Vector.norm m (getVec self))

/-- The divisor of both quotients of `LineSegment::intersect`. -/
def divisor (self ls : LineSegment K) : Double K :=
  (self.P1.X - self.P2.X) * (ls.P1.Y - ls.P2.Y) - (self.P1.Y - self.P2.Y) * (ls.P1.X - ls.P2.X)

/-- `LineSegment::intersect`. -/
def intersect (m : Libm K) (self ls : LineSegment K) : Point K :=
  if parallelCheck m self ls then
    ⟨NO_INTERSECTION, NO_INTERSECTION⟩
  else
    let EPSILON : Double K := lit (1 / 100)
    let PX := ((self.P1.X * self.P2.Y - self.P1.Y * self.P2.X) * (ls.P1.X - ls.P2.X)
        - (self.P1.X - self.P2.X) * (ls.P1.X * ls.P2.Y - ls.P1.Y * ls.P2.X)) / divisor self ls
    let PY := ((self.P1.X * self.P2.Y - self.P1.Y * self.P2.X) * (ls.P1.Y - ls.P2.Y)
        - (self.P1.Y - self.P2.Y) * (ls.P1.X * ls.P2.Y - ls.P1.Y * ls.P2.X)) / divisor self ls
    let lambda1 := (PX - ls.P1.X) / (ls.P2.X - ls.P1.X)
    let lambda2 := (PX - self.P1.X) / (self.P2.X - self.P1.X)
    let lambda1 := if isnan lambda1 then (PY - ls.P1.Y) / (ls.P2.Y - ls.P1.Y) else lambda1
    let lambda2 := if isnan lambda2 then (PY - self.P1.Y) / (self.P2.Y - self.P1.Y) else lambda2
    if lt lambda1 (fin 0 + EPSILON) || gt lambda1 (fin 1 - EPSILON)
        || lt lambda2 (fin 0 + EPSILON) || gt lambda2 (fin 1 - EPSILON) then
      ⟨NO_INTERSECTION, NO_INTERSECTION⟩
    else
      ⟨PX, PY⟩

/-- `LineSegment::getLength`. -/
def getLength (m : Libm K) (self : LineSegment K) : Double K :=
  let vec := getVec self
  Double.sqrt m (vec.X * vec.X + vec.Y * vec.Y)

/-- The local variable `P` of `LineSegment::intersect`: the two quotients. -/
def intersectP (self ls : LineSegment K) : Point K :=
  ⟨((self.P1.X * self.P2.Y - self.P1.Y * self.P2.X) * (ls.P1.X - ls.P2.X)
      - (self.P1.X - self.P2.X) * (ls.P1.X * ls.P2.Y - ls.P1.Y * ls.P2.X)) / divisor self ls,
    ((self.P1.X * self.P2.Y - self.P1.Y * self.P2.X) * (ls.P1.Y - ls.P2.Y)
      - (self.P1.Y - self.P2.Y) * (ls.P1.X * ls.P2.Y - ls.P1.Y * ls.P2.X)) / divisor self ls⟩

/-- The local variable `lambda1` of `LineSegment::intersect` when it is tested: the X-span ratio
of `P` along `ls`, or the Y-span ratio when the X-span ratio is `NaN`. -/
def intersectLambda1 (self ls : LineSegment K) : Double K :=
  if isnan (((intersectP self ls).X - ls.P1.X) / (ls.P2.X - ls.P1.X))
  then ((intersectP self ls).Y - ls.P1.Y) / (ls.P2.Y - ls.P1.Y)
  else ((intersectP self ls).X - ls.P1.X) / (ls.P2.X - ls.P1.X)

/-- The local variable `lambda2` of `LineSegment::intersect` when it is tested: the X-span ratio
of `P` along `this`, or the Y-span ratio when the X-span ratio is `NaN`. -/
def intersectLambda2 (self ls : LineSegment K) : Double K :=
  if isnan (((intersectP self ls).X - self.P1.X) / (self.P2.X - self.P1.X))
  then ((intersectP self ls).Y - self.P1.Y) / (self.P2.Y - self.P1.Y)
  else ((intersectP self ls).X - self.P1.X) / (self.P2.X - self.P1.X)

/-- The condition of the last `if` of `LineSegment::intersect` (the band test), on the values of
`lambda1` and `lambda2`. -/
def bandTest (lambda1 lambda2 : Double K) : Bool :=
  lt lambda1 (fin 0 + lit (1 / 100)) || gt lambda1 (fin 1 - lit (1 / 100))
    || lt lambda2 (fin 0 + lit (1 / 100)) || gt lambda2 (fin 1 - lit (1 / 100))

end LineSegment

/-- The segment from `(x1, y1)` to `(x2, y2)` with finite coordinates. -/
def LineSegment.finite (x1 y1 x2 y2 : K) : LineSegment K :=
  ⟨⟨fin x1, fin y1⟩, ⟨fin x2, fin y2⟩⟩

/-- The constant `svg::FILE_NAME`. -/
def FILE_NAME : String := "output_image.svg"

/-- The constant `svg::IMAGE_HEIGHT`. -/
def IMAGE_HEIGHT : Double K := fin 1080

/-- The constant `svg::IMAGE_WIDTH`. -/
def IMAGE_WIDTH : Double K := fin 1920

/-- The constant `svg::COLORS`. -/
def COLORS : List String :=
  ["black", "red", "yellow", "green", "cyan", "blue", "pink",
    "tomato", "greenyelow", "turquoise", "dodgerblue", "purple", "mediumvioletred",
    "darkorange", "lightgreen", "aquamarine", "royalblue", "mediumpurple", "hotpink"]

/-- The default colour argument `COLORS[0]`. -/
def defaultColor : String := COLORS.headD ""

/-- One piece of text written to the output stream `m_file`.  The numeric attributes are kept
as doubles and the colour as a string; the decimal formatting of `operator<<` is not modelled.
The constructor writes `htmlOpen`, `svgOpen`, `background`; the destructor writes `svgClose`,
`htmlClose`; the shape operations write `line`, `circle`, `rect`. -/
inductive Element (K : Type) where
  | htmlOpen
  | svgOpen (width height : Double K)
  | background (fill : String)
  | line (x1 y1 x2 y2 : Double K) (stroke : String)
  | circle (cx cy r : Double K) (stroke : String) (fill : Option String)
  | rect (x y width height : Double K) (fill : String)
  | svgClose
  | htmlClose
  deriving DecidableEq, Repr

/-- Whether an element is a shape element (`line`, `circle` or `rect`). -/
def Element.isShape : Element K → Bool
  | Element.line _ _ _ _ _ => true
  | Element.circle _ _ _ _ _ => true
  | Element.rect _ _ _ _ _ => true
  | _ => false

/-- The type `std::ofstream`: whether the stream is in a good state (the destination was
opened), and what has been written to the destination. -/
structure Ofstream (K : Type) where
  good : Bool
  written : List (Element K)
  deriving DecidableEq, Repr

namespace Ofstream

/-- The constructor `std::ofstream(file_name)`; `canOpen` tells which destinations can be
opened.  A destination that cannot be opened leaves the stream in a failed state, without an
exception. -/
def create (canOpen : String → Bool) (file_name : String) : Ofstream K :=
  ⟨canOpen file_name, []⟩

/-- The insertion `operator<<`: appends to a good stream, does nothing on a failed stream. -/
def put (self : Ofstream K) (es : List (Element K)) : Ofstream K :=
  if self.good then ⟨self.good, self.written ++ es⟩ else self

end Ofstream

/-- The class `svg::SVGFile`: the canvas size and the output stream `m_file`. -/
structure SVGFile (K : Type) where
  m_height : Double K
  m_width : Double K
  m_file : Ofstream K
  deriving DecidableEq, Repr

namespace SVGFile

/-- The constructor `SVGFile(file_name, height, width, color)`; the default of `color` is
`"white"`. -/
def create (canOpen : String → Bool) (file_name : String) (height width : Double K)
    (color : String) : SVGFile K :=
  ⟨height, width, (Ofstream.create canOpen file_name).put
    [Element.htmlOpen, Element.svgOpen width height, Element.background "white"]⟩

/-- The constructor `SVGFile(file_name)`. -/
def createNamed (canOpen : String → Bool) (file_name : String) : SVGFile K :=
  create canOpen file_name IMAGE_HEIGHT IMAGE_WIDTH "white"

/-- The constructor `SVGFile()`. -/
def createDefault (canOpen : String → Bool) : SVGFile K :=
  createNamed canOpen FILE_NAME

/-- `SVGFile::addLine`. -/
def addLine (self : SVGFile K) (a b : Point K) (col : String) (upscale : Bool) : SVGFile K :=
  let aX := if upscale then self.m_width / fin 2 + a.X * self.m_width / fin 2 else a.X
  let bX := if upscale then self.m_width / fin 2 + b.X * self.m_width / fin 2 else b.X
  let aY := if upscale then self.m_height / fin 2 + a.Y * self.m_height / fin 2 else a.Y
  let bY := if upscale then self.m_height / fin 2 + b.Y * self.m_height / fin 2 else b.Y
  ⟨self.m_height, self.m_width, self.m_file.put [Element.line aX aY bX bY col]⟩

/-- `SVGFile::addCircle`. -/
def addCircle (self : SVGFile K) (c : Point K) (rad : Double K) (fill : Bool) (col : String)
    (upscale : Bool) : SVGFile K :=
  let cX := if upscale then self.m_width / fin 2 + c.X * self.m_width / fin 2 else c.X
  let cY := if upscale then self.m_height / fin 2 + c.Y * self.m_height / fin 2 else c.Y
  ⟨self.m_height, self.m_width,
    self.m_file.put [Element.circle cX cY rad col (if fill then some col else none)]⟩

/-- `SVGFile::addRect`. -/
def addRect (self : SVGFile K) (c : Point K) (width height : Double K) (col : String)
    (upscale : Bool) : SVGFile K :=
  if upscale then
    let width := width * (self.m_width / fin 2)
    let height := height * (self.m_height / fin 2)
    let cX := self.m_width / fin 2 + c.X * self.m_width / fin 2 - width / fin 2
    let cY := self.m_height / fin 2 + c.Y * self.m_height / fin 2 - height / fin 2
    ⟨self.m_height, self.m_width, self.m_file.put [Element.rect cX cY width height col]⟩
  else
    let cX := c.X - width / fin 2
    let cY := c.Y - height / fin 2
    ⟨self.m_height, self.m_width, self.m_file.put [Element.rect cX cY width height col]⟩

/-- The destructor `~SVGFile`: writes the closing markers; the result is the stream as it is
left when the object goes out of scope. -/
def destroy (self : SVGFile K) : Ofstream K :=
  self.m_file.put [Element.svgClose, Element.htmlClose]

end SVGFile

/-- One call of a shape operation of `SVGFile`, with its arguments. -/
inductive ShapeCall (K : Type) where
  | addLine (a b : Point K) (col : String) (upscale : Bool)
  | addCircle (c : Point K) (rad : Double K) (fill : Bool) (col : String) (upscale : Bool)
  | addRect (c : Point K) (width height : Double K) (col : String) (upscale : Bool)
  deriving DecidableEq, Repr

/-- Performs one shape call on an `SVGFile`. -/
def SVGFile.call (self : SVGFile K) : ShapeCall K → SVGFile K
  | ShapeCall.addLine a b col upscale => self.addLine a b col upscale
  | ShapeCall.addCircle c rad fill col upscale => self.addCircle c rad fill col upscale
  | ShapeCall.addRect c width height col upscale => self.addRect c width height col upscale

/-- The life of one `SVGFile` object: constructed, used for the shape calls in order, destroyed
when it goes out of scope (the class can be neither copied nor moved, so the destructor of the
object runs once).  The result is what has been written to the destination. -/
def SVGFile.document (canOpen : String → Bool) (file_name : String) (height width : Double K)
    (color : String) (calls : List (ShapeCall K)) : List (Element K) :=
  (SVGFile.destroy (calls.foldl SVGFile.call
    (SVGFile.create canOpen file_name height width color))).written

/-- The class `svg::Turtle`. -/
structure Turtle (K : Type) where
  m_file : SVGFile K
  m_pos : Point K
  m_degree : Double K
  m_drawing : Bool
  deriving DecidableEq, Repr

namespace Turtle

/-- The constructor `Turtle(filename)`. -/
def createNamed (canOpen : String → Bool) (filename : String) : Turtle K :=
  let m_file : SVGFile K := SVGFile.createNamed canOpen filename
  ⟨m_file, ⟨m_file.m_width / fin 2, m_file.m_height / fin 2⟩, fin 0, true⟩

/-- The constructor `Turtle(filename, height, width)`. -/
def create (canOpen : String → Bool) (filename : String) (height width : Double K) : Turtle K :=
  ⟨SVGFile.create canOpen filename height width "white", ⟨width / fin 2, height / fin 2⟩,
    fin 0, true⟩

/-- `Turtle::toRad`. -/
def toRad (m : Libm K) (degrees : Double K) : Double K := fin m.pi / fin 180 * degrees

/-- `Turtle::toDeg`. -/
def toDeg (m : Libm K) (radians : Double K) : Double K := fin 180 / fin m.pi * radians

/-- `Turtle::forward`. -/
def forward (m : Libm K) (self : Turtle K) (len : Double K) : Turtle K :=
  let radDegree := toRad m self.m_degree
  let newPos := Point.add self.m_pos
    (Vector.mul ⟨Double.cos m radDegree, -Double.sin m radDegree⟩ len)
  let m_file :=
    if self.m_drawing then self.m_file.addLine self.m_pos newPos defaultColor false
    else self.m_file
  ⟨m_file, newPos, self.m_degree, self.m_drawing⟩

/-- `Turtle::back`. -/
def back (m : Libm K) (self : Turtle K) (len : Double K) : Turtle K :=
  forward m self (-len)

/-- `Turtle::left`; the default of `radians` is `false`. -/
def left (m : Libm K) (self : Turtle K) (angle : Double K) (radians : Bool) : Turtle K :=
  let angle := if radians then toDeg m angle else angle
  ⟨self.m_file, self.m_pos, self.m_degree + angle, self.m_drawing⟩

/-- `Turtle::right`; the default of `radians` is `false`. -/
def right (m : Libm K) (self : Turtle K) (angle : Double K) (radians : Bool) : Turtle K :=
  left m self (-angle) radians

/-- `Turtle::drawing`. -/
def drawing (self : Turtle K) (draw : Bool) : Turtle K :=
  ⟨self.m_file, self.m_pos, self.m_degree, draw⟩

end Turtle

/-- The ways `Matrix::operator*` can fail: the `assert`, `std::out_of_range` from `at`, and
`std::length_error` or `std::bad_alloc` from the construction of the vector of the result. -/
inductive Failure where
  | assertion
  | out_of_range
  | length_error
  | bad_alloc
  deriving DecidableEq, Repr

/-- The platform as `std::vector<double>` sees it: the width `w` of `size_t` in bits, the value
of `max_size()`, and the element counts for which the allocation succeeds. -/
structure Machine where
  w : Nat
  max_size : Nat
  canAllocate : Nat → Bool

/-- The constructor `std::vector<double>(n, x)`: `std::length_error` when `n` exceeds
`max_size()`, `std::bad_alloc` when the allocation fails, else `n` copies of `x`. -/
def vectorFill {α : Type} (M : Machine) (n : Nat) (x : α) : Except Failure (List α) :=
  if M.max_size < n then Except.error Failure.length_error
  else if M.canAllocate n then Except.ok (List.replicate n x)
  else Except.error Failure.bad_alloc

/-- The member `std::vector::at`: the element at index `i`, or `std::out_of_range`. -/
def vectorAt {α : Type} (v : List α) (i : Nat) : Except Failure α :=
  match v[i]? with
  | some x => Except.ok x
  | none => Except.error Failure.out_of_range

/-- The loop `for (size_t i = 0; i < n; ++i) body`, threading the state through the body. -/
def forLoop {σ : Type} (n : Nat) (body : Nat → σ → Except Failure σ) (s : σ) :
    Except Failure σ :=
  (List.range n).foldlM (fun s i => body i s) s

/-- The struct `svg::Matrix`; `size_t` values are natural numbers, and the arithmetic of
`size_t` is taken modulo `2 ^ w` where `w` is the width of `size_t`. -/
structure Matrix (K : Type) where
  _d : List (Double K)
  _rows : Nat
  _cols : Nat
  deriving DecidableEq, Repr

namespace Matrix

/-- The constructor `Matrix(rows, cols)`: a vector of `rows*cols` zeros, the product taken in
`size_t`; it fails when the vector cannot be constructed. -/
def zero (M : Machine) (rows cols : Nat) : Except Failure (Matrix K) := do
  let d ← vectorFill M ((rows * cols) % 2 ^ M.w) (fin 0)
  pure ⟨d, rows, cols⟩

/-- The constructor `Matrix(list, rows, cols)`. -/
def ofList (list : List (Double K)) (rows cols : Nat) : Matrix K :=
  ⟨list, rows, cols⟩

/-- The body of the innermost loop of `Matrix::operator*`:
`product._d.at(row*mat._cols + col) += _d.at(_cols*row+i) * mat._d.at(i*mat._cols+col)`. -/
def mulStep (w : Nat) (self mat : Matrix K) (row col i : Nat) (product : Matrix K) :
    Except Failure (Matrix K) := do
  let a ← vectorAt self._d ((self._cols * row + i) % 2 ^ w)
  let b ← vectorAt mat._d ((i * mat._cols + col) % 2 ^ w)
  let c ← vectorAt product._d ((row * mat._cols + col) % 2 ^ w)
  pure ⟨product._d.set ((row * mat._cols + col) % 2 ^ w) (c + a * b), product._rows,
    product._cols⟩

/-- `Matrix::operator*`. -/
def mul (M : Machine) (self mat : Matrix K) : Except Failure (Matrix K) :=
  if self._cols ≠ mat._rows then
    Except.error Failure.assertion
  else do
    let product ← zero M self._rows mat._cols
    forLoop self._rows (fun row product =>
      forLoop mat._cols (fun col product =>
        forLoop self._cols (fun i product => mulStep M.w self mat row col i product) product)
        product)
      product

/-- A matrix as the claims take it: `_rows * _cols` stored entries, and sizes that are values
of `size_t`. -/
def WellFormed (w : Nat) (A : Matrix K) : Prop :=
  A._d.length = A._rows * A._cols ∧ A._d.length < 2 ^ w ∧ A._rows < 2 ^ w ∧ A._cols < 2 ^ w

/-- The sum of the products `A[row, i] * B[i, col]` for `i < k`, added to `0` in the order
`i = 0, 1, ..., k - 1`, with entries in row-major layout. -/
def dotUpTo (A B : Matrix K) (row col k : Nat) : Double K :=
  (List.range k).foldl
    (fun acc i => acc + (A._d.getD (A._cols * row + i) nan) * (B._d.getD (i * B._cols + col) nan))
    (fin 0)

/-- The sum over `i < n` of `A[row, i] * B[i, col]`, where `n` is the number of columns of
`A`. -/
def dot (A B : Matrix K) (row col : Nat) : Double K :=
  dotUpTo A B row col A._cols

/-- The entries of the product `A * B` when the first `k` cells, in row-major order, have been
computed and the others are still `0`. -/
def filled (A B : Matrix K) (k : Nat) : List (Double K) :=
  (List.range (A._rows * B._cols)).map
    (fun j => if j < k then dot A B (j / B._cols) (j % B._cols) else fin 0)

end Matrix

end Definitions

/-! ### The two arithmetics -/

/-- The exact arithmetic of the real numbers. -/
instance : ExactArith ℝ where
  round := Double.fin
  round_eq := fun _ => rfl

/-- The exact arithmetic of the rational numbers. -/
instance : ExactArith ℚ where
  round := Double.fin
  round_eq := fun _ => rfl

/-- The real-number instance of the `<cmath>` functions and of the constant `M_PI`. -/
noncomputable def Libm.real : Libm ℝ where
  sqrt := Real.sqrt
  acos := Real.arccos
  cos := Real.cos
  sin := Real.sin
  pi := Real.pi

/-- The carrier of IEEE-754 binary64 arithmetic: the rational numbers, with the rounding
`round64`. -/
def Binary64 : Type := ℚ

instance : LinearOrderedField Binary64 := inferInstanceAs (LinearOrderedField ℚ)

/-- The power `2 ^ e` as a rational number. -/
def pow2 (e : ℤ) : ℚ :=
  if 0 ≤ e then ((2 ^ e.toNat : ℕ) : ℚ) else 1 / ((2 ^ (-e).toNat : ℕ) : ℚ)

/-- Halving with fuel for `log2`: adds to `acc` the number of times `n` can be halved before it
is below `2`. -/
def log2Aux : Nat → Nat → Nat → Nat
  | 0, _, acc => acc
  | f + 1, n, acc => if n < 2 then acc else log2Aux f (n / 2) (acc + 1)

/-- The largest `e` with `2 ^ e ≤ n`, for `n ≥ 1`. -/
def log2 (n : Nat) : Nat := log2Aux n n 0

/-- The integer `e` with `2 ^ e ≤ x < 2 ^ (e + 1)`, for a positive rational `x`. -/
def ilog2 (x : ℚ) : ℤ :=
  let e0 : ℤ := (log2 x.num.natAbs : ℤ) - (log2 x.den : ℤ)
  if x < pow2 e0 then e0 - 1 else e0

/-- The integer nearest to a non-negative rational, ties to the even one. -/
def roundEven (x : ℚ) : ℤ :=
  let f := ⌊x⌋
  let r := x - f
  if r < 1 / 2 then f else if 1 / 2 < r then f + 1 else if f % 2 = 0 then f else f + 1

/-- IEEE-754 binary64 rounding to nearest, ties to even: the value is rounded to 53 significant
bits, or to a multiple of `2 ^ -1074` below `2 ^ -1022`; a result of magnitude `2 ^ 1024` or more
is an infinity. -/
def round64 (x : ℚ) : Double Binary64 :=
  if x = 0 then Double.fin (0 : ℚ) else
  let a := |x|
  let e := max (ilog2 a) (-1022)
  let q : ℚ := pow2 (e - 52)
  let y : ℚ := (roundEven (a / q) : ℚ) * q
  if pow2 1024 ≤ y then (if 0 < x then Double.pinf else Double.ninf)
  else Double.fin (if 0 < x then y else -y)

/-- IEEE-754 binary64 arithmetic. -/
instance : Rounding Binary64 := ⟨round64⟩

/-- Digit-by-digit integer square root: with `r` found so far, decides the bits `2 ^ (i - 1)`,
..., `2 ^ 0`. -/
def isqrtAux : Nat → Nat → Nat → Nat
  | 0, _, r => r
  | i + 1, n, r =>
    if (r + 2 ^ i) * (r + 2 ^ i) ≤ n then isqrtAux i n (r + 2 ^ i) else isqrtAux i n r

/-- The largest `r` below `2 ^ 64` with `r * r ≤ n`. -/
def isqrt (n : Nat) : Nat := isqrtAux 64 n 0

/-- The correctly rounded square root of IEEE-754 binary64, for a non-negative `x`: the double
nearest to the square root of `x`. -/
def sqrt64 (x : ℚ) : ℚ :=
  if x ≤ 0 then 0 else
  let h : ℤ := ilog2 x / 2
  let q : ℚ := pow2 (h - 52)
  let n : ℕ := isqrt ⌊x / (q * q)⌋.toNat
  let mid : ℚ := ((n : ℚ) + 1 / 2) * q
  if x < mid * mid then (n : ℚ) * q
  else if mid * mid < x then ((n : ℚ) + 1) * q
  else if n % 2 = 0 then (n : ℚ) * q else ((n : ℚ) + 1) * q

/-- The value of the platform's `cos` away from zero: no standard fixes it, it is left
unspecified. -/
noncomputable def platformCos : ℚ → ℚ := Classical.choice ⟨fun _ => 0⟩

/-- The value of the platform's `sin` away from zero, left unspecified. -/
noncomputable def platformSin : ℚ → ℚ := Classical.choice ⟨fun _ => 0⟩

/-- The value of the platform's `acos` away from one, left unspecified. -/
noncomputable def platformAcos : ℚ → ℚ := Classical.choice ⟨fun _ => 0⟩

/-- The binary64 instance of the `<cmath>` functions: `sqrt` is correctly rounded, as IEEE-754
requires; `cos(0) = 1`, `sin(0) = 0` and `acos(1) = 0` are exact, as Annex F of the C standard
requires, and the other values of these three functions are those of the platform; `M_PI` is the
double nearest to pi. -/
noncomputable def Libm.binary64 : Libm Binary64 where
  sqrt := sqrt64
  acos := fun x => if x = (1 : ℚ) then (0 : ℚ) else platformAcos x
  cos := fun x => if x = (0 : ℚ) then (1 : ℚ) else platformCos x
  sin := fun x => if x = (0 : ℚ) then (0 : ℚ) else platformSin x
  pi := (884279719003555 / 281474976710656 : ℚ)

/-- The segment from `(x1, y1)` to `(x2, y2)` with integer coordinates, in binary64. -/
def LineSegment.pixels (x1 y1 x2 y2 : ℤ) : LineSegment Binary64 :=
  ⟨⟨Double.fin (x1 : ℚ), Double.fin (y1 : ℚ)⟩, ⟨Double.fin (x2 : ℚ), Double.fin (y2 : ℚ)⟩⟩

/-- A 64-bit platform: `size_t` of 64 bits, `max_size()` of `std::vector<double>` equal to
`2 ^ 60 - 1`, and an allocator that serves every request. -/
def Machine.lp64 : Machine := ⟨64, 2 ^ 60 - 1, fun _ => true⟩

/-! ## Doubles: comparisons and tests -/

namespace Double

variable {K : Type} [LinearOrderedField K]

@[simp] theorem lt_fin (a b : K) : lt (fin a) (fin b) = decide (a < b) := rfl

@[simp] theorem gt_fin (a b : K) : gt (fin a) (fin b) = decide (b < a) := rfl

@[simp] theorem fabs_fin (a : K) : fabs (fin a) = fin |a| := rfl

@[simp] theorem isnan_fin (a : K) : isnan (fin a) = false := rfl

@[simp] theorem isnan_nan : isnan (nan : Double K) = true := rfl

theorem fin_injective {a b : K} (h : (fin a : Double K) = fin b) : a = b := by
  injection h

@[simp] theorem fin_neg (a : K) : (-(fin a) : Double K) = fin (-a) := rfl

@[simp] theorem cos_fin (m : Libm K) (a : K) : Double.cos m (fin a) = fin (m.cos a) := rfl

@[simp] theorem sin_fin (m : Libm K) (a : K) : Double.sin m (fin a) = fin (m.sin a) := rfl

end Double

/-! ## Exact arithmetic of finite doubles -/

namespace Double

variable {K : Type} [LinearOrderedField K] [ExactArith K]

@[simp] theorem lit_eq (x : K) : (lit x : Double K) = fin x := ExactArith.round_eq x

@[simp] theorem fin_add (a b : K) : (fin a + fin b : Double K) = fin (a + b) :=
  ExactArith.round_eq (a + b)

@[simp] theorem fin_sub (a b : K) : (fin a - fin b : Double K) = fin (a - b) := by
  show add (fin a) (neg (fin b)) = fin (a - b)
  rw [sub_eq_add_neg]
  exact ExactArith.round_eq (a + -b)

@[simp] theorem fin_mul (a b : K) : (fin a * fin b : Double K) = fin (a * b) :=
  ExactArith.round_eq (a * b)

theorem fin_div (a b : K) : (fin a / fin b : Double K) =
    if b = 0 then (if a = 0 then nan else if 0 < a then pinf else ninf) else fin (a / b) := by
  show (if b = 0 then (if a = 0 then nan else if 0 < a then pinf else ninf)
    else Rounding.round (a / b)) = _
  rw [ExactArith.round_eq]

theorem fin_div_of_ne (a : K) {b : K} (h : b ≠ 0) : (fin a / fin b : Double K) = fin (a / b) := by
  rw [fin_div, if_neg h]

@[simp] theorem fin_div_two (a : K) : (fin a / fin 2 : Double K) = fin (a / 2) :=
  fin_div_of_ne a two_ne_zero

@[simp] theorem zero_div_zero : (fin 0 / fin 0 : Double K) = nan := by
  simp [fin_div]

end Double

/-! ## Segment intersection over the real numbers -/

namespace LineSegment

theorem sqrt_sumsq_pos {x y : ℝ} (h : x ≠ 0 ∨ y ≠ 0) : 0 < Real.sqrt (x * x + y * y) := by
  apply Real.sqrt_pos.mpr
  rcases h with h | h
  · have := mul_self_pos.mpr h
    nlinarith [mul_self_nonneg y]
  · have := mul_self_pos.mpr h
    nlinarith [mul_self_nonneg x]

theorem norm_finite (x y : ℝ) (h : x ≠ 0 ∨ y ≠ 0) :
    Vector.norm Libm.real ⟨fin x, fin y⟩
      = ⟨fin (x / Real.sqrt (x * x + y * y)), fin (y / Real.sqrt (x * x + y * y))⟩ := by
  have hpos := sqrt_sumsq_pos h
  have h0 : 0 ≤ x * x + y * y := by nlinarith [mul_self_nonneg x, mul_self_nonneg y]
  simp only [Vector.norm, fin_mul, fin_add, Double.sqrt, Libm.real, if_pos h0,
    fin_div_of_ne _ hpos.ne']

/-- The two unit vectors with vanishing cross product are equal or opposite. -/
theorem unit_parallel {p q r s : ℝ} (h1 : p * p + q * q = 1) (h2 : r * r + s * s = 1)
    (hc : p * s - q * r = 0) : (r = p ∧ s = q) ∨ (r = -p ∧ s = -q) := by
  have hd : (p * r + q * s - 1) * (p * r + q * s + 1) = 0 := by
    nlinarith [hc, h1, h2]
  rcases mul_eq_zero.mp hd with hd | hd
  · left
    have : (r - p) * (r - p) + (s - q) * (s - q) = 0 := by nlinarith
    constructor <;> nlinarith [mul_self_nonneg (r - p), mul_self_nonneg (s - q)]
  · right
    have : (r + p) * (r + p) + (s + q) * (s + q) = 0 := by nlinarith
    constructor <;> nlinarith [mul_self_nonneg (r + p), mul_self_nonneg (s + q)]

theorem unit_of_div {x y : ℝ} (h : x ≠ 0 ∨ y ≠ 0) :
    (x / Real.sqrt (x * x + y * y)) * (x / Real.sqrt (x * x + y * y))
      + (y / Real.sqrt (x * x + y * y)) * (y / Real.sqrt (x * x + y * y)) = 1 := by
  have hpos := sqrt_sumsq_pos h
  have h0 : 0 ≤ x * x + y * y := by nlinarith [mul_self_nonneg x, mul_self_nonneg y]
  have hs : Real.sqrt (x * x + y * y) * Real.sqrt (x * x + y * y) = x * x + y * y :=
    Real.mul_self_sqrt h0
  have hne : x * x + y * y ≠ 0 := (Real.sqrt_pos.mp hpos).ne'
  rw [div_mul_div_comm, div_mul_div_comm, hs, ← add_div, div_self hne]

/-- The parallel check on finite non-degenerate segments, in terms of real numbers. -/
theorem parallelCheck_finite (a b c d e f g h : ℝ) (hA : a ≠ c ∨ b ≠ d) (hB : e ≠ g ∨ f ≠ h) :
    parallelCheck Libm.real (finite a b c d) (finite e f g h)
      = ((decide (|(g - e) / Real.sqrt ((g - e) * (g - e) + (h - f) * (h - f))
              - (c - a) / Real.sqrt ((c - a) * (c - a) + (d - b) * (d - b))| < 1 / 1000)
          && decide (|(h - f) / Real.sqrt ((g - e) * (g - e) + (h - f) * (h - f))
              - (d - b) / Real.sqrt ((c - a) * (c - a) + (d - b) * (d - b))| < 1 / 1000))
        || (decide (|(g - e) / Real.sqrt ((g - e) * (g - e) + (h - f) * (h - f)) * -1
              - (c - a) / Real.sqrt ((c - a) * (c - a) + (d - b) * (d - b))| < 1 / 1000)
          && decide (|(h - f) / Real.sqrt ((g - e) * (g - e) + (h - f) * (h - f)) * -1
              - (d - b) / Real.sqrt ((c - a) * (c - a) + (d - b) * (d - b))| < 1 / 1000))) := by
  have hA2 : c - a ≠ 0 ∨ d - b ≠ 0 := by
    rcases hA with h1 | h1
    · exact Or.inl (sub_ne_zero.mpr (Ne.symm h1))
    · exact Or.inr (sub_ne_zero.mpr (Ne.symm h1))
  have hB2 : g - e ≠ 0 ∨ h - f ≠ 0 := by
    rcases hB with h1 | h1
    · exact Or.inl (sub_ne_zero.mpr (Ne.symm h1))
    · exact Or.inr (sub_ne_zero.mpr (Ne.symm h1))
  simp only [parallelCheck, finite, getVec, Point.sub, fin_sub, norm_finite _ _ hA2,
    norm_finite _ _ hB2, Vector.eq, Vector.mul, fin_mul, fabs_fin, lt_fin, lit_eq]

/-- The divisor of `intersect` on finite segments. -/
theorem divisor_finite (a b c d e f g h : ℝ) :
    divisor (finite a b c d) (finite e f g h) = fin ((a - c) * (f - h) - (b - d) * (e - g)) := by
  simp only [divisor, finite, fin_sub, fin_mul]

/-- Finite non-degenerate segments that pass the parallel check have a nonzero divisor. -/
theorem divisor_ne_zero_of_pass (a b c d e f g h : ℝ) (hA : a ≠ c ∨ b ≠ d) (hB : e ≠ g ∨ f ≠ h)
    (hp : parallelCheck Libm.real (finite a b c d) (finite e f g h) = false) :
    (a - c) * (f - h) - (b - d) * (e - g) ≠ 0 := by
  intro hD
  have hA2 : c - a ≠ 0 ∨ d - b ≠ 0 := by
    rcases hA with h1 | h1
    · exact Or.inl (sub_ne_zero.mpr (Ne.symm h1))
    · exact Or.inr (sub_ne_zero.mpr (Ne.symm h1))
  have hB2 : g - e ≠ 0 ∨ h - f ≠ 0 := by
    rcases hB with h1 | h1
    · exact Or.inl (sub_ne_zero.mpr (Ne.symm h1))
    · exact Or.inr (sub_ne_zero.mpr (Ne.symm h1))
  rw [parallelCheck_finite a b c d e f g h hA hB] at hp
  have u1 := unit_of_div hA2
  have u2 := unit_of_div hB2
  have hc : (c - a) / Real.sqrt ((c - a) * (c - a) + (d - b) * (d - b))
        * ((h - f) / Real.sqrt ((g - e) * (g - e) + (h - f) * (h - f)))
      - (d - b) / Real.sqrt ((c - a) * (c - a) + (d - b) * (d - b))
        * ((g - e) / Real.sqrt ((g - e) * (g - e) + (h - f) * (h - f))) = 0 := by
    rw [div_mul_div_comm, div_mul_div_comm, ← sub_div]
    have : (c - a) * (h - f) - (d - b) * (g - e) = 0 := by linarith
    rw [this, zero_div]
  rcases unit_parallel u1 u2 hc with ⟨h1, h2⟩ | ⟨h1, h2⟩
  · rw [h1, h2] at hp
    norm_num at hp
  · rw [h1, h2] at hp
    norm_num at hp

/-- The parameter computed by `intersect` for a point on the line of a finite non-degenerate
segment: the X-span ratio, or the Y-span ratio when the X-span ratio is `NaN`. -/
theorem lambda_finite (qx qy e f g h t : ℝ) (hB : e ≠ g ∨ f ≠ h)
    (hx : qx = e + t * (g - e)) (hy : qy = f + t * (h - f)) :
    (if isnan ((fin qx - fin e) / (fin g - fin e) : Double ℝ)
      then (fin qy - fin f) / (fin h - fin f) else (fin qx - fin e) / (fin g - fin e)) = fin t := by
  by_cases hg : g = e
  · have hf : h - f ≠ 0 := by
      rcases hB with h1 | h1
      · exact absurd hg.symm h1
      · exact sub_ne_zero.mpr (Ne.symm h1)
    have hx0 : qx - e = 0 := by rw [hx, hg]; ring
    have hy0 : (qy - f) / (h - f) = t := by rw [hy]; field_simp
    simp only [fin_sub, hx0, hg, sub_self, zero_div_zero, isnan_nan, if_true,
      fin_div_of_ne _ hf, hy0]
  · have hg2 : g - e ≠ 0 := sub_ne_zero.mpr hg
    have hx0 : (qx - e) / (g - e) = t := by rw [hx]; field_simp
    simp only [fin_sub, fin_div_of_ne _ hg2, isnan_fin, hx0]
    simp

/-- The crossing point of the two supporting lines is the point computed by `intersect`. -/
theorem crossing_point (a b c d e f g h s t : ℝ)
    (hD : (a - c) * (f - h) - (b - d) * (e - g) ≠ 0)
    (hx : a + s * (c - a) = e + t * (g - e)) (hy : b + s * (d - b) = f + t * (h - f)) :
    ((a * d - b * c) * (e - g) - (a - c) * (e * h - f * g))
        / ((a - c) * (f - h) - (b - d) * (e - g)) = a + s * (c - a)
    ∧ ((a * d - b * c) * (f - h) - (b - d) * (e * h - f * g))
        / ((a - c) * (f - h) - (b - d) * (e - g)) = b + s * (d - b) := by
  constructor
  · rw [div_eq_iff hD]
    linear_combination ((a - c) * (h - f)) * hx - ((a - c) * (g - e)) * hy
  · rw [div_eq_iff hD]
    linear_combination ((b - d) * (h - f)) * hx - ((b - d) * (g - e)) * hy

/-- Evaluation of `intersect` on finite non-degenerate segments that pass the parallel check and
whose supporting lines meet at parameters `s` (along the first) and `t` (along the second). -/
theorem intersect_of_crossing (a b c d e f g h s t : ℝ) (hA : a ≠ c ∨ b ≠ d)
    (hB : e ≠ g ∨ f ≠ h)
    (hp : parallelCheck Libm.real (finite a b c d) (finite e f g h) = false)
    (hx : a + s * (c - a) = e + t * (g - e)) (hy : b + s * (d - b) = f + t * (h - f)) :
    intersect Libm.real (finite a b c d) (finite e f g h)
      = if (decide (t < 0 + 1 / 100) || decide (1 - 1 / 100 < t)
            || decide (s < 0 + 1 / 100) || decide (1 - 1 / 100 < s)) = true
        then ⟨NO_INTERSECTION, NO_INTERSECTION⟩
        else ⟨fin (a + s * (c - a)), fin (b + s * (d - b))⟩ := by
  have hD := divisor_ne_zero_of_pass a b c d e f g h hA hB hp
  obtain ⟨hPX, hPY⟩ := crossing_point a b c d e f g h s t hD hx hy
  have l1 := lambda_finite (a + s * (c - a)) (b + s * (d - b)) e f g h t hB hx hy
  have l2 := lambda_finite (a + s * (c - a)) (b + s * (d - b)) a b c d s hA rfl rfl
  unfold intersect
  rw [hp, divisor_finite]
  simp only [finite, fin_sub, fin_mul, fin_add, fin_div_of_ne _ hD, hPX, hPY, lit_eq] at l1 l2 ⊢
  simp only [l1, l2, lt_fin, gt_fin]
  simp

/-- Finite segments with a nonzero divisor have supporting lines that meet. -/
theorem crossing_exists (a b c d e f g h : ℝ)
    (hD : (a - c) * (f - h) - (b - d) * (e - g) ≠ 0) :
    ∃ s t : ℝ, a + s * (c - a) = e + t * (g - e) ∧ b + s * (d - b) = f + t * (h - f) := by
  refine ⟨((e - a) * (h - f) - (f - b) * (g - e)) / ((a - c) * (f - h) - (b - d) * (e - g)),
    ((e - a) * (d - b) - (f - b) * (c - a)) / ((a - c) * (f - h) - (b - d) * (e - g)), ?_, ?_⟩
  · field_simp
    ring
  · field_simp
    ring

theorem sentinel_of_parallelCheck {K : Type} [LinearOrderedField K] [Rounding K] (m : Libm K)
    (A B : LineSegment K) (hp : parallelCheck m A B = true) :
    intersect m A B = ⟨NO_INTERSECTION, NO_INTERSECTION⟩ := by
  unfold intersect
  rw [if_pos hp]

/-- The three exits of `intersect` in terms of the parallel check, the band test on the computed
parameters and the computed point, in every arithmetic. -/
theorem intersect_exits {K : Type} [LinearOrderedField K] [Rounding K] (m : Libm K)
    (A B : LineSegment K) :
    intersect m A B
      = if parallelCheck m A B = true then ⟨NO_INTERSECTION, NO_INTERSECTION⟩
        else if bandTest (intersectLambda1 A B) (intersectLambda2 A B) = true
          then ⟨NO_INTERSECTION, NO_INTERSECTION⟩
          else intersectP A B := rfl

/-- Claim C1: for finite non-degenerate segments `A`, `B` whose normalised direction vectors are
equal under `Vector::operator==`, or equal after negating either of them, `A.intersect(B)` is the
sentinel point `(NO_INTERSECTION, NO_INTERSECTION)`, whether or not the segments overlap. -/
theorem intersect_parallel_sentinel (a b c d e f g h : ℝ) (hA : a ≠ c ∨ b ≠ d)
    (hB : e ≠ g ∨ f ≠ h)
    (hpar : Vector.eq (Vector.norm Libm.real (getVec (finite a b c d)))
          (Vector.norm Libm.real (getVec (finite e f g h))) = true
      ∨ Vector.eq (Vector.mul (Vector.norm Libm.real (getVec (finite a b c d))) (fin (-1)))
          (Vector.norm Libm.real (getVec (finite e f g h))) = true
      ∨ Vector.eq (Vector.norm Libm.real (getVec (finite a b c d)))
          (Vector.mul (Vector.norm Libm.real (getVec (finite e f g h))) (fin (-1))) = true) :
    intersect Libm.real (finite a b c d) (finite e f g h)
      = ⟨NO_INTERSECTION, NO_INTERSECTION⟩ := by
  apply sentinel_of_parallelCheck
  have hA2 : c - a ≠ 0 ∨ d - b ≠ 0 := by
    rcases hA with h1 | h1
    · exact Or.inl (sub_ne_zero.mpr (Ne.symm h1))
    · exact Or.inr (sub_ne_zero.mpr (Ne.symm h1))
  have hB2 : g - e ≠ 0 ∨ h - f ≠ 0 := by
    rcases hB with h1 | h1
    · exact Or.inl (sub_ne_zero.mpr (Ne.symm h1))
    · exact Or.inr (sub_ne_zero.mpr (Ne.symm h1))
  rw [parallelCheck_finite a b c d e f g h hA hB]
  simp only [finite, getVec, Point.sub, fin_sub, norm_finite _ _ hA2, norm_finite _ _ hB2,
    Vector.eq, Vector.mul, fin_mul, fabs_fin, lt_fin, lit_eq, Bool.and_eq_true,
    decide_eq_true_eq] at hpar
  simp only [Bool.or_eq_true, Bool.and_eq_true, decide_eq_true_eq]
  generalize (c - a) / Real.sqrt ((c - a) * (c - a) + (d - b) * (d - b)) = p at hpar ⊢
  generalize (d - b) / Real.sqrt ((c - a) * (c - a) + (d - b) * (d - b)) = q at hpar ⊢
  generalize (g - e) / Real.sqrt ((g - e) * (g - e) + (h - f) * (h - f)) = r at hpar ⊢
  generalize (h - f) / Real.sqrt ((g - e) * (g - e) + (h - f) * (h - f)) = u at hpar ⊢
  rcases hpar with ⟨h1, h2⟩ | ⟨h1, h2⟩ | ⟨h1, h2⟩
  · left
    exact ⟨by rwa [abs_sub_comm], by rwa [abs_sub_comm]⟩
  · right
    have e1 : r * -1 - p = p * -1 - r := by ring
    have e2 : u * -1 - q = q * -1 - u := by ring
    exact ⟨by rwa [e1], by rwa [e2]⟩
  · right
    have e1 : r * -1 - p = -(p - r * -1) := by ring
    have e2 : u * -1 - q = -(q - u * -1) := by ring
    exact ⟨by rwa [e1, abs_neg], by rwa [e2, abs_neg]⟩

/-- The normalised unit vector along the X axis. -/
theorem norm_unit_x : Vector.norm Libm.real ⟨fin (1 : ℝ), fin 0⟩ = ⟨fin 1, fin 0⟩ := by
  rw [norm_finite 1 0 (Or.inl one_ne_zero)]
  norm_num

/-- The normalised unit vector along the Y axis. -/
theorem norm_unit_y : Vector.norm Libm.real ⟨fin (0 : ℝ), fin 1⟩ = ⟨fin 0, fin 1⟩ := by
  rw [norm_finite 0 1 (Or.inr one_ne_zero)]
  norm_num

/-- Witness of C1: two overlapping collinear unit segments on the X axis. -/
theorem intersect_parallel_sentinel_witness :
    intersect Libm.real (finite (0 : ℝ) 0 1 0) (finite (1 / 2) 0 (3 / 2) 0)
      = ⟨NO_INTERSECTION, NO_INTERSECTION⟩ :=
  intersect_parallel_sentinel 0 0 1 0 (1 / 2) 0 (3 / 2) 0 (Or.inl (by norm_num))
    (Or.inl (by norm_num))
    (Or.inl (by
      have e1 : getVec (finite (0 : ℝ) 0 1 0) = ⟨fin 1, fin 0⟩ := by
        simp [getVec, finite, Point.sub]
      have e2 : getVec (finite (1 / 2 : ℝ) 0 (3 / 2) 0) = ⟨fin 1, fin 0⟩ := by
        simp only [getVec, finite, Point.sub, fin_sub]
        norm_num
      rw [e1, e2, norm_unit_x]
      simp [Vector.eq]))

/-- The sentinel value differs from one half. -/
theorem half_ne_sentinel : (1 / 2 : ℝ) ≠ 1 / 2 ^ 1022 := by
  norm_num

/-- The horizontal and the vertical unit segment through `(1/2, 1/2)` pass the parallel check. -/
theorem parallelCheck_cross :
    parallelCheck Libm.real (finite (0 : ℝ) (1 / 2) 1 (1 / 2)) (finite (1 / 2) 0 (1 / 2) 1)
      = false := by
  have e1 : getVec (finite (0 : ℝ) (1 / 2) 1 (1 / 2)) = ⟨fin 1, fin 0⟩ := by
    simp [getVec, finite, Point.sub]
  have e2 : getVec (finite (1 / 2 : ℝ) 0 (1 / 2) 1) = ⟨fin 0, fin 1⟩ := by
    simp [getVec, finite, Point.sub]
  rw [parallelCheck, e1, e2, norm_unit_x, norm_unit_y]
  simp [Vector.eq, Vector.mul]
  norm_num

/-- The value of `intersect` on the horizontal and the vertical unit segment through
`(1/2, 1/2)`. -/
theorem intersect_cross :
    intersect Libm.real (finite (0 : ℝ) (1 / 2) 1 (1 / 2)) (finite (1 / 2) 0 (1 / 2) 1)
      = ⟨fin (1 / 2), fin (1 / 2)⟩ := by
  rw [intersect_of_crossing 0 (1 / 2) 1 (1 / 2) (1 / 2) 0 (1 / 2) 1 (1 / 2) (1 / 2)
    (Or.inl (by norm_num)) (Or.inr (by norm_num)) parallelCheck_cross (by norm_num)
    (by norm_num)]
  norm_num

/-- Over exact real arithmetic: finite non-degenerate segments that pass the parallel check and
cross at a point `Q` whose parameters `s` (along the first) and `t` (along the second) are
strictly between `0.01` and `0.99` give a point whose coordinates are equal to those of `Q`, and
it is not the sentinel unless `Q` is the sentinel point itself. -/
theorem interior_crossing_exact (a b c d e f g h s t : ℝ) (hA : a ≠ c ∨ b ≠ d)
    (hB : e ≠ g ∨ f ≠ h)
    (hp : parallelCheck Libm.real (finite a b c d) (finite e f g h) = false)
    (hs : 1 / 100 < s ∧ s < 99 / 100) (ht : 1 / 100 < t ∧ t < 99 / 100)
    (hx : a + s * (c - a) = e + t * (g - e)) (hy : b + s * (d - b) = f + t * (h - f)) :
    ∃ px py : ℝ, intersect Libm.real (finite a b c d) (finite e f g h) = ⟨fin px, fin py⟩
      ∧ |px - (a + s * (c - a))| < 1 / 100 ∧ |py - (b + s * (d - b))| < 1 / 100
      ∧ px = a + s * (c - a) ∧ py = b + s * (d - b)
      ∧ (¬ (a + s * (c - a) = 1 / 2 ^ 1022 ∧ b + s * (d - b) = 1 / 2 ^ 1022) →
          intersect Libm.real (finite a b c d) (finite e f g h)
            ≠ ⟨NO_INTERSECTION, NO_INTERSECTION⟩) := by
  have hI := intersect_of_crossing a b c d e f g h s t hA hB hp hx hy
  have hc : (decide (t < 0 + 1 / 100) || decide (1 - 1 / 100 < t)
      || decide (s < 0 + 1 / 100) || decide (1 - 1 / 100 < s)) = false := by
    simp only [Bool.or_eq_false_iff, decide_eq_false_iff_not, not_lt]
    refine ⟨⟨⟨?_, ?_⟩, ?_⟩, ?_⟩ <;> linarith [hs.1, hs.2, ht.1, ht.2]
  rw [hc] at hI
  simp only [Bool.false_eq_true, if_false] at hI
  refine ⟨a + s * (c - a), b + s * (d - b), hI, by norm_num, by norm_num, rfl, rfl, ?_⟩
  intro hne heq
  rw [hI] at heq
  injection heq with h1 h2
  exact hne ⟨fin_injective h1, fin_injective h2⟩

/-- Over exact real arithmetic: finite non-degenerate segments whose supporting lines meet at a
point with parameter `s` along the first and `t` along the second, one of them below `0.01` or
above `0.99`, give the sentinel point.  Vertical segments are included: there the parameter is
the Y-span ratio, the X-span ratio being `0/0 = NaN`. -/
theorem boundary_sentinel_exact (a b c d e f g h s t : ℝ) (hA : a ≠ c ∨ b ≠ d)
    (hB : e ≠ g ∨ f ≠ h)
    (hx : a + s * (c - a) = e + t * (g - e)) (hy : b + s * (d - b) = f + t * (h - f))
    (hout : s < 1 / 100 ∨ 99 / 100 < s ∨ t < 1 / 100 ∨ 99 / 100 < t) :
    intersect Libm.real (finite a b c d) (finite e f g h)
      = ⟨NO_INTERSECTION, NO_INTERSECTION⟩ := by
  cases hp : parallelCheck Libm.real (finite a b c d) (finite e f g h) with
  | true => exact sentinel_of_parallelCheck _ _ _ hp
  | false =>
    rw [intersect_of_crossing a b c d e f g h s t hA hB hp hx hy]
    have hc : (decide (t < 0 + 1 / 100) || decide (1 - 1 / 100 < t)
        || decide (s < 0 + 1 / 100) || decide (1 - 1 / 100 < s)) = true := by
      simp only [Bool.or_eq_true, decide_eq_true_eq]
      rcases hout with h1 | h1 | h1 | h1
      · exact Or.inl (Or.inr (by linarith))
      · exact Or.inr (by linarith)
      · exact Or.inl (Or.inl (Or.inl (by linarith)))
      · exact Or.inl (Or.inl (Or.inr (by linarith)))
    rw [if_pos hc]

/-- Over exact real arithmetic: for finite non-degenerate segments, a result of `intersect`
other than the sentinel point is a point on both segments, with both parameters in
`[0.01, 0.99]`. -/
theorem on_both_segments_exact (a b c d e f g h : ℝ) (hA : a ≠ c ∨ b ≠ d)
    (hB : e ≠ g ∨ f ≠ h)
    (hne : intersect Libm.real (finite a b c d) (finite e f g h)
      ≠ ⟨NO_INTERSECTION, NO_INTERSECTION⟩) :
    ∃ s t : ℝ, (1 / 100 ≤ s ∧ s ≤ 99 / 100) ∧ (1 / 100 ≤ t ∧ t ≤ 99 / 100)
      ∧ intersect Libm.real (finite a b c d) (finite e f g h)
          = ⟨fin (a + s * (c - a)), fin (b + s * (d - b))⟩
      ∧ intersect Libm.real (finite a b c d) (finite e f g h)
          = ⟨fin (e + t * (g - e)), fin (f + t * (h - f))⟩ := by
  cases hp : parallelCheck Libm.real (finite a b c d) (finite e f g h) with
  | true => exact absurd (sentinel_of_parallelCheck _ _ _ hp) hne
  | false =>
    have hD := divisor_ne_zero_of_pass a b c d e f g h hA hB hp
    obtain ⟨s, t, hx, hy⟩ := crossing_exists a b c d e f g h hD
    have hI := intersect_of_crossing a b c d e f g h s t hA hB hp hx hy
    cases hc : (decide (t < 0 + 1 / 100) || decide (1 - 1 / 100 < t)
        || decide (s < 0 + 1 / 100) || decide (1 - 1 / 100 < s)) with
    | true =>
      rw [if_pos hc] at hI
      exact absurd hI hne
    | false =>
      rw [hc] at hI
      simp only [Bool.false_eq_true, if_false] at hI
      simp only [Bool.or_eq_false_iff, decide_eq_false_iff_not, not_lt] at hc
      obtain ⟨⟨⟨h1, h2⟩, h3⟩, h4⟩ := hc
      refine ⟨s, t, ⟨by linarith, by linarith⟩, ⟨by linarith, by linarith⟩, hI, ?_⟩
      rw [hI, hx, hy]

end LineSegment

/-! ## The angle between two vectors -/

namespace Vector

/-- The length of a finite vector. -/
theorem getLength_finite (x y : ℝ) :
    getLength Libm.real ⟨fin x, fin y⟩ = fin (Real.sqrt (x * x + y * y)) := by
  have h0 : 0 ≤ x * x + y * y := by nlinarith [mul_self_nonneg x, mul_self_nonneg y]
  simp only [getLength, fin_mul, fin_add, Double.sqrt, Libm.real, if_pos h0]

/-- The argument of `acos` in `getAngle` on finite nonzero vectors. -/
theorem getAngleArg_finite (x1 y1 x2 y2 : ℝ) (h1 : x1 ≠ 0 ∨ y1 ≠ 0) (h2 : x2 ≠ 0 ∨ y2 ≠ 0) :
    getAngleArg Libm.real ⟨fin x1, fin y1⟩ ⟨fin x2, fin y2⟩
      = fin ((x1 * x2 + y1 * y2)
          / (Real.sqrt (x1 * x1 + y1 * y1) * Real.sqrt (x2 * x2 + y2 * y2)) * (9999 / 10000)) := by
  have p1 := LineSegment.sqrt_sumsq_pos h1
  have p2 := LineSegment.sqrt_sumsq_pos h2
  have hne : Real.sqrt (x1 * x1 + y1 * y1) * Real.sqrt (x2 * x2 + y2 * y2) ≠ 0 :=
    (mul_pos p1 p2).ne'
  simp only [getAngleArg, getLength_finite, fin_mul, fin_add, fin_div_of_ne _ hne, lit_eq]

/-- The inverse cosine of `0.9999` is below `0.015`. -/
theorem arccos_epsilon_lt : Real.arccos (9999 / 10000) < 15 / 1000 := by
  have hb := Real.cos_bound (x := 15 / 1000) (by rw [abs_of_nonneg] <;> norm_num)
  have hc : Real.cos (15 / 1000) < 9999 / 10000 := by
    have := (abs_le.mp hb).2
    rw [abs_of_nonneg (by norm_num : (0 : ℝ) ≤ 15 / 1000)] at this
    norm_num at this ⊢
    linarith
  have hmem1 : Real.cos (15 / 1000) ∈ Set.Icc (-1 : ℝ) 1 :=
    ⟨Real.neg_one_le_cos _, Real.cos_le_one _⟩
  have hmem2 : (9999 / 10000 : ℝ) ∈ Set.Icc (-1 : ℝ) 1 := ⟨by norm_num, by norm_num⟩
  have h := Real.strictAntiOn_arccos hmem1 hmem2 hc
  rwa [Real.arccos_cos (by norm_num) (by linarith [Real.pi_gt_three])] at h

/-- Claim C6: for every finite nonzero vector `v`, over exact real arithmetic `v.getAngle(v)` is
`arccos(0.9999)` and `v.getAngle(-v)` is `pi - arccos(0.9999)`, independently of `v`, and these
values are within `0.015` of `0` and of `pi`. -/
theorem getAngle_self_opposite (x y : ℝ) (hv : x ≠ 0 ∨ y ≠ 0) :
    getAngle Libm.real ⟨fin x, fin y⟩ ⟨fin x, fin y⟩ = fin (Real.arccos (9999 / 10000))
    ∧ getAngle Libm.real ⟨fin x, fin y⟩ ⟨fin (-x), fin (-y)⟩
        = fin (Real.pi - Real.arccos (9999 / 10000))
    ∧ getAngle Libm.real ⟨fin x, fin y⟩ (Vector.mul ⟨fin x, fin y⟩ (fin (-1)))
        = fin (Real.pi - Real.arccos (9999 / 10000))
    ∧ |Real.arccos (9999 / 10000) - 0| < 15 / 1000
    ∧ |(Real.pi - Real.arccos (9999 / 10000)) - Real.pi| < 15 / 1000 := by
  have hpos := LineSegment.sqrt_sumsq_pos hv
  have h0 : 0 ≤ x * x + y * y := by nlinarith [mul_self_nonneg x, mul_self_nonneg y]
  have hs : Real.sqrt (x * x + y * y) * Real.sqrt (x * x + y * y) = x * x + y * y :=
    Real.mul_self_sqrt h0
  have hne : x * x + y * y ≠ 0 := (Real.sqrt_pos.mp hpos).ne'
  have hv2 : -x ≠ 0 ∨ -y ≠ 0 := by
    rcases hv with h | h
    · exact Or.inl (neg_ne_zero.mpr h)
    · exact Or.inr (neg_ne_zero.mpr h)
  have e1 : (x * x + y * y) / (Real.sqrt (x * x + y * y) * Real.sqrt (x * x + y * y))
      * (9999 / 10000) = 9999 / 10000 := by
    rw [hs, div_self hne, one_mul]
  have e2 : (x * -x + y * -y) / (Real.sqrt (x * x + y * y)
      * Real.sqrt (-x * -x + -y * -y)) * (9999 / 10000) = -(9999 / 10000) := by
    have : -x * -x + -y * -y = x * x + y * y := by ring
    rw [this, hs]
    have : x * -x + y * -y = -(x * x + y * y) := by ring
    rw [this, neg_div, div_self hne]
    ring
  have hopp : getAngle Libm.real ⟨fin x, fin y⟩ ⟨fin (-x), fin (-y)⟩
      = fin (Real.pi - Real.arccos (9999 / 10000)) := by
    rw [getAngle, getAngleArg_finite x y (-x) (-y) hv hv2, e2]
    simp only [Double.acos, Libm.real]
    rw [if_pos ⟨by norm_num, by norm_num⟩, Real.arccos_neg]
  have hlt := arccos_epsilon_lt
  have hnn := Real.arccos_nonneg (9999 / 10000)
  refine ⟨?_, hopp, ?_, ?_, ?_⟩
  · rw [getAngle, getAngleArg_finite x y x y hv hv, e1]
    simp only [Double.acos, Libm.real]
    rw [if_pos ⟨by norm_num, by norm_num⟩]
  · have : Vector.mul ⟨fin x, fin y⟩ (fin (-1)) = (⟨fin (-x), fin (-y)⟩ : Vector ℝ) := by
      simp only [Vector.mul, fin_mul, mul_neg, mul_one]
    rw [this, hopp]
  · rw [sub_zero, abs_of_nonneg hnn]
    exact hlt
  · rw [sub_sub_cancel_left, abs_neg, abs_of_nonneg hnn]
    exact hlt

/-- Witness of C6: the vector `(3, 4)`. -/
theorem getAngle_self_opposite_witness :
    getAngle Libm.real ⟨fin (3 : ℝ), fin 4⟩ ⟨fin 3, fin 4⟩ = fin (Real.arccos (9999 / 10000))
    ∧ getAngle Libm.real ⟨fin (3 : ℝ), fin 4⟩ ⟨fin (-3), fin (-4)⟩
        = fin (Real.pi - Real.arccos (9999 / 10000))
    ∧ getAngle Libm.real ⟨fin (3 : ℝ), fin 4⟩ (Vector.mul ⟨fin 3, fin 4⟩ (fin (-1)))
        = fin (Real.pi - Real.arccos (9999 / 10000))
    ∧ |Real.arccos (9999 / 10000) - 0| < 15 / 1000
    ∧ |(Real.pi - Real.arccos (9999 / 10000)) - Real.pi| < 15 / 1000 :=
  getAngle_self_opposite 3 4 (Or.inl (by norm_num))

end Vector

/-! ## The image writer

The emitted coordinates are stated over an exact arithmetic `K`. -/

namespace SVGFile

variable {K : Type} [LinearOrderedField K] [ExactArith K]

/-- Claim C8: on a canvas of width `W` and height `H`, `addLine` with `upscale = true` emits each
endpoint `(x, y)` as `(W/2 + x*W/2, H/2 + y*H/2)`; the normalised line `(-1,-1) -> (1,1)` is
emitted as `(0,0) -> (W,H)`; with `upscale = false` the endpoints are emitted unchanged. -/
theorem addLine_emits (H W : K) (out : List (Element K)) (col : String) :
    (∀ (h w : Double K) (a b : Point K),
        (addLine ⟨h, w, ⟨true, out⟩⟩ a b col true).m_file.written = out ++
          [Element.line (w / fin 2 + a.X * w / fin 2) (h / fin 2 + a.Y * h / fin 2)
            (w / fin 2 + b.X * w / fin 2) (h / fin 2 + b.Y * h / fin 2) col])
    ∧ (∀ x1 y1 x2 y2 : K,
        (addLine ⟨fin H, fin W, ⟨true, out⟩⟩ ⟨fin x1, fin y1⟩ ⟨fin x2, fin y2⟩ col
            true).m_file.written = out ++
          [Element.line (fin (W / 2 + x1 * W / 2)) (fin (H / 2 + y1 * H / 2))
            (fin (W / 2 + x2 * W / 2)) (fin (H / 2 + y2 * H / 2)) col])
    ∧ (addLine ⟨fin H, fin W, ⟨true, out⟩⟩ ⟨fin (-1), fin (-1)⟩ ⟨fin 1, fin 1⟩ col
          true).m_file.written = out ++ [Element.line (fin 0) (fin 0) (fin W) (fin H) col]
    ∧ (∀ (h w : Double K) (a b : Point K),
        (addLine ⟨h, w, ⟨true, out⟩⟩ a b col false).m_file.written = out ++
          [Element.line a.X a.Y b.X b.Y col]) := by
  refine ⟨fun h w a b => rfl, fun x1 y1 x2 y2 => ?_, ?_, fun h w a b => rfl⟩
  · simp only [addLine, Ofstream.put, if_true, fin_div_two, fin_mul, fin_add]
  · simp only [addLine, Ofstream.put, if_true, fin_div_two, fin_mul, fin_add]
    have e1 : W / 2 + -1 * W / 2 = 0 := by ring
    have e2 : H / 2 + -1 * H / 2 = 0 := by ring
    have e3 : W / 2 + 1 * W / 2 = W := by ring
    have e4 : H / 2 + 1 * H / 2 = H := by ring
    rw [e1, e2, e3, e4]

/-- Claim C10: `addCircle` emits the input radius unchanged whether `upscale` is true or false;
the centre is emitted as `(W/2 + c.X*W/2, H/2 + c.Y*H/2)` when `upscale` is true and unchanged
when it is false. -/
theorem addCircle_radius_unscaled (h w : Double K) (out : List (Element K)) (c : Point K)
    (rad : Double K) (fill : Bool) (col : String) :
    (addCircle ⟨h, w, ⟨true, out⟩⟩ c rad fill col true).m_file.written = out ++
        [Element.circle (w / fin 2 + c.X * w / fin 2) (h / fin 2 + c.Y * h / fin 2) rad col
          (if fill then some col else none)]
    ∧ (addCircle ⟨h, w, ⟨true, out⟩⟩ c rad fill col false).m_file.written = out ++
        [Element.circle c.X c.Y rad col (if fill then some col else none)]
    ∧ (∀ (H W cx cy : K),
        (addCircle ⟨fin H, fin W, ⟨true, out⟩⟩ ⟨fin cx, fin cy⟩ rad fill col
            true).m_file.written = out ++
          [Element.circle (fin (W / 2 + cx * W / 2)) (fin (H / 2 + cy * H / 2)) rad col
            (if fill then some col else none)]) := by
  refine ⟨rfl, rfl, fun H W cx cy => ?_⟩
  simp only [addCircle, Ofstream.put, if_true, fin_div_two, fin_mul, fin_add]

end SVGFile

/-! ## The turtle -/

namespace Turtle

variable {K : Type} [LinearOrderedField K] [Rounding K]

/-- The conversion `toRad` on a finite heading, over the real numbers. -/
theorem toRad_fin (h : ℝ) : toRad Libm.real (fin h) = fin (Real.pi / 180 * h) := by
  simp only [toRad, Libm.real, fin_div_of_ne _ (by norm_num : (180 : ℝ) ≠ 0), fin_mul]

/-- The state after `forward` from a finite position with a finite heading and distance. -/
theorem forward_fin (f : SVGFile ℝ) (px py h d : ℝ) (dr : Bool) :
    forward Libm.real ⟨f, ⟨fin px, fin py⟩, fin h, dr⟩ (fin d)
      = ⟨if dr then f.addLine ⟨fin px, fin py⟩
            ⟨fin (px + Real.cos (Real.pi / 180 * h) * d),
              fin (py + -Real.sin (Real.pi / 180 * h) * d)⟩ defaultColor false else f,
          ⟨fin (px + Real.cos (Real.pi / 180 * h) * d),
            fin (py + -Real.sin (Real.pi / 180 * h) * d)⟩, fin h, dr⟩ := by
  simp only [forward, toRad_fin, cos_fin, sin_fin, fin_neg, Vector.mul, Point.add, fin_mul,
    fin_add]
  rfl

/-- The line written by `addLine` without upscaling on a good stream. -/
theorem addLine_plain (hd wd : Double K) (out : List (Element K)) (a b : Point K)
    (col : String) :
    SVGFile.addLine ⟨hd, wd, ⟨true, out⟩⟩ a b col false
      = ⟨hd, wd, ⟨true, out ++ [Element.line a.X a.Y b.X b.Y col]⟩⟩ := rfl

theorem defaultColor_eq : defaultColor = "black" := rfl

/-- Claim C11: a turtle with heading `0` and the pen down at the finite position `s`, and in
particular a freshly constructed turtle, executing `forward(100)`, `left(90)`, `forward(100)`
writes exactly two lines, the direction of the second is perpendicular to the direction of the
first (dot product `0`), and the final position is `s + (100, 0) + (0, -100)`. -/
theorem forward_left_forward (sx sy H W : ℝ) (hd wd : Double ℝ) (out : List (Element ℝ))
    (filename : String) :
    (∃ x1 y1 x2 y2 x3 y3 x4 y4 : ℝ,
      (forward Libm.real (left Libm.real (forward Libm.real
          ⟨⟨hd, wd, ⟨true, out⟩⟩, ⟨fin sx, fin sy⟩, fin 0, true⟩ (fin 100)) (fin 90) false)
          (fin 100)).m_file.m_file.written
        = out ++ [Element.line (fin x1) (fin y1) (fin x2) (fin y2) defaultColor,
            Element.line (fin x3) (fin y3) (fin x4) (fin y4) defaultColor]
      ∧ (x1 = sx ∧ y1 = sy ∧ x2 = sx + 100 ∧ y2 = sy)
      ∧ (x3 = sx + 100 ∧ y3 = sy ∧ x4 = sx + 100 ∧ y4 = sy - 100)
      ∧ (x2 - x1) * (x4 - x3) + (y2 - y1) * (y4 - y3) = 0)
    ∧ (forward Libm.real (left Libm.real (forward Libm.real
          ⟨⟨hd, wd, ⟨true, out⟩⟩, ⟨fin sx, fin sy⟩, fin 0, true⟩ (fin 100)) (fin 90) false)
          (fin 100)).m_pos = ⟨fin (sx + 100 + 0), fin (sy + 0 + -100)⟩
    ∧ (Turtle.create (fun _ => true) filename (fin H) (fin W) : Turtle ℝ)
        = ⟨⟨fin H, fin W, ⟨true, [Element.htmlOpen, Element.svgOpen (fin W) (fin H),
            Element.background "white"]⟩⟩, ⟨fin (W / 2), fin (H / 2)⟩, fin 0, true⟩
    ∧ (forward Libm.real (left Libm.real (forward Libm.real
          (Turtle.create (fun _ => true) filename (fin H) (fin W)) (fin 100)) (fin 90) false)
          (fin 100)).m_pos = ⟨fin (W / 2 + 100 + 0), fin (H / 2 + 0 + -100)⟩ := by
  have c0 : Real.cos (Real.pi / 180 * 0) = 1 := by rw [mul_zero, Real.cos_zero]
  have s0 : Real.sin (Real.pi / 180 * 0) = 0 := by rw [mul_zero, Real.sin_zero]
  have e90 : Real.pi / 180 * (0 + 90) = Real.pi / 2 := by ring
  have c90 : Real.cos (Real.pi / 180 * (0 + 90)) = 0 := by rw [e90, Real.cos_pi_div_two]
  have s90 : Real.sin (Real.pi / 180 * (0 + 90)) = 1 := by rw [e90, Real.sin_pi_div_two]
  have key : ∀ (f : SVGFile ℝ) (px py : ℝ),
      forward Libm.real (left Libm.real (forward Libm.real
          ⟨f, ⟨fin px, fin py⟩, fin 0, true⟩ (fin 100)) (fin 90) false) (fin 100)
        = ⟨(f.addLine ⟨fin px, fin py⟩ ⟨fin (px + 100), fin py⟩ defaultColor false).addLine
              ⟨fin (px + 100), fin py⟩ ⟨fin (px + 100), fin (py - 100)⟩ defaultColor false,
            ⟨fin (px + 100), fin (py - 100)⟩, fin (0 + 90), true⟩ := by
    intro f px py
    rw [forward_fin]
    simp only [left, Bool.false_eq_true, if_false, if_true, fin_add]
    rw [forward_fin]
    simp only [if_true, c0, s0, c90, s90, one_mul, neg_zero, zero_mul, add_zero, neg_mul,
      ← sub_eq_add_neg]
  have hc : (Turtle.create (fun _ => true) filename (fin H) (fin W) : Turtle ℝ)
      = ⟨⟨fin H, fin W, ⟨true, [Element.htmlOpen, Element.svgOpen (fin W) (fin H),
          Element.background "white"]⟩⟩, ⟨fin (W / 2), fin (H / 2)⟩, fin 0, true⟩ := by
    simp [Turtle.create, SVGFile.create, Ofstream.create, Ofstream.put]
  refine ⟨⟨sx, sy, sx + 100, sy, sx + 100, sy, sx + 100, sy - 100, ?_, ⟨rfl, rfl, rfl, rfl⟩,
    ⟨rfl, rfl, rfl, rfl⟩, by ring⟩, ?_, hc, ?_⟩
  · rw [key]
    simp only [addLine_plain, List.append_assoc, List.singleton_append]
  · rw [key]
    simp only [add_zero, ← sub_eq_add_neg]
  · rw [hc, key]
    simp only [add_zero, ← sub_eq_add_neg]

/-- Claim C12: `forward(d)` and `back(d)` set the position to `position + (cos(heading),
-sin(heading)) * d` (respectively `* -d`) and leave heading and pen flag unchanged; with the pen
up the image is untouched (no shape call), with the pen down exactly one `addLine` call from the
old to the new position is made, which writes one line. -/
theorem forward_back_effect (m : Libm K) (f : SVGFile K) (p : Point K) (deg d : Double K)
    (hd wd : Double K) (out : List (Element K)) :
    forward m ⟨f, p, deg, false⟩ d
      = ⟨f, Point.add p (Vector.mul
          ⟨Double.cos m (toRad m deg), -Double.sin m (toRad m deg)⟩ d), deg, false⟩
    ∧ back m ⟨f, p, deg, false⟩ d
      = ⟨f, Point.add p (Vector.mul
          ⟨Double.cos m (toRad m deg), -Double.sin m (toRad m deg)⟩ (-d)), deg, false⟩
    ∧ drawing ⟨f, p, deg, true⟩ false = ⟨f, p, deg, false⟩
    ∧ forward m ⟨f, p, deg, true⟩ d
      = ⟨f.addLine p (Point.add p (Vector.mul
            ⟨Double.cos m (toRad m deg), -Double.sin m (toRad m deg)⟩ d)) defaultColor false,
          Point.add p (Vector.mul
            ⟨Double.cos m (toRad m deg), -Double.sin m (toRad m deg)⟩ d), deg, true⟩
    ∧ back m ⟨f, p, deg, true⟩ d
      = ⟨f.addLine p (Point.add p (Vector.mul
            ⟨Double.cos m (toRad m deg), -Double.sin m (toRad m deg)⟩ (-d))) defaultColor false,
          Point.add p (Vector.mul
            ⟨Double.cos m (toRad m deg), -Double.sin m (toRad m deg)⟩ (-d)), deg, true⟩
    ∧ (forward m ⟨⟨hd, wd, ⟨true, out⟩⟩, p, deg, true⟩ d).m_file.m_file.written
      = out ++ [Element.line p.X p.Y
          (p.X + Double.cos m (toRad m deg) * d) (p.Y + -Double.sin m (toRad m deg) * d)
          defaultColor]
    ∧ (back m ⟨⟨hd, wd, ⟨true, out⟩⟩, p, deg, true⟩ d).m_file.m_file.written
      = out ++ [Element.line p.X p.Y
          (p.X + Double.cos m (toRad m deg) * -d) (p.Y + -Double.sin m (toRad m deg) * -d)
          defaultColor] :=
  ⟨rfl, rfl, rfl, rfl, rfl, rfl, rfl⟩

/-- Over exact real arithmetic: from a finite position and heading and for a finite distance
`d`, `forward(d)` followed by `back(d)` leaves position, heading and pen flag as they were; with
the pen down it writes exactly two lines, the second being the first with its endpoints swapped,
and with the pen up it writes nothing. -/
theorem forward_back_exact (hd wd : Double ℝ) (out : List (Element ℝ)) (px py h d : ℝ)
    (dr : Bool) :
    (back Libm.real (forward Libm.real ⟨⟨hd, wd, ⟨true, out⟩⟩, ⟨fin px, fin py⟩, fin h, dr⟩
        (fin d)) (fin d)).m_pos = ⟨fin px, fin py⟩
    ∧ (back Libm.real (forward Libm.real ⟨⟨hd, wd, ⟨true, out⟩⟩, ⟨fin px, fin py⟩, fin h, dr⟩
        (fin d)) (fin d)).m_degree = fin h
    ∧ (back Libm.real (forward Libm.real ⟨⟨hd, wd, ⟨true, out⟩⟩, ⟨fin px, fin py⟩, fin h, dr⟩
        (fin d)) (fin d)).m_drawing = dr
    ∧ (∃ qx qy : ℝ,
        (back Libm.real (forward Libm.real
            ⟨⟨hd, wd, ⟨true, out⟩⟩, ⟨fin px, fin py⟩, fin h, true⟩ (fin d))
            (fin d)).m_file.m_file.written
          = out ++ [Element.line (fin px) (fin py) (fin qx) (fin qy) defaultColor,
              Element.line (fin qx) (fin qy) (fin px) (fin py) defaultColor]
        ∧ (forward Libm.real ⟨⟨hd, wd, ⟨true, out⟩⟩, ⟨fin px, fin py⟩, fin h, true⟩
            (fin d)).m_pos = ⟨fin qx, fin qy⟩)
    ∧ (back Libm.real (forward Libm.real
          ⟨⟨hd, wd, ⟨true, out⟩⟩, ⟨fin px, fin py⟩, fin h, false⟩ (fin d))
          (fin d)).m_file.m_file.written = out := by
  have ex : px + Real.cos (Real.pi / 180 * h) * d + Real.cos (Real.pi / 180 * h) * -d = px := by
    ring
  have ey : py + -Real.sin (Real.pi / 180 * h) * d + -Real.sin (Real.pi / 180 * h) * -d
      = py := by
    ring
  have key : ∀ b : Bool,
      back Libm.real (forward Libm.real ⟨⟨hd, wd, ⟨true, out⟩⟩, ⟨fin px, fin py⟩, fin h, b⟩
        (fin d)) (fin d)
      = ⟨if b then (SVGFile.addLine ⟨hd, wd, ⟨true, out⟩⟩ ⟨fin px, fin py⟩
              ⟨fin (px + Real.cos (Real.pi / 180 * h) * d),
                fin (py + -Real.sin (Real.pi / 180 * h) * d)⟩ defaultColor false).addLine
              ⟨fin (px + Real.cos (Real.pi / 180 * h) * d),
                fin (py + -Real.sin (Real.pi / 180 * h) * d)⟩ ⟨fin px, fin py⟩ defaultColor false
            else ⟨hd, wd, ⟨true, out⟩⟩, ⟨fin px, fin py⟩, fin h, b⟩ := by
    intro b
    rw [forward_fin, back, fin_neg, forward_fin, ex, ey]
    cases b <;> rfl
  refine ⟨?_, ?_, ?_, ?_, ?_⟩
  · rw [key]
  · rw [key]
  · rw [key]
  · refine ⟨px + Real.cos (Real.pi / 180 * h) * d, py + -Real.sin (Real.pi / 180 * h) * d,
      ?_, ?_⟩
    · rw [key]
      simp only [if_true, addLine_plain, List.append_assoc, List.singleton_append]
    · rw [forward_fin]
  · rw [key]
    simp only [Bool.false_eq_true, if_false]

set_option maxRecDepth 100000 in
/-- Counterexample to C19 as stated, evaluated in binary64: a fresh turtle is at `(960, 540)`
with heading `0`; `forward(1e20)` moves it to `(1e20, 540)`, the sum `960 + 1e20` being rounded
to `1e20`, and `back(1e20)` then moves it to `(0, 540)`, not back to `(960, 540)`. -/
theorem forward_back_absorbed_counterexample :
    (lit (10 ^ 20) : Double Binary64) = fin (10 ^ 20)
    ∧ (createNamed (fun _ => true) "t.svg" : Turtle Binary64).m_pos = ⟨fin 960, fin 540⟩
    ∧ (forward Libm.binary64 (createNamed (fun _ => true) "t.svg") (fin (10 ^ 20))).m_pos
        = ⟨fin (10 ^ 20), fin 540⟩
    ∧ (back Libm.binary64
        (forward Libm.binary64 (createNamed (fun _ => true) "t.svg") (fin (10 ^ 20)))
        (fin (10 ^ 20))).m_pos = ⟨fin 0, fin 540⟩
    ∧ (back Libm.binary64
        (forward Libm.binary64 (createNamed (fun _ => true) "t.svg") (fin (10 ^ 20)))
        (fin (10 ^ 20))).m_pos
      ≠ (createNamed (fun _ => true) "t.svg" : Turtle Binary64).m_pos := by
  decide!

end Turtle

/-! ## The life of an image -/

namespace SVGFile

variable {K : Type} [LinearOrderedField K] [Rounding K]

/-- Every shape call on a good stream appends one shape element, which depends on the canvas and
on the call only. -/
theorem call_good (h w : Double K) (c : ShapeCall K) :
    ∃ e : Element K, e.isShape = true
      ∧ ∀ out : List (Element K),
          call ⟨h, w, ⟨true, out⟩⟩ c = ⟨h, w, ⟨true, out ++ [e]⟩⟩ := by
  cases c with
  | addLine a b col upscale =>
    exact ⟨Element.line (if upscale then w / fin 2 + a.X * w / fin 2 else a.X)
      (if upscale then h / fin 2 + a.Y * h / fin 2 else a.Y)
      (if upscale then w / fin 2 + b.X * w / fin 2 else b.X)
      (if upscale then h / fin 2 + b.Y * h / fin 2 else b.Y) col, rfl, fun out => rfl⟩
  | addCircle c rad fill col upscale =>
    exact ⟨Element.circle (if upscale then w / fin 2 + c.X * w / fin 2 else c.X)
      (if upscale then h / fin 2 + c.Y * h / fin 2 else c.Y) rad col
      (if fill then some col else none), rfl, fun out => rfl⟩
  | addRect c width height col upscale =>
    cases upscale with
    | true =>
      exact ⟨Element.rect (w / fin 2 + c.X * w / fin 2 - width * (w / fin 2) / fin 2)
        (h / fin 2 + c.Y * h / fin 2 - height * (h / fin 2) / fin 2)
        (width * (w / fin 2)) (height * (h / fin 2)) col, rfl, fun out => rfl⟩
    | false =>
      exact ⟨Element.rect (c.X - width / fin 2) (c.Y - height / fin 2) width height col, rfl,
        fun out => rfl⟩

/-- A sequence of shape calls on a good stream appends one shape element per call, in order. -/
theorem foldl_call_good (h w : Double K) (calls : List (ShapeCall K)) :
    ∀ out : List (Element K), ∃ shapes : List (Element K),
      calls.foldl call ⟨h, w, ⟨true, out⟩⟩ = ⟨h, w, ⟨true, out ++ shapes⟩⟩
      ∧ List.Forall₂ (fun c e => (call ⟨h, w, ⟨true, []⟩⟩ c).m_file.written = [e]) calls shapes
      ∧ ∀ e ∈ shapes, e.isShape = true := by
  induction calls with
  | nil =>
    intro out
    exact ⟨[], by simp, List.Forall₂.nil, by simp⟩
  | cons c cs ih =>
    intro out
    obtain ⟨e, he, hc⟩ := call_good h w c
    obtain ⟨shapes, h1, h2, h3⟩ := ih (out ++ [e])
    refine ⟨e :: shapes, ?_, List.Forall₂.cons ?_ h2, ?_⟩
    · rw [List.foldl_cons, hc out, h1, List.append_assoc, List.singleton_append]
    · rw [hc []]
      rfl
    · intro x hx
      rcases List.mem_cons.mp hx with hx | hx
      · rw [hx]
        exact he
      · exact h3 x hx

/-- A shape call on a failed stream leaves it failed and empty. -/
theorem call_failed (h w : Double K) (c : ShapeCall K) :
    call ⟨h, w, ⟨false, []⟩⟩ c = ⟨h, w, ⟨false, []⟩⟩ := by
  cases c with
  | addLine a b col upscale => rfl
  | addCircle c rad fill col upscale => rfl
  | addRect c width height col upscale =>
    cases upscale with
    | true => rfl
    | false => rfl

theorem foldl_call_failed (h w : Double K) (calls : List (ShapeCall K)) :
    calls.foldl call ⟨h, w, ⟨false, []⟩⟩ = ⟨h, w, ⟨false, []⟩⟩ := by
  induction calls with
  | nil => rfl
  | cons c cs ih => rw [List.foldl_cons, call_failed, ih]

/-- Claim C14 (the code at the failing input): whatever background colour is passed to the
constructor, for instance `"black"`, the background rectangle written in the header is filled
with `"white"`. -/
theorem create_background_ignores_color (file_name : String) (h w : Double K) (color : String) :
    (create (fun _ => true) file_name h w color).m_file.written
        = [Element.htmlOpen, Element.svgOpen w h, Element.background "white"]
    ∧ (create (fun _ => true) file_name h w "black").m_file.written
        = [Element.htmlOpen, Element.svgOpen w h, Element.background "white"]
    ∧ (Element.background "white" : Element K) ≠ Element.background "black" := by
  refine ⟨rfl, rfl, ?_⟩
  intro heq
  injection heq with h1
  exact absurd h1 (by decide)

/-- Claim C15: when the destination can be opened, the finalised document of an image on which
a sequence of shape calls was performed is the header (wrapper, svg root sized `width x height`,
background rectangle), then exactly one shape element per call in the order of the calls, then
the closing markers, which occur exactly once and after every shape element. -/
theorem document_structure (canOpen : String → Bool) (file_name : String) (h w : Double K)
    (color : String) (calls : List (ShapeCall K)) (hopen : canOpen file_name = true) :
    ∃ shapes : List (Element K),
      document canOpen file_name h w color calls
        = [Element.htmlOpen, Element.svgOpen w h, Element.background "white"] ++ shapes
            ++ [Element.svgClose, Element.htmlClose]
      ∧ List.Forall₂ (fun c e => (call ⟨h, w, ⟨true, []⟩⟩ c).m_file.written = [e]) calls shapes
      ∧ shapes.length = calls.length
      ∧ (∀ e ∈ shapes, e.isShape = true)
      ∧ (document canOpen file_name h w color calls).count Element.svgClose = 1
      ∧ (document canOpen file_name h w color calls).count Element.htmlClose = 1 := by
  have hc : create canOpen file_name h w color
      = ⟨h, w, ⟨true, [Element.htmlOpen, Element.svgOpen w h,
          Element.background "white"]⟩⟩ := by
    simp only [create, Ofstream.create, Ofstream.put, hopen, if_true, List.nil_append]
  obtain ⟨shapes, h1, h2, h3⟩ := foldl_call_good h w calls
    [Element.htmlOpen, Element.svgOpen w h, Element.background "white"]
  have hdoc : document canOpen file_name h w color calls
      = [Element.htmlOpen, Element.svgOpen w h, Element.background "white"] ++ shapes
          ++ [Element.svgClose, Element.htmlClose] := by
    simp only [document, hc, h1, destroy, Ofstream.put, if_true]
  have n1 : shapes.count Element.svgClose = 0 := by
    rw [List.count_eq_zero]
    intro hmem
    exact absurd (h3 _ hmem) (by simp [Element.isShape])
  have n2 : shapes.count Element.htmlClose = 0 := by
    rw [List.count_eq_zero]
    intro hmem
    exact absurd (h3 _ hmem) (by simp [Element.isShape])
  refine ⟨shapes, hdoc, h2, h2.length_eq.symm, h3, ?_, ?_⟩
  · rw [hdoc, List.count_append, List.count_append, n1]
    simp [List.count_cons]
  · rw [hdoc, List.count_append, List.count_append, n2]
    simp [List.count_cons]

/-- Witness of C15: a line and a filled circle drawn on a `200 x 100` canvas. -/
theorem document_structure_witness :
    ∃ shapes : List (Element ℚ),
      document (fun _ => true) "a.svg" (fin 100) (fin 200) "white"
          [ShapeCall.addLine ⟨fin (-1), fin (-1)⟩ ⟨fin 1, fin 1⟩ "red" true,
            ShapeCall.addCircle ⟨fin 5, fin 6⟩ (fin 2) true "blue" false]
        = [Element.htmlOpen, Element.svgOpen (fin 200) (fin 100), Element.background "white"]
            ++ shapes ++ [Element.svgClose, Element.htmlClose]
      ∧ List.Forall₂ (fun c e => (call ⟨fin 100, fin 200, ⟨true, []⟩⟩ c).m_file.written = [e])
          [ShapeCall.addLine ⟨fin (-1), fin (-1)⟩ ⟨fin 1, fin 1⟩ "red" true,
            ShapeCall.addCircle ⟨fin 5, fin 6⟩ (fin 2) true "blue" false] shapes
      ∧ shapes.length = [ShapeCall.addLine ⟨fin (-1), fin (-1)⟩ ⟨fin 1, fin 1⟩ "red" true,
            ShapeCall.addCircle (⟨fin 5, fin 6⟩ : Point ℚ) (fin 2) true "blue" false].length
      ∧ (∀ e ∈ shapes, e.isShape = true)
      ∧ (document (fun _ => true) "a.svg" (fin 100) (fin 200) "white"
          [ShapeCall.addLine ⟨fin (-1), fin (-1)⟩ ⟨fin 1, fin 1⟩ "red" true,
            ShapeCall.addCircle (⟨fin 5, fin 6⟩ : Point ℚ) (fin 2) true "blue" false]).count
          Element.svgClose = 1
      ∧ (document (fun _ => true) "a.svg" (fin 100) (fin 200) "white"
          [ShapeCall.addLine ⟨fin (-1), fin (-1)⟩ ⟨fin 1, fin 1⟩ "red" true,
            ShapeCall.addCircle (⟨fin 5, fin 6⟩ : Point ℚ) (fin 2) true "blue" false]).count
          Element.htmlClose = 1 :=
  document_structure (fun _ => true) "a.svg" (fin 100) (fin 200) "white" _ rfl

/-- Counterexample to C16 as stated: constructing an image whose destination cannot be opened
raises nothing; it yields an object whose stream is failed, on which `addLine` writes nothing
and whose finalised document is empty. -/
theorem create_unopenable_counterexample :
    (create (fun _ => false) "missing/out.svg" (fin 1080) (fin 1920) "white" : SVGFile ℚ)
        = ⟨fin 1080, fin 1920, ⟨false, []⟩⟩
    ∧ (addLine (create (fun _ => false) "missing/out.svg" (fin 1080) (fin 1920) "white" :
          SVGFile ℚ) ⟨fin 0, fin 0⟩ ⟨fin 10, fin 10⟩ "black" false).m_file.written = []
    ∧ (document (fun _ => false) "missing/out.svg" (fin 1080) (fin 1920) "white"
          [ShapeCall.addLine ⟨fin 0, fin 0⟩ ⟨fin 10, fin 10⟩ "black" false] :
          List (Element ℚ)) = [] :=
  ⟨rfl, rfl, rfl⟩

/-- Claim C16, amended: constructing an image whose destination cannot be opened surfaces no
error: the constructor yields an object whose stream is failed, and the header, every shape call
and the closing markers write nothing. -/
theorem create_unopenable_silent (canOpen : String → Bool) (file_name : String)
    (h w : Double K) (color : String) (calls : List (ShapeCall K))
    (hfail : canOpen file_name = false) :
    create canOpen file_name h w color = ⟨h, w, ⟨false, []⟩⟩
    ∧ calls.foldl call (create canOpen file_name h w color) = ⟨h, w, ⟨false, []⟩⟩
    ∧ document canOpen file_name h w color calls = [] := by
  have hc : create canOpen file_name h w color = ⟨h, w, ⟨false, []⟩⟩ := by
    simp only [create, Ofstream.create, Ofstream.put, hfail, Bool.false_eq_true, if_false]
  refine ⟨hc, ?_, ?_⟩
  · rw [hc, foldl_call_failed]
  · simp only [document, hc, foldl_call_failed, destroy, Ofstream.put, Bool.false_eq_true,
      if_false]

/-- Witness of C16 (amended): a destination that cannot be opened, and one rectangle. -/
theorem create_unopenable_silent_witness :
    (create (fun _ => false) "missing/out.svg" (fin 1080) (fin 1920) "white" : SVGFile ℚ)
        = ⟨fin 1080, fin 1920, ⟨false, []⟩⟩
    ∧ [ShapeCall.addRect ⟨fin 0, fin 0⟩ (fin 1) (fin 1) "red" true].foldl call
          (create (fun _ => false) "missing/out.svg" (fin 1080) (fin 1920) "white" : SVGFile ℚ)
        = ⟨fin 1080, fin 1920, ⟨false, []⟩⟩
    ∧ (document (fun _ => false) "missing/out.svg" (fin 1080) (fin 1920) "white"
          [ShapeCall.addRect ⟨fin 0, fin 0⟩ (fin 1) (fin 1) "red" true] :
          List (Element ℚ)) = [] :=
  create_unopenable_silent (fun _ => false) "missing/out.svg" (fin 1080) (fin 1920) "white"
    [ShapeCall.addRect ⟨fin 0, fin 0⟩ (fin 1) (fin 1) "red" true] rfl

end SVGFile

/-! ## Segment intersection: the sentinel and symmetry -/

namespace LineSegment

/-- The horizontal segment `(-1,m)-(1,m)` and the vertical segment `(m,-1)-(m,1)` pass the
parallel check. -/
theorem parallelCheck_axes (m : ℝ) :
    parallelCheck Libm.real (finite (-1) m 1 m) (finite m (-1) m 1) = false := by
  rw [parallelCheck_finite _ _ _ _ _ _ _ _ (Or.inl (by norm_num)) (Or.inr (by norm_num))]
  have e1 : Real.sqrt ((m - m) * (m - m) + (1 - -1) * (1 - -1)) = 2 := by
    rw [show (m - m) * (m - m) + (1 - -1) * (1 - -1) = (2 : ℝ) ^ 2 by ring]
    exact Real.sqrt_sq (by norm_num)
  have e2 : Real.sqrt ((1 - -1) * (1 - -1) + (m - m) * (m - m)) = 2 := by
    rw [show (1 - -1) * (1 - -1) + (m - m) * (m - m) = (2 : ℝ) ^ 2 by ring]
    exact Real.sqrt_sq (by norm_num)
  rw [e1, e2]
  have h1 : ¬ |(m - m) / 2 - (1 - -1) / 2| < (1 / 1000 : ℝ) := by
    rw [show (m - m) / 2 - (1 - -1) / 2 = (-1 : ℝ) by ring]
    norm_num
  have h2 : ¬ |(m - m) / 2 * -1 - (1 - -1) / 2| < (1 / 1000 : ℝ) := by
    rw [show (m - m) / 2 * -1 - (1 - -1) / 2 = (-1 : ℝ) by ring]
    norm_num
  simp only [h1, h2, decide_False, Bool.false_and, Bool.or_self]

/-- The value of `intersect` on the segments `(-1,m)-(1,m)` and `(m,-1)-(m,1)` that cross at
`(m, m)`, for `m` between `-1/2` and `1/2`. -/
theorem intersect_axes (m : ℝ) (h1 : -(1 / 2) ≤ m) (h2 : m ≤ 1 / 2) :
    intersect Libm.real (finite (-1) m 1 m) (finite m (-1) m 1) = ⟨fin m, fin m⟩ := by
  rw [intersect_of_crossing (-1) m 1 m m (-1) m 1 ((m + 1) / 2) ((m + 1) / 2)
    (Or.inl (by norm_num)) (Or.inr (by norm_num)) (parallelCheck_axes m) (by ring) (by ring)]
  have hc : (decide ((m + 1) / 2 < 0 + 1 / 100) || decide (1 - 1 / 100 < (m + 1) / 2)
      || decide ((m + 1) / 2 < 0 + 1 / 100) || decide (1 - 1 / 100 < (m + 1) / 2)) = false := by
    simp only [Bool.or_eq_false_iff, decide_eq_false_iff_not, not_lt]
    refine ⟨⟨⟨?_, ?_⟩, ?_⟩, ?_⟩ <;> linarith
  rw [hc]
  simp only [Bool.false_eq_true, if_false]
  have ex : -1 + (m + 1) / 2 * (1 - -1) = m := by ring
  have ey : m + (m + 1) / 2 * (m - m) = m := by ring
  rw [ex, ey]

set_option maxRecDepth 100000 in
/-- Counterexample to C17 as stated: with `m = 2^-1022`, the segments `(-1,m)-(1,m)` and
`(m,-1)-(m,1)` pass the parallel check and cross at `(m, m)`, at parameter `(m+1)/2` along both,
which lies in `[0.01, 0.99]`; the computed intersection point is `(m, m)`, the sentinel.  This
holds over exact real arithmetic and, evaluated, in binary64, where neither the parallel check
nor the band test fires. -/
theorem intersect_sentinel_collision_counterexample :
    (parallelCheck Libm.real
        (finite (-1 : ℝ) (1 / 2 ^ 1022) 1 (1 / 2 ^ 1022))
        (finite (1 / 2 ^ 1022) (-1) (1 / 2 ^ 1022) 1) = false
    ∧ ((-1 : ℝ) + (1 / 2 ^ 1022 + 1) / 2 * (1 - -1)
          = 1 / 2 ^ 1022 + (1 / 2 ^ 1022 + 1) / 2 * (1 / 2 ^ 1022 - 1 / 2 ^ 1022)
      ∧ (1 / 2 ^ 1022 : ℝ) + (1 / 2 ^ 1022 + 1) / 2 * (1 / 2 ^ 1022 - 1 / 2 ^ 1022)
          = -1 + (1 / 2 ^ 1022 + 1) / 2 * (1 - -1))
    ∧ ((1 / 100 : ℝ) ≤ (1 / 2 ^ 1022 + 1) / 2 ∧ ((1 : ℝ) / 2 ^ 1022 + 1) / 2 ≤ 99 / 100)
    ∧ intersect Libm.real
        (finite (-1 : ℝ) (1 / 2 ^ 1022) 1 (1 / 2 ^ 1022))
        (finite (1 / 2 ^ 1022) (-1) (1 / 2 ^ 1022) 1)
      = ⟨NO_INTERSECTION, NO_INTERSECTION⟩)
    ∧ (parallelCheck Libm.binary64 (finite (-1 : Binary64) (1 / 2 ^ 1022) 1 (1 / 2 ^ 1022))
        (finite (1 / 2 ^ 1022) (-1 : Binary64) (1 / 2 ^ 1022) 1) = false
    ∧ bandTest
        (intersectLambda1 (finite (-1 : Binary64) (1 / 2 ^ 1022) 1 (1 / 2 ^ 1022))
          (finite (1 / 2 ^ 1022) (-1 : Binary64) (1 / 2 ^ 1022) 1))
        (intersectLambda2 (finite (-1 : Binary64) (1 / 2 ^ 1022) 1 (1 / 2 ^ 1022))
          (finite (1 / 2 ^ 1022) (-1 : Binary64) (1 / 2 ^ 1022) 1)) = false
    ∧ intersect Libm.binary64 (finite (-1 : Binary64) (1 / 2 ^ 1022) 1 (1 / 2 ^ 1022))
        (finite (1 / 2 ^ 1022) (-1 : Binary64) (1 / 2 ^ 1022) 1)
      = ⟨NO_INTERSECTION, NO_INTERSECTION⟩) := by
  have hm1 : (0 : ℝ) ≤ 1 / 2 ^ 1022 := by positivity
  have hm2 : (1 : ℝ) / 2 ^ 1022 ≤ 1 / 2 := by
    norm_num
  refine ⟨⟨parallelCheck_axes _, ⟨by ring, by ring⟩, ⟨by linarith, by linarith⟩, ?_⟩,
    by decide!⟩
  rw [intersect_axes _ (by linarith) hm2]
  rfl

/-- Two overlapping collinear unit segments on the X axis do not pass the parallel check. -/
theorem parallelCheck_collinear :
    parallelCheck Libm.real (finite (0 : ℝ) 0 1 0) (finite (1 / 2) 0 (3 / 2) 0) = true := by
  have e1 : getVec (finite (0 : ℝ) 0 1 0) = ⟨fin 1, fin 0⟩ := by
    simp [getVec, finite, Point.sub]
  have e2 : getVec (finite (1 / 2 : ℝ) 0 (3 / 2) 0) = ⟨fin 1, fin 0⟩ := by
    simp only [getVec, finite, Point.sub, fin_sub]
    norm_num
  rw [parallelCheck, e1, e2, norm_unit_x]
  simp [Vector.eq]

/-- Over exact real arithmetic: for finite non-degenerate segments, if `intersect` gives the
sentinel point then the parallel check fired, or the supporting lines meet at parameters `s`, `t`
one of which lies outside `[0.01, 0.99]`, or they meet at the point whose two coordinates are
`NO_INTERSECTION`. -/
theorem sentinel_exits_exact (a b c d e f g h : ℝ) (hA : a ≠ c ∨ b ≠ d) (hB : e ≠ g ∨ f ≠ h)
    (hs : intersect Libm.real (finite a b c d) (finite e f g h)
      = ⟨NO_INTERSECTION, NO_INTERSECTION⟩) :
    parallelCheck Libm.real (finite a b c d) (finite e f g h) = true
    ∨ ∃ s t : ℝ, (a + s * (c - a) = e + t * (g - e) ∧ b + s * (d - b) = f + t * (h - f))
        ∧ ((s < 1 / 100 ∨ 99 / 100 < s ∨ t < 1 / 100 ∨ 99 / 100 < t)
          ∨ (a + s * (c - a) = 1 / 2 ^ 1022 ∧ b + s * (d - b) = 1 / 2 ^ 1022)) := by
  cases hp : parallelCheck Libm.real (finite a b c d) (finite e f g h) with
  | true => exact Or.inl rfl
  | false =>
    right
    have hD := divisor_ne_zero_of_pass a b c d e f g h hA hB hp
    obtain ⟨s, t, hx, hy⟩ := crossing_exists a b c d e f g h hD
    have hI := intersect_of_crossing a b c d e f g h s t hA hB hp hx hy
    refine ⟨s, t, ⟨hx, hy⟩, ?_⟩
    cases hc : (decide (t < 0 + 1 / 100) || decide (1 - 1 / 100 < t)
        || decide (s < 0 + 1 / 100) || decide (1 - 1 / 100 < s)) with
    | true =>
      left
      simp only [Bool.or_eq_true, decide_eq_true_eq] at hc
      rcases hc with ((h1 | h1) | h1) | h1
      · exact Or.inr (Or.inr (Or.inl (by linarith)))
      · exact Or.inr (Or.inr (Or.inr (by linarith)))
      · exact Or.inl (by linarith)
      · exact Or.inr (Or.inl (by linarith))
    | false =>
      right
      rw [hc] at hI
      simp only [Bool.false_eq_true, if_false] at hI
      rw [hI] at hs
      injection hs with h1 h2
      exact ⟨fin_injective h1, fin_injective h2⟩

/-- The parallel check does not depend on the order of the two segments. -/
theorem parallelCheck_symm (a b c d e f g h : ℝ) (hA : a ≠ c ∨ b ≠ d) (hB : e ≠ g ∨ f ≠ h) :
    parallelCheck Libm.real (finite e f g h) (finite a b c d)
      = parallelCheck Libm.real (finite a b c d) (finite e f g h) := by
  rw [parallelCheck_finite a b c d e f g h hA hB, parallelCheck_finite e f g h a b c d hB hA]
  generalize (c - a) / Real.sqrt ((c - a) * (c - a) + (d - b) * (d - b)) = p
  generalize (d - b) / Real.sqrt ((c - a) * (c - a) + (d - b) * (d - b)) = q
  generalize (g - e) / Real.sqrt ((g - e) * (g - e) + (h - f) * (h - f)) = r
  generalize (h - f) / Real.sqrt ((g - e) * (g - e) + (h - f) * (h - f)) = u
  have e1 : |p - r| = |r - p| := abs_sub_comm p r
  have e2 : |q - u| = |u - q| := abs_sub_comm q u
  have e3 : |p * -1 - r| = |r * -1 - p| := by
    rw [show p * -1 - r = r * -1 - p by ring]
  have e4 : |q * -1 - u| = |u * -1 - q| := by
    rw [show q * -1 - u = u * -1 - q by ring]
  rw [e1, e2, e3, e4]

/-- Claim C18: for finite non-degenerate segments `A`, `B`, `A.intersect(B)` is equal to
`B.intersect(A)`: the same sentinel, or the same point with the same coordinates. -/
theorem intersect_symm (a b c d e f g h : ℝ) (hA : a ≠ c ∨ b ≠ d) (hB : e ≠ g ∨ f ≠ h) :
    intersect Libm.real (finite a b c d) (finite e f g h)
      = intersect Libm.real (finite e f g h) (finite a b c d) := by
  have hsym := parallelCheck_symm a b c d e f g h hA hB
  cases hp : parallelCheck Libm.real (finite a b c d) (finite e f g h) with
  | true =>
    rw [sentinel_of_parallelCheck _ _ _ hp, sentinel_of_parallelCheck _ _ _ (hsym.trans hp)]
  | false =>
    have hD := divisor_ne_zero_of_pass a b c d e f g h hA hB hp
    obtain ⟨s, t, hx, hy⟩ := crossing_exists a b c d e f g h hD
    rw [intersect_of_crossing a b c d e f g h s t hA hB hp hx hy,
      intersect_of_crossing e f g h a b c d t s hB hA (hsym.trans hp) hx.symm hy.symm,
      hx, hy]
    have hb : ∀ x y z v : Bool, (x || y || z || v) = (z || v || x || y) := by decide
    rw [hb]

/-- Witness of C18: the horizontal and the vertical unit segment through `(1/2, 1/2)`. -/
theorem intersect_symm_witness :
    intersect Libm.real (finite (0 : ℝ) (1 / 2) 1 (1 / 2)) (finite (1 / 2) 0 (1 / 2) 1)
      = intersect Libm.real (finite (1 / 2) 0 (1 / 2) 1) (finite (0 : ℝ) (1 / 2) 1 (1 / 2)) :=
  intersect_symm 0 (1 / 2) 1 (1 / 2) (1 / 2) 0 (1 / 2) 1
    (Or.inl (by norm_num)) (Or.inr (by norm_num))

end LineSegment

/-! ## Binary64: the rounding function

The exponent function `ilog2` is correct, so `round64` rounds to nearest with relative error
at most `2^-53` (and absolute error at most `2^-1075` in the subnormal range), and integers of
magnitude at most `2^53` are doubles. -/

/-! ## The rounding of binary64 -/

/-- The halving loop finds the binary logarithm. -/
theorem log2Aux_spec (f : ℕ) : ∀ n acc : ℕ, 1 ≤ n → n ≤ f →
    ∃ k, log2Aux f n acc = acc + k ∧ 2 ^ k ≤ n ∧ n < 2 ^ (k + 1) := by
  induction f with
  | zero =>
    intro n acc h1 h2
    omega
  | succ f ih =>
    intro n acc h1 h2
    unfold log2Aux
    by_cases hn : n < 2
    · rw [if_pos hn]
      exact ⟨0, rfl, by simpa using h1, by simpa using hn⟩
    · rw [if_neg hn]
      obtain ⟨k, hk, hlo, hhi⟩ := ih (n / 2) (acc + 1) (by omega) (by omega)
      refine ⟨k + 1, by rw [hk]; ring, ?_, ?_⟩
      · rw [pow_succ]
        generalize 2 ^ k = p at hlo
        omega
      · rw [pow_succ]
        generalize 2 ^ (k + 1) = p at hhi
        omega

/-- The value of `log2` on a positive number. -/
theorem log2_spec (n : ℕ) (hn : 1 ≤ n) : 2 ^ log2 n ≤ n ∧ n < 2 ^ (log2 n + 1) := by
  obtain ⟨k, hk, hlo, hhi⟩ := log2Aux_spec n n 0 hn le_rfl
  unfold log2
  rw [hk, Nat.zero_add]
  exact ⟨hlo, hhi⟩

/-- The function `pow2` is the power of two. -/
theorem pow2_eq (e : ℤ) : pow2 e = (2 : ℚ) ^ e := by
  unfold pow2
  by_cases he : 0 ≤ e
  · rw [if_pos he]
    obtain ⟨n, rfl⟩ := Int.eq_ofNat_of_zero_le he
    simp
  · rw [if_neg he]
    have hneg : 0 ≤ -e := by omega
    obtain ⟨n, hn⟩ := Int.eq_ofNat_of_zero_le hneg
    have he2 : e = -(n : ℤ) := by omega
    subst he2
    simp

/-- Bounds on a quotient from the binary logarithms of numerator and denominator. -/
theorem ratio_bounds (N D : ℚ) (ln ld : ℕ) (hD : 0 < D) (A1 : (2 : ℚ) ^ ln ≤ N)
    (A2 : N < (2 : ℚ) ^ (ln + 1)) (B1 : (2 : ℚ) ^ ld ≤ D) (B2 : D < (2 : ℚ) ^ (ld + 1)) :
    (2 : ℚ) ^ ((ln : ℤ) - (ld : ℤ) - 1) < N / D ∧ N / D < (2 : ℚ) ^ ((ln : ℤ) - (ld : ℤ) + 1) := by
  have two_ne : (2 : ℚ) ≠ 0 := by norm_num
  constructor
  · have e1 : (2 : ℚ) ^ ((ln : ℤ) - (ld : ℤ) - 1) = (2 : ℚ) ^ ln / (2 : ℚ) ^ (ld + 1) := by
      rw [show ((ln : ℤ) - (ld : ℤ) - 1) = (ln : ℤ) - ((ld + 1 : ℕ) : ℤ) by push_cast; ring]
      rw [zpow_sub₀ two_ne, zpow_natCast, zpow_natCast]
    rw [e1, div_lt_div_iff₀ (by positivity) hD]
    calc (2 : ℚ) ^ ln * D < (2 : ℚ) ^ ln * (2 : ℚ) ^ (ld + 1) :=
          mul_lt_mul_of_pos_left B2 (by positivity)
      _ ≤ N * (2 : ℚ) ^ (ld + 1) := mul_le_mul_of_nonneg_right A1 (by positivity)
  · have e1 : (2 : ℚ) ^ ((ln : ℤ) - (ld : ℤ) + 1) = (2 : ℚ) ^ (ln + 1) / (2 : ℚ) ^ ld := by
      rw [show ((ln : ℤ) - (ld : ℤ) + 1) = ((ln + 1 : ℕ) : ℤ) - (ld : ℤ) by push_cast; ring]
      rw [zpow_sub₀ two_ne, zpow_natCast, zpow_natCast]
    rw [e1, div_lt_div_iff₀ hD (by positivity)]
    calc N * (2 : ℚ) ^ ld < (2 : ℚ) ^ (ln + 1) * (2 : ℚ) ^ ld :=
          mul_lt_mul_of_pos_right A2 (by positivity)
      _ ≤ (2 : ℚ) ^ (ln + 1) * D := mul_le_mul_of_nonneg_left B1 (by positivity)

/-- The value of `ilog2` on a positive rational number. -/
theorem ilog2_spec (x : ℚ) (hx : 0 < x) : (2 : ℚ) ^ ilog2 x ≤ x ∧ x < (2 : ℚ) ^ (ilog2 x + 1) := by
  have hnum : 0 < x.num := Rat.num_pos.mpr hx
  have hden : 0 < x.den := x.den_pos
  have hnat : (x.num.natAbs : ℤ) = x.num := Int.natAbs_of_nonneg hnum.le
  have hn1 : 1 ≤ x.num.natAbs := by omega
  obtain ⟨a1, a2⟩ := log2_spec x.num.natAbs hn1
  obtain ⟨b1, b2⟩ := log2_spec x.den hden
  have hxeq : (x.num.natAbs : ℚ) / (x.den : ℚ) = x := by
    have h1 : ((x.num.natAbs : ℤ) : ℚ) = (x.num : ℚ) := by rw [hnat]
    rw [← Int.cast_natCast, h1]
    exact Rat.num_div_den x
  have hdq : (0 : ℚ) < (x.den : ℚ) := by exact_mod_cast hden
  have A1 : (2 : ℚ) ^ (log2 x.num.natAbs) ≤ (x.num.natAbs : ℚ) := by exact_mod_cast a1
  have A2 : (x.num.natAbs : ℚ) < (2 : ℚ) ^ (log2 x.num.natAbs + 1) := by exact_mod_cast a2
  have B1 : (2 : ℚ) ^ (log2 x.den) ≤ (x.den : ℚ) := by exact_mod_cast b1
  have B2 : (x.den : ℚ) < (2 : ℚ) ^ (log2 x.den + 1) := by exact_mod_cast b2
  obtain ⟨lo0, hi0⟩ := ratio_bounds _ _ _ _ hdq A1 A2 B1 B2
  have lo : (2 : ℚ) ^ ((log2 x.num.natAbs : ℤ) - (log2 x.den : ℤ) - 1) < x :=
    lt_of_lt_of_eq lo0 hxeq
  have hi : x < (2 : ℚ) ^ ((log2 x.num.natAbs : ℤ) - (log2 x.den : ℤ) + 1) :=
    lt_of_eq_of_lt hxeq.symm hi0
  unfold ilog2
  dsimp only
  rw [pow2_eq]
  by_cases hc : x < (2 : ℚ) ^ ((log2 x.num.natAbs : ℤ) - (log2 x.den : ℤ))
  · rw [if_pos hc]
    refine ⟨lo.le, ?_⟩
    rw [sub_add_cancel]
    exact hc
  · rw [if_neg hc]
    exact ⟨not_lt.mp hc, hi⟩

/-- Rounding to the nearest integer moves a number by at most one half. -/
theorem roundEven_sub_le (x : ℚ) : |((roundEven x : ℤ) : ℚ) - x| ≤ 1 / 2 := by
  have h1 : ((⌊x⌋ : ℤ) : ℚ) ≤ x := Int.floor_le x
  have h2 : x < ((⌊x⌋ : ℤ) : ℚ) + 1 := Int.lt_floor_add_one x
  unfold roundEven
  dsimp only
  split_ifs with c1 c2 c3
  · rw [abs_le]
    constructor <;> linarith
  · rw [abs_le]
    push_cast
    constructor <;> linarith
  · rw [abs_le]
    constructor <;> linarith
  · rw [abs_le]
    push_cast
    constructor <;> linarith

/-- Rounding to the nearest integer leaves an integer as it is. -/
theorem roundEven_intCast (n : ℤ) : roundEven (n : ℚ) = n := by
  unfold roundEven
  dsimp only
  rw [Int.floor_intCast, sub_self, if_pos (by norm_num)]

/-- The scaled rounding at the core of `round64`, for a positive number of magnitude at most
`2^1023`: the error bound, and no overflow. -/
theorem round64_core (a : ℚ) (ha : 0 < a) (hx : a ≤ 2 ^ 1023) :
    |((roundEven (a / (2 : ℚ) ^ (max (ilog2 a) (-1022) - 52)) : ℤ) : ℚ)
        * (2 : ℚ) ^ (max (ilog2 a) (-1022) - 52) - a| ≤ a / 2 ^ 53 + 1 / 2 ^ 1075
    ∧ ((roundEven (a / (2 : ℚ) ^ (max (ilog2 a) (-1022) - 52)) : ℤ) : ℚ)
        * (2 : ℚ) ^ (max (ilog2 a) (-1022) - 52) < 2 ^ 1024 := by
  obtain ⟨lo, _⟩ := ilog2_spec a ha
  have two_ne : (2 : ℚ) ≠ 0 := by norm_num
  have hq : (0 : ℚ) < (2 : ℚ) ^ (max (ilog2 a) (-1022) - 52) := by positivity
  have hz := roundEven_sub_le (a / (2 : ℚ) ^ (max (ilog2 a) (-1022) - 52))
  generalize hqd : (2 : ℚ) ^ (max (ilog2 a) (-1022) - 52) = q at hq hz ⊢
  generalize ((roundEven (a / q) : ℤ) : ℚ) = z at hz ⊢
  have herr : |z * q - a| ≤ q / 2 := by
    have e1 : z * q - a = (z - a / q) * q := by
      field_simp
    rw [e1, abs_mul, abs_of_pos hq]
    calc _ ≤ 1 / 2 * q := mul_le_mul_of_nonneg_right hz hq.le
      _ = _ := by ring
  have hhalf : q / 2 ≤ a / 2 ^ 53 + 1 / 2 ^ 1075 := by
    rw [← hqd]
    rcases le_total (ilog2 a) (-1022) with hle | hle
    · rw [max_eq_right hle]
      have : (2 : ℚ) ^ ((-1022 : ℤ) - 52) / 2 = 1 / 2 ^ 1075 := by
        rw [show ((-1022 : ℤ) - 52) = -((1074 : ℕ) : ℤ) by norm_num, zpow_neg, zpow_natCast]
        rw [show (2 : ℚ) ^ 1075 = 2 ^ 1074 * 2 by rw [pow_succ]]
        field_simp
      rw [this]
      have : 0 ≤ a / 2 ^ 53 := by positivity
      linarith
    · rw [max_eq_left hle]
      have : (2 : ℚ) ^ (ilog2 a - 52) / 2 = (2 : ℚ) ^ (ilog2 a) / 2 ^ 53 := by
        rw [zpow_sub₀ two_ne]
        rw [zpow_ofNat]
        rw [show (2 : ℚ) ^ 53 = 2 ^ 52 * 2 by rw [pow_succ]]
        field_simp
      rw [this]
      have h1 : (2 : ℚ) ^ (ilog2 a) / 2 ^ 53 ≤ a / 2 ^ 53 :=
        div_le_div_of_nonneg_right lo (by positivity)
      have : (0 : ℚ) ≤ 1 / 2 ^ 1075 := by positivity
      linarith
  have hb := le_trans herr hhalf
  refine ⟨hb, ?_⟩
  have h1 := (abs_le.mp hb).2
  have h2 : a / 2 ^ 53 ≤ 2 ^ 1023 / 2 ^ 53 := div_le_div_of_nonneg_right hx (by positivity)
  have h3 : (2 : ℚ) ^ 1023 / 2 ^ 53 + 1 / 2 ^ 1075 + 2 ^ 1023 < 2 ^ 1024 := by norm_num
  linarith

/-- The value of `round64` when the scaled rounding does not overflow. -/
theorem round64_eq (x : ℚ) (h0 : x ≠ 0)
    (hy : ((roundEven (|x| / (2 : ℚ) ^ (max (ilog2 |x|) (-1022) - 52)) : ℤ) : ℚ)
        * (2 : ℚ) ^ (max (ilog2 |x|) (-1022) - 52) < 2 ^ 1024) :
    round64 x = fin (if 0 < x
      then ((roundEven (|x| / (2 : ℚ) ^ (max (ilog2 |x|) (-1022) - 52)) : ℤ) : ℚ)
        * (2 : ℚ) ^ (max (ilog2 |x|) (-1022) - 52)
      else -(((roundEven (|x| / (2 : ℚ) ^ (max (ilog2 |x|) (-1022) - 52)) : ℤ) : ℚ)
        * (2 : ℚ) ^ (max (ilog2 |x|) (-1022) - 52))) := by
  unfold round64
  rw [if_neg h0]
  dsimp only
  rw [pow2_eq, pow2_eq]
  rw [if_neg (by
    rw [zpow_ofNat]
    exact not_le.mpr hy)]

/-- The rounding error of binary64: a number of magnitude at most `2^1023` is rounded to a
finite double, with a relative error of at most `2^-53` and, for a number below `2^-1022`, an
absolute error of at most `2^-1075`. -/
theorem round64_err (x : ℚ) (hx : |x| ≤ 2 ^ 1023) :
    ∃ y : ℚ, round64 x = fin y ∧ |y - x| ≤ |x| / 2 ^ 53 + 1 / 2 ^ 1075 := by
  by_cases h0 : x = 0
  · refine ⟨0, ?_, ?_⟩
    · unfold round64
      rw [if_pos h0]
    · rw [h0]
      norm_num
  · have ha : 0 < |x| := abs_pos.mpr h0
    obtain ⟨hb, hy⟩ := round64_core |x| ha hx
    rw [round64_eq x h0 hy]
    refine ⟨_, rfl, ?_⟩
    generalize ((roundEven (|x| / (2 : ℚ) ^ (max (ilog2 |x|) (-1022) - 52)) : ℤ) : ℚ)
        * (2 : ℚ) ^ (max (ilog2 |x|) (-1022) - 52) = y at hb
    by_cases hpos : 0 < x
    · rw [if_pos hpos]
      rw [abs_of_pos hpos] at hb ⊢
      exact hb
    · rw [if_neg hpos]
      have hneg : x < 0 := lt_of_le_of_ne (not_lt.mp hpos) h0
      have hxa : |x| = -x := abs_of_neg hneg
      rw [hxa] at hb ⊢
      rw [show -y - x = -(y - -x) by ring, abs_neg]
      exact hb

/-- The binary logarithm of a number between `1` and `2^53` lies between `0` and `53`. -/
theorem ilog2_range (a : ℚ) (h1 : 1 ≤ a) (h2 : a ≤ 2 ^ 53) : 0 ≤ ilog2 a ∧ ilog2 a ≤ 53 := by
  obtain ⟨lo, hi⟩ := ilog2_spec a (by linarith)
  constructor
  · by_contra hneg
    have hle : ilog2 a + 1 ≤ 0 := by omega
    have : (2 : ℚ) ^ (ilog2 a + 1) ≤ 1 := zpow_le_one_of_nonpos₀ (by norm_num) hle
    linarith
  · by_contra hbig
    have hle : (54 : ℤ) ≤ ilog2 a := by omega
    have h54 : (2 : ℚ) ^ (54 : ℤ) ≤ (2 : ℚ) ^ ilog2 a := zpow_le_zpow_right₀ (by norm_num) hle
    rw [zpow_ofNat] at h54
    have : (2 : ℚ) ^ 53 < 2 ^ 54 := by norm_num
    linarith

/-- An integer of magnitude at most `2^53` is a double: rounding leaves it as it is. -/
theorem round64_intCast (n : ℤ) (hn : |n| ≤ 2 ^ 53) : round64 (n : ℚ) = fin (n : ℚ) := by
  by_cases h0 : n = 0
  · subst h0
    unfold round64
    simp
  · have hq0 : (n : ℚ) ≠ 0 := by exact_mod_cast h0
    have habs : |(n : ℚ)| = ((|n| : ℤ) : ℚ) := by push_cast; rfl
    have h1 : (1 : ℚ) ≤ |(n : ℚ)| := by
      rw [habs]
      have : (1 : ℤ) ≤ |n| := Int.one_le_abs h0
      exact_mod_cast this
    have h2 : |(n : ℚ)| ≤ 2 ^ 53 := by
      rw [habs]
      exact_mod_cast hn
    obtain ⟨r0, r53⟩ := ilog2_range _ h1 h2
    obtain ⟨lo, hi⟩ := ilog2_spec |(n : ℚ)| (by linarith)
    obtain ⟨k, hk⟩ := Int.eq_ofNat_of_zero_le r0
    have hk53 : k ≤ 53 := by omega
    have hmax : max (ilog2 |(n : ℚ)|) (-1022) = (k : ℤ) := by
      rw [hk]
      exact max_eq_left (by omega)
    have two_ne : (2 : ℚ) ≠ 0 := by norm_num
    -- the scaled value is an integer
    have hint : ∃ m : ℤ, |(n : ℚ)| / (2 : ℚ) ^ ((k : ℤ) - 52) = (m : ℚ) := by
      by_cases hk52 : k ≤ 52
      · refine ⟨|n| * 2 ^ (52 - k), ?_⟩
        rw [habs, zpow_sub₀ two_ne, zpow_natCast, zpow_ofNat]
        have : (2 : ℚ) ^ 52 = 2 ^ k * 2 ^ (52 - k) := by
          rw [← pow_add]
          congr 1
          omega
        rw [this]
        push_cast
        field_simp
        ring
      · have hk' : k = 53 := by omega
        subst hk'
        rw [hk] at lo
        have hlo : (2 : ℚ) ^ 53 ≤ |(n : ℚ)| := by
          rw [← zpow_natCast]
          exact lo
        have heq : |(n : ℚ)| = 2 ^ 53 := le_antisymm h2 hlo
        refine ⟨2 ^ 52, ?_⟩
        rw [heq]
        norm_num
    obtain ⟨m, hm⟩ := hint
    have hy : ((roundEven (|(n : ℚ)| / (2 : ℚ) ^ (max (ilog2 |(n : ℚ)|) (-1022) - 52)) : ℤ) : ℚ)
        * (2 : ℚ) ^ (max (ilog2 |(n : ℚ)|) (-1022) - 52) = |(n : ℚ)| := by
      rw [hmax, hm, roundEven_intCast, ← hm]
      field_simp
    rw [round64_eq (n : ℚ) hq0 (by rw [hy]; exact lt_of_le_of_lt h2 (by norm_num)), hy]
    by_cases hpos : 0 < (n : ℚ)
    · rw [if_pos hpos, abs_of_pos hpos]
    · rw [if_neg hpos]
      have hneg : (n : ℚ) < 0 := lt_of_le_of_ne (not_lt.mp hpos) hq0
      rw [abs_of_neg hneg, neg_neg]

/-! ## Binary64: arithmetic on integer coordinates -/

/-! ## Integer arithmetic in binary64 -/

namespace Double

/-- The difference of two integers is computed exactly in binary64 when it is at most `2^53` in
magnitude. -/
theorem int_sub (m n : ℤ) (h : |m - n| ≤ 2 ^ 53) :
    (fin (m : ℚ) : Double Binary64) - (fin (n : ℚ) : Double Binary64) = fin ((m - n : ℤ) : ℚ) := by
  show round64 ((m : ℚ) + -(n : ℚ)) = fin ((m - n : ℤ) : ℚ)
  rw [show (m : ℚ) + -(n : ℚ) = ((m - n : ℤ) : ℚ) by push_cast; ring]
  exact round64_intCast _ h

/-- The product of two integers is computed exactly in binary64 when it is at most `2^53` in
magnitude. -/
theorem int_mul (m n : ℤ) (h : |m * n| ≤ 2 ^ 53) :
    (fin (m : ℚ) : Double Binary64) * (fin (n : ℚ) : Double Binary64) = fin ((m * n : ℤ) : ℚ) := by
  show round64 ((m : ℚ) * (n : ℚ)) = fin ((m * n : ℤ) : ℚ)
  rw [show (m : ℚ) * (n : ℚ) = ((m * n : ℤ) : ℚ) by push_cast; ring]
  exact round64_intCast _ h

/-- The quotient of two finite doubles with a nonzero divisor is the rounded quotient. -/
theorem div_round64 (x y : ℚ) (hy : y ≠ 0) :
    (fin x : Double Binary64) / (fin y : Double Binary64) = round64 (x / y) := by
  show (if y = 0 then (if x = 0 then nan else if 0 < x then pinf else ninf) else round64 (x / y))
    = _
  rw [if_neg hy]

/-- The sum of two finite doubles is the rounded sum. -/
theorem add_round64 (x y : ℚ) : (fin x : Double Binary64) + (fin y : Double Binary64) = round64 (x + y) := rfl

/-- The difference of two finite doubles is the rounded difference. -/
theorem sub_round64 (x y : ℚ) : (fin x : Double Binary64) - (fin y : Double Binary64) = round64 (x - y) := by
  show round64 (x + -y) = _
  rw [sub_eq_add_neg]

/-- The product of two finite doubles is the rounded product. -/
theorem mul_round64 (x y : ℚ) : (fin x : Double Binary64) * (fin y : Double Binary64) = round64 (x * y) := rfl

end Double

namespace LineSegment

/-- Bounds on products and differences of integers. -/
theorem abs_mul_le_of {x y X Y : ℤ} (hx : |x| ≤ X) (hy : |y| ≤ Y) : |x * y| ≤ X * Y := by
  rw [abs_mul]
  exact mul_le_mul hx hy (abs_nonneg y) (le_trans (abs_nonneg x) hx)

theorem abs_sub_le_of {x y X Y : ℤ} (hx : |x| ≤ X) (hy : |y| ≤ Y) : |x - y| ≤ X + Y := by
  have := abs_sub x y
  linarith [abs_sub x y]

/-- On segments with integer coordinates of magnitude at most `2^15`, the divisor of
`intersect` is computed exactly in binary64. -/
theorem divisor_pixels (a b c d e f g h : ℤ) (ha : |a| ≤ 2 ^ 15) (hb : |b| ≤ 2 ^ 15)
    (hc : |c| ≤ 2 ^ 15) (hd : |d| ≤ 2 ^ 15) (he : |e| ≤ 2 ^ 15) (hf : |f| ≤ 2 ^ 15)
    (hg : |g| ≤ 2 ^ 15) (hh : |h| ≤ 2 ^ 15) :
    divisor (pixels a b c d) (pixels e f g h)
      = fin (((a - c) * (f - h) - (b - d) * (e - g) : ℤ) : ℚ) := by
  have h1 := abs_sub_le_of ha hc
  have h2 := abs_sub_le_of hf hh
  have h3 := abs_sub_le_of hb hd
  have h4 := abs_sub_le_of he hg
  have h5 := abs_mul_le_of h1 h2
  have h6 := abs_mul_le_of h3 h4
  have h7 := abs_sub_le_of h5 h6
  simp only [divisor, pixels]
  rw [Double.int_sub a c (le_trans h1 (by norm_num)),
    Double.int_sub f h (le_trans h2 (by norm_num)),
    Double.int_sub b d (le_trans h3 (by norm_num)),
    Double.int_sub e g (le_trans h4 (by norm_num)),
    Double.int_mul _ _ (le_trans h5 (by norm_num)),
    Double.int_mul _ _ (le_trans h6 (by norm_num)),
    Double.int_sub _ _ (le_trans h7 (by norm_num))]

end LineSegment

namespace LineSegment

/-- On segments with integer coordinates of magnitude at most `2^15`, the numerators of the two
quotients of `intersect` and their divisor are computed exactly in binary64. -/
theorem intersectP_pixels (a b c d e f g h : ℤ) (ha : |a| ≤ 2 ^ 15) (hb : |b| ≤ 2 ^ 15)
    (hc : |c| ≤ 2 ^ 15) (hd : |d| ≤ 2 ^ 15) (he : |e| ≤ 2 ^ 15) (hf : |f| ≤ 2 ^ 15)
    (hg : |g| ≤ 2 ^ 15) (hh : |h| ≤ 2 ^ 15) :
    intersectP (pixels a b c d) (pixels e f g h)
      = ⟨(fin (((a * d - b * c) * (e - g) - (a - c) * (e * h - f * g) : ℤ) : ℚ)
            : Double Binary64)
          / (fin (((a - c) * (f - h) - (b - d) * (e - g) : ℤ) : ℚ) : Double Binary64),
        (fin (((a * d - b * c) * (f - h) - (b - d) * (e * h - f * g) : ℤ) : ℚ)
            : Double Binary64)
          / (fin (((a - c) * (f - h) - (b - d) * (e - g) : ℤ) : ℚ) : Double Binary64)⟩ := by
  have hD := divisor_pixels a b c d e f g h ha hb hc hd he hf hg hh
  have k1 := abs_mul_le_of ha hd
  have k2 := abs_mul_le_of hb hc
  have k3 := abs_sub_le_of k1 k2
  have k4 := abs_sub_le_of he hg
  have k5 := abs_mul_le_of k3 k4
  have k6 := abs_sub_le_of ha hc
  have k7 := abs_mul_le_of he hh
  have k8 := abs_mul_le_of hf hg
  have k9 := abs_sub_le_of k7 k8
  have k10 := abs_mul_le_of k6 k9
  have k11 := abs_sub_le_of k5 k10
  have k12 := abs_sub_le_of hf hh
  have k13 := abs_mul_le_of k3 k12
  have k14 := abs_sub_le_of hb hd
  have k15 := abs_mul_le_of k14 k9
  have k16 := abs_sub_le_of k13 k15
  unfold intersectP
  rw [hD]
  simp only [pixels]
  rw [Double.int_mul a d (le_trans k1 (by norm_num)),
    Double.int_mul b c (le_trans k2 (by norm_num)),
    Double.int_sub _ _ (le_trans k3 (by norm_num)),
    Double.int_sub e g (le_trans k4 (by norm_num)),
    Double.int_mul _ _ (le_trans k5 (by norm_num)),
    Double.int_sub a c (le_trans k6 (by norm_num)),
    Double.int_mul e h (le_trans k7 (by norm_num)),
    Double.int_mul f g (le_trans k8 (by norm_num)),
    Double.int_sub _ _ (le_trans k9 (by norm_num)),
    Double.int_mul _ _ (le_trans k10 (by norm_num)),
    Double.int_sub _ _ (le_trans k11 (by norm_num)),
    Double.int_sub f h (le_trans k12 (by norm_num)),
    Double.int_mul _ _ (le_trans k13 (by norm_num)),
    Double.int_sub b d (le_trans k14 (by norm_num)),
    Double.int_mul _ _ (le_trans k15 (by norm_num)),
    Double.int_sub _ _ (le_trans k16 (by norm_num))]

end LineSegment

namespace LineSegment

/-- The crossing point of two lines in closed form, over any field. -/
theorem crossing_point_field {F : Type} [Field F] (a b c d e f g h s t : F)
    (hD : (a - c) * (f - h) - (b - d) * (e - g) ≠ 0)
    (hx : a + s * (c - a) = e + t * (g - e)) (hy : b + s * (d - b) = f + t * (h - f)) :
    ((a * d - b * c) * (e - g) - (a - c) * (e * h - f * g))
        / ((a - c) * (f - h) - (b - d) * (e - g)) = a + s * (c - a)
    ∧ ((a * d - b * c) * (f - h) - (b - d) * (e * h - f * g))
        / ((a - c) * (f - h) - (b - d) * (e - g)) = b + s * (d - b) := by
  constructor
  · rw [div_eq_iff hD]
    linear_combination ((a - c) * (h - f)) * hx - ((a - c) * (g - e)) * hy
  · rw [div_eq_iff hD]
    linear_combination ((b - d) * (h - f)) * hx - ((b - d) * (g - e)) * hy

/-- The error of a span ratio computed in binary64.  The point coordinate `pu` is the rounded
value of the exact coordinate `Qu = u0 + t * w`, where `u0` is an integer of magnitude at most
`2^15` and `w` a nonzero integer of magnitude at most `2^16`; the computed ratio
`(pu - u0) / w` is a finite double within `2^-36 + |t| * 2^-34` of `t`. -/
theorem ratio_err (pu Qu t : ℚ) (u0 w : ℤ) (hw : w ≠ 0) (hu0 : |u0| ≤ 2 ^ 15)
    (hw16 : |w| ≤ 2 ^ 16) (hQ : Qu = u0 + t * w) (hb : |Qu| ≤ 2 ^ 50)
    (hp : round64 Qu = fin pu) :
    ∃ l : ℚ, ((fin pu : Double Binary64) - (fin (u0 : ℚ) : Double Binary64))
        / (fin (w : ℚ) : Double Binary64) = fin l
      ∧ |l - t| ≤ 1 / 2 ^ 36 + |t| / 2 ^ 34 := by
  have hwq : (w : ℚ) ≠ 0 := by exact_mod_cast hw
  have hw1 : (1 : ℚ) ≤ |(w : ℚ)| := by
    have : (1 : ℤ) ≤ |w| := Int.one_le_abs hw
    have h2 : ((1 : ℤ) : ℚ) ≤ ((|w| : ℤ) : ℚ) := by exact_mod_cast this
    simpa using h2
  have hw2 : |(w : ℚ)| ≤ 2 ^ 16 := by
    have h2 : ((|w| : ℤ) : ℚ) ≤ ((2 ^ 16 : ℤ) : ℚ) := by exact_mod_cast hw16
    simpa using h2
  have hu : |(u0 : ℚ)| ≤ 2 ^ 15 := by
    have h2 : ((|u0| : ℤ) : ℚ) ≤ ((2 ^ 15 : ℤ) : ℚ) := by exact_mod_cast hu0
    simpa using h2
  -- the rounded coordinate
  obtain ⟨y, hy, h1⟩ := round64_err Qu (le_trans hb (by norm_num))
  rw [hp] at hy
  have hpy : pu = y := Double.fin_injective hy
  subst hpy
  have hpuQ : |pu| ≤ |Qu| + |pu - Qu| := by
    have := abs_add (pu - Qu) Qu
    rw [sub_add_cancel] at this
    linarith
  -- the rounded difference
  have hd1 : |pu - (u0 : ℚ)| ≤ 2 ^ 52 := by
    have := abs_sub pu (u0 : ℚ)
    have h50 : (2 : ℚ) ^ 50 / 2 ^ 53 + 1 / 2 ^ 1075 + 2 ^ 50 + 2 ^ 15 ≤ 2 ^ 52 := by norm_num
    have : |Qu| / 2 ^ 53 ≤ 2 ^ 50 / 2 ^ 53 := div_le_div_of_nonneg_right hb (by positivity)
    linarith
  obtain ⟨v, hv, h2⟩ := round64_err (pu - (u0 : ℚ)) (le_trans hd1 (by norm_num))
  -- the rounded quotient
  have hv1 : |v| ≤ 2 ^ 53 := by
    have := abs_add (v - (pu - (u0 : ℚ))) (pu - (u0 : ℚ))
    rw [sub_add_cancel] at this
    have : |pu - (u0 : ℚ)| / 2 ^ 53 ≤ 2 ^ 52 / 2 ^ 53 :=
      div_le_div_of_nonneg_right hd1 (by positivity)
    have h50 : (2 : ℚ) ^ 52 / 2 ^ 53 + 1 / 2 ^ 1075 + 2 ^ 52 ≤ 2 ^ 53 := by norm_num
    linarith
  have hvw : |v / (w : ℚ)| ≤ |v| := by
    rw [abs_div]
    exact div_le_self (abs_nonneg v) hw1
  obtain ⟨l, hl, h3⟩ := round64_err (v / (w : ℚ)) (le_trans hvw (le_trans hv1 (by norm_num)))
  refine ⟨l, ?_, ?_⟩
  · rw [Double.sub_round64, hv, Double.div_round64 _ _ hwq, hl]
  · -- the chain of errors
    have htw : |t * (w : ℚ)| ≤ |t| * 2 ^ 16 := by
      rw [abs_mul]
      exact mul_le_mul_of_nonneg_left hw2 (abs_nonneg t)
    have hQa : |Qu| ≤ 2 ^ 15 + |t * (w : ℚ)| := by
      rw [hQ]
      have := abs_add (u0 : ℚ) (t * (w : ℚ))
      linarith
    have hpu0 : |pu - (u0 : ℚ)| ≤ |pu - Qu| + |t * (w : ℚ)| := by
      have e1 : pu - (u0 : ℚ) = (pu - Qu) + t * (w : ℚ) := by rw [hQ]; ring
      rw [e1]
      exact abs_add _ _
    have hvt : |v - t * (w : ℚ)| ≤ |v - (pu - (u0 : ℚ))| + |pu - Qu| := by
      have e1 : v - t * (w : ℚ) = (v - (pu - (u0 : ℚ))) + (pu - Qu) := by rw [hQ]; ring
      rw [e1]
      exact abs_add _ _
    have hq : |v / (w : ℚ) - t| ≤ |v - t * (w : ℚ)| := by
      have e1 : v / (w : ℚ) - t = (v - t * (w : ℚ)) / (w : ℚ) := by
        field_simp
        ring
      rw [e1, abs_div]
      exact div_le_self (abs_nonneg _) hw1
    have hvwt : |v / (w : ℚ)| ≤ |t| + |v / (w : ℚ) - t| := by
      have := abs_add (v / (w : ℚ) - t) t
      rw [sub_add_cancel] at this
      linarith
    have hlt : |l - t| ≤ |l - v / (w : ℚ)| + |v / (w : ℚ) - t| := by
      have e1 : l - t = (l - v / (w : ℚ)) + (v / (w : ℚ) - t) := by ring
      rw [e1]
      exact abs_add _ _
    have ht0 := abs_nonneg t
    have hk : (1 : ℚ) / 2 ^ 1075 ≤ 1 / 2 ^ 60 := by
      apply one_div_le_one_div_of_le (by positivity)
      exact pow_le_pow_right₀ (by norm_num) (by norm_num)
    generalize |pu - Qu| = E1 at *
    generalize |v - (pu - (u0 : ℚ))| = E2 at *
    generalize |l - v / (w : ℚ)| = E3 at *
    generalize |v / (w : ℚ) - t| = E4 at *
    generalize |v - t * (w : ℚ)| = E5 at *
    generalize |t * (w : ℚ)| = TW at *
    generalize |pu - (u0 : ℚ)| = PU at *
    generalize |v / (w : ℚ)| = VW at *
    generalize |Qu| = QA at *
    generalize |t| = T at *
    generalize (1 : ℚ) / 2 ^ 1075 = τ at *
    norm_num at *
    linarith

end LineSegment

namespace LineSegment

/-- Casting a bound on an integer to the rational numbers. -/
theorem abs_cast_le {n : ℤ} {k : ℕ} (h : |n| ≤ 2 ^ k) : |(n : ℚ)| ≤ 2 ^ k := by
  have h2 : ((|n| : ℤ) : ℚ) ≤ ((2 ^ k : ℤ) : ℚ) := by exact_mod_cast h
  simpa using h2

/-- The parameter computed by `intersect` in binary64 for the rounded crossing point, along a
non-degenerate segment with integer coordinates of magnitude at most `2^15`: the X-span ratio,
or the Y-span ratio when the X-span ratio is `NaN`, which happens when the segment is vertical.
It is a finite double within `2^-36 + |t| * 2^-34` of the exact parameter `t`. -/
theorem lambda_pixels (px py Qx Qy t : ℚ) (e f g h : ℤ) (he : |e| ≤ 2 ^ 15)
    (hf : |f| ≤ 2 ^ 15) (hg : |g| ≤ 2 ^ 15) (hh : |h| ≤ 2 ^ 15) (hB : e ≠ g ∨ f ≠ h)
    (hQx : Qx = e + t * ((g - e : ℤ) : ℚ)) (hQy : Qy = f + t * ((h - f : ℤ) : ℚ))
    (hbx : |Qx| ≤ 2 ^ 50) (hby : |Qy| ≤ 2 ^ 50)
    (hpx : round64 Qx = fin px) (hpy : round64 Qy = fin py) :
    ∃ l : ℚ,
      (if isnan (((fin px : Double Binary64) - (fin (e : ℚ) : Double Binary64))
          / ((fin (g : ℚ) : Double Binary64) - (fin (e : ℚ) : Double Binary64)))
        then ((fin py : Double Binary64) - (fin (f : ℚ) : Double Binary64))
          / ((fin (h : ℚ) : Double Binary64) - (fin (f : ℚ) : Double Binary64))
        else ((fin px : Double Binary64) - (fin (e : ℚ) : Double Binary64))
          / ((fin (g : ℚ) : Double Binary64) - (fin (e : ℚ) : Double Binary64))) = fin l
      ∧ |l - t| ≤ 1 / 2 ^ 36 + |t| / 2 ^ 34 := by
  have k1 := abs_sub_le_of hg he
  have k2 := abs_sub_le_of hh hf
  have k1' : |g - e| ≤ 2 ^ 16 := le_trans k1 (by norm_num)
  have k2' : |h - f| ≤ 2 ^ 16 := le_trans k2 (by norm_num)
  rw [Double.int_sub g e (le_trans k1 (by norm_num)),
    Double.int_sub h f (le_trans k2 (by norm_num))]
  by_cases hge : g = e
  · have hfh : h - f ≠ 0 := by
      rcases hB with h1 | h1
      · exact absurd hge.symm h1
      · exact sub_ne_zero.mpr (Ne.symm h1)
    have hQe : Qx = (e : ℚ) := by
      rw [hQx, hge]
      simp
    have hpe : px = (e : ℚ) := by
      rw [hQe, round64_intCast e (le_trans he (by norm_num))] at hpx
      exact (Double.fin_injective hpx).symm
    obtain ⟨l, hl, hlt⟩ := ratio_err py Qy t f (h - f) hfh hf k2' hQy hby hpy
    refine ⟨l, ?_, hlt⟩
    have hnan : ((fin px : Double Binary64) - (fin (e : ℚ) : Double Binary64))
        / (fin ((g - e : ℤ) : ℚ) : Double Binary64) = nan := by
      rw [hpe, Double.int_sub e e (by simp), hge]
      simp only [sub_self, Int.cast_zero]
      rfl
    rw [hnan]
    simp only [Double.isnan_nan, if_true]
    exact hl
  · have hge2 : g - e ≠ 0 := sub_ne_zero.mpr hge
    obtain ⟨l, hl, hlt⟩ := ratio_err px Qx t e (g - e) hge2 he k1' hQx hbx hpx
    refine ⟨l, ?_, hlt⟩
    rw [hl]
    simp only [Double.isnan_fin]
    simp

end LineSegment

namespace LineSegment

set_option maxRecDepth 100000 in
/-- The lower bound `0 + EPSILON` of the band test, in binary64. -/
theorem band_lo : ((fin 0 : Double Binary64) + lit (1 / 100))
    = fin (5764607523034235 / 576460752303423488) := by
  decide!

set_option maxRecDepth 100000 in
/-- The upper bound `1 - EPSILON` of the band test, in binary64. -/
theorem band_hi : ((fin 1 : Double Binary64) - lit (1 / 100))
    = fin (4458563631096791 / 4503599627370496) := by
  decide!

/-- The band test of `intersect` on two finite parameters, in binary64. -/
theorem bandTest_fin (l1 l2 : ℚ) :
    bandTest (fin l1 : Double Binary64) (fin l2)
      = (decide (l1 < 5764607523034235 / 576460752303423488)
        || decide (4458563631096791 / 4503599627370496 < l1)
        || decide (l2 < 5764607523034235 / 576460752303423488)
        || decide (4458563631096791 / 4503599627370496 < l2)) := by
  unfold bandTest
  rw [band_lo, band_hi]
  simp only [Double.lt_fin, Double.gt_fin]

/-- Evaluation of `intersect` in binary64 on non-degenerate segments with integer coordinates of
magnitude at most `2^15` whose supporting lines are not parallel and meet at parameters `s`
(along the first) and `t` (along the second): the computed point is the rounded crossing point,
never the sentinel point, and the computed parameters are within `2^-36 + |s| * 2^-34` of `s`
and within `2^-36 + |t| * 2^-34` of `t`. -/
theorem eval_pixels (a b c d e f g h : ℤ) (s t : ℚ) (ha : |a| ≤ 2 ^ 15) (hb : |b| ≤ 2 ^ 15)
    (hc : |c| ≤ 2 ^ 15) (hd : |d| ≤ 2 ^ 15) (he : |e| ≤ 2 ^ 15) (hf : |f| ≤ 2 ^ 15)
    (hg : |g| ≤ 2 ^ 15) (hh : |h| ≤ 2 ^ 15) (hA : a ≠ c ∨ b ≠ d) (hB : e ≠ g ∨ f ≠ h)
    (hD : (a - c) * (f - h) - (b - d) * (e - g) ≠ 0)
    (hx : (a : ℚ) + s * (c - a) = e + t * (g - e))
    (hy : (b : ℚ) + s * (d - b) = f + t * (h - f)) :
    ∃ px py l1 l2 : ℚ,
      intersectP (pixels a b c d) (pixels e f g h) = ⟨fin px, fin py⟩
      ∧ |px - (a + s * (c - a))| ≤ |(a : ℚ) + s * (c - a)| / 2 ^ 53 + 1 / 2 ^ 1075
      ∧ |py - (b + s * (d - b))| ≤ |(b : ℚ) + s * (d - b)| / 2 ^ 53 + 1 / 2 ^ 1075
      ∧ px ≠ 1 / 2 ^ 1022
      ∧ intersectLambda1 (pixels a b c d) (pixels e f g h) = fin l1
      ∧ |l1 - t| ≤ 1 / 2 ^ 36 + |t| / 2 ^ 34
      ∧ intersectLambda2 (pixels a b c d) (pixels e f g h) = fin l2
      ∧ |l2 - s| ≤ 1 / 2 ^ 36 + |s| / 2 ^ 34 := by
  have hDq : (((a - c) * (f - h) - (b - d) * (e - g) : ℤ) : ℚ) ≠ 0 := by exact_mod_cast hD
  have hDq' : ((a : ℚ) - c) * (f - h) - ((b : ℚ) - d) * (e - g) ≠ 0 := by
    have := hDq
    push_cast at this
    exact this
  obtain ⟨cx, cy⟩ := crossing_point_field (a : ℚ) b c d e f g h s t hDq' hx hy
  -- bounds on the numerators
  have k1 := abs_mul_le_of ha hd
  have k2 := abs_mul_le_of hb hc
  have k3 := abs_sub_le_of k1 k2
  have k4 := abs_sub_le_of he hg
  have k5 := abs_mul_le_of k3 k4
  have k6 := abs_sub_le_of ha hc
  have k7 := abs_mul_le_of he hh
  have k8 := abs_mul_le_of hf hg
  have k9 := abs_sub_le_of k7 k8
  have k10 := abs_mul_le_of k6 k9
  have k11 := abs_sub_le_of k5 k10
  have k12 := abs_sub_le_of hf hh
  have k13 := abs_mul_le_of k3 k12
  have k14 := abs_sub_le_of hb hd
  have k15 := abs_mul_le_of k14 k9
  have k16 := abs_sub_le_of k13 k15
  have hD1 : (1 : ℚ) ≤ |(((a - c) * (f - h) - (b - d) * (e - g) : ℤ) : ℚ)| := by
    have : (1 : ℤ) ≤ |(a - c) * (f - h) - (b - d) * (e - g)| := Int.one_le_abs hD
    have h2 : ((1 : ℤ) : ℚ) ≤ ((|(a - c) * (f - h) - (b - d) * (e - g)| : ℤ) : ℚ) := by
      exact_mod_cast this
    simpa using h2
  have hNx : |(((a * d - b * c) * (e - g) - (a - c) * (e * h - f * g) : ℤ) : ℚ)| ≤ 2 ^ 50 := by
    have h2 : ((|(a * d - b * c) * (e - g) - (a - c) * (e * h - f * g)| : ℤ) : ℚ)
        ≤ ((2 ^ 50 : ℤ) : ℚ) := by exact_mod_cast le_trans k11 (by norm_num)
    simpa using h2
  have hNy : |(((a * d - b * c) * (f - h) - (b - d) * (e * h - f * g) : ℤ) : ℚ)| ≤ 2 ^ 50 := by
    have h2 : ((|(a * d - b * c) * (f - h) - (b - d) * (e * h - f * g)| : ℤ) : ℚ)
        ≤ ((2 ^ 50 : ℤ) : ℚ) := by exact_mod_cast le_trans k16 (by norm_num)
    simpa using h2
  -- the exact crossing point, as a quotient of integers
  have eQx : (((a * d - b * c) * (e - g) - (a - c) * (e * h - f * g) : ℤ) : ℚ)
      / (((a - c) * (f - h) - (b - d) * (e - g) : ℤ) : ℚ) = (a : ℚ) + s * (c - a) := by
    rw [← cx]
    push_cast
    rfl
  have eQy : (((a * d - b * c) * (f - h) - (b - d) * (e * h - f * g) : ℤ) : ℚ)
      / (((a - c) * (f - h) - (b - d) * (e - g) : ℤ) : ℚ) = (b : ℚ) + s * (d - b) := by
    rw [← cy]
    push_cast
    rfl
  have hQx : |(a : ℚ) + s * (c - a)| ≤ 2 ^ 50 := by
    rw [← eQx, abs_div]
    exact le_trans (div_le_self (abs_nonneg _) hD1) hNx
  have hQy : |(b : ℚ) + s * (d - b)| ≤ 2 ^ 50 := by
    rw [← eQy, abs_div]
    exact le_trans (div_le_self (abs_nonneg _) hD1) hNy
  obtain ⟨px, hpx, epx⟩ := round64_err ((a : ℚ) + s * (c - a)) (le_trans hQx (by norm_num))
  obtain ⟨py, hpy, epy⟩ := round64_err ((b : ℚ) + s * (d - b)) (le_trans hQy (by norm_num))
  have hP : intersectP (pixels a b c d) (pixels e f g h) = ⟨fin px, fin py⟩ := by
    rw [intersectP_pixels a b c d e f g h ha hb hc hd he hf hg hh,
      Double.div_round64 _ _ hDq, Double.div_round64 _ _ hDq, eQx, eQy, hpx, hpy]
  obtain ⟨l1, hl1, el1⟩ := lambda_pixels px py _ _ t e f g h he hf hg hh hB
    (by rw [hx]; push_cast; ring) (by rw [hy]; push_cast; ring) hQx hQy hpx hpy
  obtain ⟨l2, hl2, el2⟩ := lambda_pixels px py _ _ s a b c d ha hb hc hd hA
    (by push_cast; ring) (by push_cast; ring) hQx hQy hpx hpy
  refine ⟨px, py, l1, l2, hP, epx, epy, ?_, ?_, el1, ?_, el2⟩
  · -- the computed X coordinate is zero, or at least `2^-34` in magnitude
    intro hpe
    by_cases hN : (a * d - b * c) * (e - g) - (a - c) * (e * h - f * g) = 0
    · rw [← eQx, hN] at hpx
      simp only [Int.cast_zero, zero_div] at hpx
      have h0 : round64 0 = fin 0 := by
        unfold round64
        simp
      rw [h0] at hpx
      have := Double.fin_injective hpx
      rw [hpe] at this
      norm_num at this
    · have hN1 : (1 : ℚ)
          ≤ |(((a * d - b * c) * (e - g) - (a - c) * (e * h - f * g) : ℤ) : ℚ)| := by
        have : (1 : ℤ) ≤ |(a * d - b * c) * (e - g) - (a - c) * (e * h - f * g)| :=
          Int.one_le_abs hN
        have h2 : ((1 : ℤ) : ℚ)
            ≤ ((|(a * d - b * c) * (e - g) - (a - c) * (e * h - f * g)| : ℤ) : ℚ) := by
          exact_mod_cast this
        simpa using h2
      have m1 := abs_sub_le_of ha hc
      have m2 := abs_sub_le_of hf hh
      have m3 := abs_sub_le_of hb hd
      have m4 := abs_sub_le_of he hg
      have m5 := abs_mul_le_of m1 m2
      have m6 := abs_mul_le_of m3 m4
      have m7 := abs_sub_le_of m5 m6
      have hD33 : |(((a - c) * (f - h) - (b - d) * (e - g) : ℤ) : ℚ)| ≤ 2 ^ 33 := by
        have h2 : ((|(a - c) * (f - h) - (b - d) * (e - g)| : ℤ) : ℚ)
            ≤ ((2 ^ 33 : ℤ) : ℚ) := by exact_mod_cast le_trans m7 (by norm_num)
        simpa using h2
      have hDpos : (0 : ℚ) < |(((a - c) * (f - h) - (b - d) * (e - g) : ℤ) : ℚ)| :=
        lt_of_lt_of_le (by norm_num) hD1
      have hlow : (1 : ℚ) / 2 ^ 33 ≤ |(a : ℚ) + s * (c - a)| := by
        rw [← eQx, abs_div, div_le_div_iff₀ (by positivity) hDpos]
        calc (1 : ℚ) * |(((a - c) * (f - h) - (b - d) * (e - g) : ℤ) : ℚ)|
            ≤ 1 * 2 ^ 33 := by linarith
          _ ≤ |(((a * d - b * c) * (e - g) - (a - c) * (e * h - f * g) : ℤ) : ℚ)| * 2 ^ 33 := by
            linarith
      have htri : |(a : ℚ) + s * (c - a)| ≤ |px| + |px - (a + s * (c - a))| := by
        have := abs_sub_abs_le_abs_sub ((a : ℚ) + s * (c - a)) px
        rw [abs_sub_comm] at this
        linarith
      rw [hpe] at htri epx
      have hsm : |(1 : ℚ) / 2 ^ 1022| = 1 / 2 ^ 1022 := abs_of_pos (by positivity)
      rw [hsm] at htri
      have hk : (1 : ℚ) / 2 ^ 1075 ≤ 1 / 2 ^ 60 := by
        apply one_div_le_one_div_of_le (by positivity)
        exact pow_le_pow_right₀ (by norm_num) (by norm_num)
      have hk2 : (1 : ℚ) / 2 ^ 1022 ≤ 1 / 2 ^ 60 := by
        apply one_div_le_one_div_of_le (by positivity)
        exact pow_le_pow_right₀ (by norm_num) (by norm_num)
      generalize |(a : ℚ) + s * (c - a)| = QA at *
      generalize |(1 : ℚ) / 2 ^ 1022 - (a + s * (c - a))| = E at *
      generalize (1 : ℚ) / 2 ^ 1075 = τ at *
      generalize (1 : ℚ) / 2 ^ 1022 = σ at *
      norm_num at *
      linarith
  · unfold intersectLambda1
    rw [hP]
    exact hl1
  · unfold intersectLambda2
    rw [hP]
    exact hl2

end LineSegment

/-! ## Binary64: the square root and the normalised direction -/

/-! ## The square root of binary64 -/

/-- The digit-by-digit loop finds the integer square root. -/
theorem isqrtAux_spec (i : ℕ) : ∀ n r : ℕ, r * r ≤ n → n < (r + 2 ^ i) * (r + 2 ^ i) →
    isqrtAux i n r * isqrtAux i n r ≤ n
      ∧ n < (isqrtAux i n r + 1) * (isqrtAux i n r + 1) := by
  induction i with
  | zero =>
    intro n r h1 h2
    simpa [isqrtAux] using And.intro h1 h2
  | succ i ih =>
    intro n r h1 h2
    unfold isqrtAux
    by_cases hc : (r + 2 ^ i) * (r + 2 ^ i) ≤ n
    · rw [if_pos hc]
      apply ih n (r + 2 ^ i) hc
      have : r + 2 ^ i + 2 ^ i = r + 2 ^ (i + 1) := by rw [pow_succ]; ring
      rw [this]
      exact h2
    · rw [if_neg hc]
      exact ih n r h1 (not_le.mp hc)

/-- The value of `isqrt` below `2^128`. -/
theorem isqrt_spec (n : ℕ) (h : n < 2 ^ 128) :
    isqrt n * isqrt n ≤ n ∧ n < (isqrt n + 1) * (isqrt n + 1) := by
  unfold isqrt
  apply isqrtAux_spec 64 n 0 (by simp)
  calc n < 2 ^ 128 := h
    _ = (0 + 2 ^ 64) * (0 + 2 ^ 64) := by norm_num

/-- The value of `sqrt64` on a positive number `x`, with `q` the unit in the last place of the
result: the result is at least `2^52 * q`, which is at most the square root of `x`, and `x` lies
between the squares of the result minus and plus `q / 2`. -/
theorem sqrt64_spec (x : ℚ) (hx : 0 < x) :
    ∃ q : ℚ, 0 < q ∧ q * 2 ^ 52 ≤ sqrt64 x ∧ (q * 2 ^ 52) ^ 2 ≤ x
      ∧ (sqrt64 x - q / 2) ^ 2 ≤ x ∧ x ≤ (sqrt64 x + q / 2) ^ 2 := by
  obtain ⟨lo, hi⟩ := ilog2_spec x hx
  have two_ne : (2 : ℚ) ≠ 0 := by norm_num
  -- the exponent of the result
  have hdm := Int.emod_add_ediv (ilog2 x) 2
  have hm0 := Int.emod_nonneg (ilog2 x) (by norm_num : (2 : ℤ) ≠ 0)
  have hm2 := Int.emod_lt_of_pos (ilog2 x) (by norm_num : (0 : ℤ) < 2)
  have hq : (0 : ℚ) < (2 : ℚ) ^ (ilog2 x / 2 - 52) := by positivity
  -- the scaled argument lies between `2^104` and `2^106`
  have hqq : (2 : ℚ) ^ (ilog2 x / 2 - 52) * (2 : ℚ) ^ (ilog2 x / 2 - 52) * 2 ^ 104
      = (2 : ℚ) ^ (2 * (ilog2 x / 2)) := by
    rw [← zpow_add₀ two_ne, ← zpow_natCast, ← zpow_add₀ two_ne]
    congr 1
    push_cast
    ring
  have hlo2 : (2 : ℚ) ^ (2 * (ilog2 x / 2)) ≤ x := by
    refine le_trans (zpow_le_zpow_right₀ (by norm_num) ?_) lo
    omega
  have hhi2 : x < (2 : ℚ) ^ (2 * (ilog2 x / 2)) * 4 := by
    refine lt_of_lt_of_le hi ?_
    have : (2 : ℚ) ^ (2 * (ilog2 x / 2)) * 4 = (2 : ℚ) ^ (2 * (ilog2 x / 2) + 2) := by
      rw [zpow_add₀ two_ne]
      norm_num
    rw [this]
    exact zpow_le_zpow_right₀ (by norm_num) (by omega)
  generalize hqd : (2 : ℚ) ^ (ilog2 x / 2 - 52) = q at hq hqq
  rw [← hqq] at hlo2 hhi2
  have hqq0 : 0 < q * q := mul_pos hq hq
  have hX1 : (2 : ℚ) ^ 104 ≤ x / (q * q) := by
    rw [le_div_iff₀ hqq0]
    linarith
  have hX2 : x / (q * q) < 2 ^ 106 := by
    rw [div_lt_iff₀ hqq0]
    have : (2 : ℚ) ^ 106 = 2 ^ 104 * 4 := by norm_num
    rw [this]
    linarith
  -- its integer part
  have hX0 : 0 ≤ x / (q * q) := le_trans (by positivity) hX1
  have hfl0 : 0 ≤ ⌊x / (q * q)⌋ := Int.floor_nonneg.mpr hX0
  obtain ⟨m, hm⟩ := Int.eq_ofNat_of_zero_le hfl0
  have hmle : (m : ℚ) ≤ x / (q * q) := by
    have := Int.floor_le (x / (q * q))
    rw [hm] at this
    exact_mod_cast this
  have hmlt : x / (q * q) < (m : ℚ) + 1 := by
    have := Int.lt_floor_add_one (x / (q * q))
    rw [hm] at this
    exact_mod_cast this
  have hm104 : 2 ^ 104 ≤ m := by
    have h1 : ((2 ^ 104 : ℤ) : ℚ) ≤ x / (q * q) := by exact_mod_cast hX1
    have := Int.le_floor.mpr h1
    rw [hm] at this
    exact_mod_cast this
  have hm106 : m < 2 ^ 106 := by
    have : (m : ℚ) < 2 ^ 106 := lt_of_le_of_lt hmle hX2
    exact_mod_cast this
  obtain ⟨s1, s2⟩ := isqrt_spec m (lt_trans hm106 (by norm_num))
  have hn52 : 2 ^ 52 ≤ isqrt m := by
    by_contra hlt
    have hlt' : isqrt m + 1 ≤ 2 ^ 52 := by omega
    have : (isqrt m + 1) * (isqrt m + 1) ≤ 2 ^ 52 * 2 ^ 52 := Nat.mul_le_mul hlt' hlt'
    have e : (2 : ℕ) ^ 52 * 2 ^ 52 = 2 ^ 104 := by norm_num
    omega
  -- the two candidates
  have hN1 : (((isqrt m : ℕ) : ℚ)) * ((isqrt m : ℕ) : ℚ) ≤ (m : ℚ) := by exact_mod_cast s1
  have hN2 : (m : ℚ) + 1 ≤ (((isqrt m : ℕ) : ℚ) + 1) * (((isqrt m : ℕ) : ℚ) + 1) := by
    exact_mod_cast s2
  have hn52q : (2 : ℚ) ^ 52 ≤ ((isqrt m : ℕ) : ℚ) := by exact_mod_cast hn52
  have hN0 : (1 : ℚ) ≤ ((isqrt m : ℕ) : ℚ) := le_trans (by norm_num) hn52q
  have h2a : (m : ℚ) * (q * q) ≤ x := (le_div_iff₀ hqq0).mp hmle
  have h2b : x < ((m : ℚ) + 1) * (q * q) := (div_lt_iff₀ hqq0).mp hmlt
  have hval : sqrt64 x
      = (if x < (((isqrt m : ℕ) : ℚ) + 1 / 2) * q * ((((isqrt m : ℕ) : ℚ) + 1 / 2) * q)
      then ((isqrt m : ℕ) : ℚ) * q
      else if (((isqrt m : ℕ) : ℚ) + 1 / 2) * q * ((((isqrt m : ℕ) : ℚ) + 1 / 2) * q) < x
        then (((isqrt m : ℕ) : ℚ) + 1) * q
        else if isqrt m % 2 = 0 then ((isqrt m : ℕ) : ℚ) * q
          else (((isqrt m : ℕ) : ℚ) + 1) * q) := by
    unfold sqrt64
    rw [if_neg (not_le.mpr hx)]
    dsimp only
    rw [pow2_eq, hqd, hm]
    rfl
  have hbase : q * 2 ^ 52 ≤ ((isqrt m : ℕ) : ℚ) * q := by
    rw [mul_comm]
    exact mul_le_mul_of_nonneg_right hn52q hq.le
  have hsq : (q * 2 ^ 52) ^ 2 ≤ x := by
    have : (q * 2 ^ 52) ^ 2 = q * q * 2 ^ 104 := by ring
    rw [this]
    exact hlo2
  clear hlo2 hhi2 hX1 hX2 hX0 hm104 hm106 hn52 hn52q s1 s2 hmle hmlt hqq hfl0 hm lo hi hdm
  generalize ((isqrt m : ℕ) : ℚ) = N at *
  generalize (m : ℚ) = M at *
  have hnq : N * q * (N * q) ≤ x := by
    calc N * q * (N * q) = N * N * (q * q) := by ring
      _ ≤ M * (q * q) := mul_le_mul_of_nonneg_right hN1 hqq0.le
      _ ≤ x := h2a
  have hn1q : x < (N + 1) * q * ((N + 1) * q) := by
    calc x < (M + 1) * (q * q) := h2b
      _ ≤ (N + 1) * (N + 1) * (q * q) := mul_le_mul_of_nonneg_right hN2 hqq0.le
      _ = (N + 1) * q * ((N + 1) * q) := by ring
  have hNq : 0 < N * q := mul_pos (by linarith) hq
  have hlow0 : 0 ≤ N * q - q / 2 := by
    have : N * q - q / 2 = (N - 1 / 2) * q := by ring
    rw [this]
    exact mul_nonneg (by linarith) hq.le
  have hmidA : (N * q - q / 2) ^ 2 ≤ x := by
    have h1 : (N * q - q / 2) ^ 2 ≤ (N * q) ^ 2 := pow_le_pow_left₀ hlow0 (by linarith) 2
    have h2 : (N * q) ^ 2 = N * q * (N * q) := by ring
    linarith
  have hmidB : x ≤ ((N + 1) * q + q / 2) ^ 2 := by
    have h0 : 0 ≤ (N + 1) * q := mul_nonneg (by linarith) hq.le
    have h1 : ((N + 1) * q) ^ 2 ≤ ((N + 1) * q + q / 2) ^ 2 :=
      pow_le_pow_left₀ h0 (by linarith) 2
    have h2 : ((N + 1) * q) ^ 2 = (N + 1) * q * ((N + 1) * q) := by ring
    linarith
  have e1 : ((N + 1) * q - q / 2) ^ 2 = (N + 1 / 2) * q * ((N + 1 / 2) * q) := by ring
  have e2 : (N * q + q / 2) ^ 2 = (N + 1 / 2) * q * ((N + 1 / 2) * q) := by ring
  have hbase2 : q * 2 ^ 52 ≤ (N + 1) * q := by
    have : N * q ≤ (N + 1) * q := mul_le_mul_of_nonneg_right (by linarith) hq.le
    linarith
  refine ⟨q, hq, ?_, hsq, ?_, ?_⟩
  · rw [hval]
    split_ifs
    · exact hbase
    · exact hbase2
    · exact hbase
    · exact hbase2
  · rw [hval]
    split_ifs with c1 c2 c3
    · exact hmidA
    · rw [e1]
      exact c2.le
    · exact hmidA
    · rw [e1]
      exact not_lt.mp c1
  · rw [hval]
    split_ifs with c1 c2 c3
    · rw [e2]
      exact c1.le
    · exact hmidB
    · rw [e2]
      exact not_lt.mp c2
    · exact hmidB

/-- The square root of binary64 against the real square root: the relative error is at most
`2^-53`. -/
theorem sqrt64_real (x : ℚ) (hx : 0 < x) :
    0 < sqrt64 x
    ∧ |((sqrt64 x : ℚ) : ℝ) - Real.sqrt (x : ℝ)| ≤ Real.sqrt (x : ℝ) / 2 ^ 53 := by
  obtain ⟨q, hq, h1, h2, h3, h4⟩ := sqrt64_spec x hx
  have hL : 0 < sqrt64 x := lt_of_lt_of_le (by positivity) h1
  refine ⟨hL, ?_⟩
  have hqR : (0 : ℝ) < (q : ℝ) := by exact_mod_cast hq
  have h1R : (q : ℝ) * 2 ^ 52 ≤ ((sqrt64 x : ℚ) : ℝ) := by exact_mod_cast h1
  have h2R : ((q : ℝ) * 2 ^ 52) ^ 2 ≤ (x : ℝ) := by exact_mod_cast h2
  have h3R : (((sqrt64 x : ℚ) : ℝ) - (q : ℝ) / 2) ^ 2 ≤ (x : ℝ) := by exact_mod_cast h3
  have h4R : (x : ℝ) ≤ (((sqrt64 x : ℚ) : ℝ) + (q : ℝ) / 2) ^ 2 := by exact_mod_cast h4
  have a1 : (q : ℝ) * 2 ^ 52 ≤ Real.sqrt (x : ℝ) := Real.le_sqrt_of_sq_le h2R
  have a2 : ((sqrt64 x : ℚ) : ℝ) - (q : ℝ) / 2 ≤ Real.sqrt (x : ℝ) := Real.le_sqrt_of_sq_le h3R
  have a3 : Real.sqrt (x : ℝ) ≤ ((sqrt64 x : ℚ) : ℝ) + (q : ℝ) / 2 := by
    rw [Real.sqrt_le_left (by linarith)]
    exact h4R
  rw [abs_le]
  have e : (q : ℝ) * 2 ^ 52 / 2 ^ 53 = (q : ℝ) / 2 := by
    rw [show (2 : ℝ) ^ 53 = 2 ^ 52 * 2 by rw [pow_succ]]
    field_simp
    ring
  have a4 : (q : ℝ) / 2 ≤ Real.sqrt (x : ℝ) / 2 ^ 53 := by
    rw [← e]
    exact div_le_div_of_nonneg_right a1 (by positivity)
  constructor <;> linarith

namespace Double

/-- The sum of two integers is computed exactly in binary64 when it is at most `2^53` in
magnitude. -/
theorem int_add (m n : ℤ) (h : |m + n| ≤ 2 ^ 53) :
    (fin (m : ℚ) : Double Binary64) + (fin (n : ℚ) : Double Binary64)
      = fin ((m + n : ℤ) : ℚ) := by
  show round64 ((m : ℚ) + (n : ℚ)) = fin ((m + n : ℤ) : ℚ)
  rw [show (m : ℚ) + (n : ℚ) = ((m + n : ℤ) : ℚ) by push_cast; ring]
  exact round64_intCast _ h

end Double

/-- The quotient of an integer `u` by the computed square root of a number `N ≥ u * u`, as
computed in binary64, is within `2^-50` of the exact quotient of `u` by the square root of
`N`. -/
theorem unit_coord_err (u : ℤ) (N : ℚ) (hN : 0 < N) (hu : (u : ℚ) * u ≤ N) :
    ∃ n : ℚ, round64 ((u : ℚ) / sqrt64 N) = fin n
      ∧ |(n : ℝ) - (u : ℝ) / Real.sqrt (N : ℝ)| ≤ 1 / 2 ^ 50 := by
  obtain ⟨hL, hLerr⟩ := sqrt64_real N hN
  have hNR : (0 : ℝ) < (N : ℝ) := by exact_mod_cast hN
  have hρ : 0 < Real.sqrt (N : ℝ) := Real.sqrt_pos.mpr hNR
  have hLR : (0 : ℝ) < ((sqrt64 N : ℚ) : ℝ) := by exact_mod_cast hL
  obtain ⟨e1, e2⟩ := abs_le.mp hLerr
  have hLlow : Real.sqrt (N : ℝ) / 2 ≤ ((sqrt64 N : ℚ) : ℝ) := by
    have : Real.sqrt (N : ℝ) / 2 ^ 53 ≤ Real.sqrt (N : ℝ) / 2 := by
      apply div_le_div_of_nonneg_left hρ.le (by norm_num) (by norm_num)
    linarith
  have huR : ((u : ℝ)) ^ 2 ≤ (N : ℝ) := by
    have : (((u : ℚ) * u : ℚ) : ℝ) ≤ (N : ℝ) := by exact_mod_cast hu
    push_cast at this
    rw [pow_two]
    exact this
  have hule : |(u : ℝ)| ≤ Real.sqrt (N : ℝ) := Real.abs_le_sqrt huR
  have hq2 : |(u : ℝ) / ((sqrt64 N : ℚ) : ℝ)| ≤ 2 := by
    rw [abs_div, abs_of_pos hLR, div_le_iff₀ hLR]
    linarith
  have hq2Q : |(u : ℚ) / sqrt64 N| ≤ 2 := by
    have : ((|(u : ℚ) / sqrt64 N| : ℚ) : ℝ) ≤ ((2 : ℚ) : ℝ) := by
      push_cast
      exact hq2
    exact_mod_cast this
  obtain ⟨n, hn, herr⟩ := round64_err ((u : ℚ) / sqrt64 N) (le_trans hq2Q (by norm_num))
  refine ⟨n, hn, ?_⟩
  have herrR : |(n : ℝ) - (u : ℝ) / ((sqrt64 N : ℚ) : ℝ)|
      ≤ |(u : ℝ) / ((sqrt64 N : ℚ) : ℝ)| / 2 ^ 53 + 1 / 2 ^ 1075 := by
    have : ((|n - (u : ℚ) / sqrt64 N| : ℚ) : ℝ)
        ≤ ((|(u : ℚ) / sqrt64 N| / 2 ^ 53 + 1 / 2 ^ 1075 : ℚ) : ℝ) := by
      exact_mod_cast herr
    push_cast at this
    exact this
  have hrel : |(((sqrt64 N : ℚ) : ℝ) - Real.sqrt (N : ℝ)) / Real.sqrt (N : ℝ)| ≤ 1 / 2 ^ 53 := by
    rw [abs_div, abs_of_pos hρ, div_le_iff₀ hρ]
    calc |((sqrt64 N : ℚ) : ℝ) - Real.sqrt (N : ℝ)| ≤ Real.sqrt (N : ℝ) / 2 ^ 53 := hLerr
      _ = 1 / 2 ^ 53 * Real.sqrt (N : ℝ) := by ring
  have hdiff : |(u : ℝ) / ((sqrt64 N : ℚ) : ℝ) - (u : ℝ) / Real.sqrt (N : ℝ)| ≤ 2 / 2 ^ 53 := by
    have e : (u : ℝ) / ((sqrt64 N : ℚ) : ℝ) - (u : ℝ) / Real.sqrt (N : ℝ)
        = -((u : ℝ) / ((sqrt64 N : ℚ) : ℝ))
          * ((((sqrt64 N : ℚ) : ℝ) - Real.sqrt (N : ℝ)) / Real.sqrt (N : ℝ)) := by
      field_simp
      ring
    rw [e, abs_mul, abs_neg]
    calc _ ≤ 2 * (1 / 2 ^ 53) := mul_le_mul hq2 hrel (abs_nonneg _) (by norm_num)
      _ = 2 / 2 ^ 53 := by ring
  have htri : |(n : ℝ) - (u : ℝ) / Real.sqrt (N : ℝ)|
      ≤ |(n : ℝ) - (u : ℝ) / ((sqrt64 N : ℚ) : ℝ)|
        + |(u : ℝ) / ((sqrt64 N : ℚ) : ℝ) - (u : ℝ) / Real.sqrt (N : ℝ)| := by
    have e : (n : ℝ) - (u : ℝ) / Real.sqrt (N : ℝ)
        = ((n : ℝ) - (u : ℝ) / ((sqrt64 N : ℚ) : ℝ))
          + ((u : ℝ) / ((sqrt64 N : ℚ) : ℝ) - (u : ℝ) / Real.sqrt (N : ℝ)) := by ring
    rw [e]
    exact abs_add _ _
  have hk : (1 : ℝ) / 2 ^ 1075 ≤ 1 / 2 ^ 60 := by
    apply one_div_le_one_div_of_le (by positivity)
    exact pow_le_pow_right₀ (by norm_num) (by norm_num)
  have h53 : |(u : ℝ) / ((sqrt64 N : ℚ) : ℝ)| / 2 ^ 53 ≤ 2 / 2 ^ 53 :=
    div_le_div_of_nonneg_right hq2 (by positivity)
  have hfin : (2 : ℝ) / 2 ^ 53 + 1 / 2 ^ 60 + 2 / 2 ^ 53 ≤ 1 / 2 ^ 50 := by norm_num
  linarith

namespace Vector

/-- The normalised direction computed in binary64 for a nonzero vector with integer coordinates
of magnitude at most `2^16`: both coordinates are finite doubles within `2^-50` of the
coordinates of the exact unit vector. -/
theorem norm_pixels (u1 u2 : ℤ) (h1 : |u1| ≤ 2 ^ 16) (h2 : |u2| ≤ 2 ^ 16)
    (hu : u1 ≠ 0 ∨ u2 ≠ 0) :
    ∃ n1 n2 : ℚ, norm Libm.binary64 ⟨fin (u1 : ℚ), fin (u2 : ℚ)⟩ = ⟨fin n1, fin n2⟩
      ∧ |(n1 : ℝ) - (u1 : ℝ) / Real.sqrt ((u1 : ℝ) * u1 + (u2 : ℝ) * u2)| ≤ 1 / 2 ^ 50
      ∧ |(n2 : ℝ) - (u2 : ℝ) / Real.sqrt ((u1 : ℝ) * u1 + (u2 : ℝ) * u2)| ≤ 1 / 2 ^ 50 := by
  have k1 := LineSegment.abs_mul_le_of h1 h1
  have k2 := LineSegment.abs_mul_le_of h2 h2
  have k3 : |u1 * u1 + u2 * u2| ≤ 2 ^ 16 * 2 ^ 16 + 2 ^ 16 * 2 ^ 16 := by
    have := abs_add (u1 * u1) (u2 * u2)
    linarith
  -- the squared length is a positive integer
  have hN : 0 < u1 * u1 + u2 * u2 := by
    rcases hu with h | h
    · have := mul_self_pos.mpr h
      nlinarith [mul_self_nonneg u2]
    · have := mul_self_pos.mpr h
      nlinarith [mul_self_nonneg u1]
  have hNq : (0 : ℚ) < ((u1 * u1 + u2 * u2 : ℤ) : ℚ) := by exact_mod_cast hN
  obtain ⟨hL, hLerr⟩ := sqrt64_real _ hNq
  have hlen : Double.sqrt Libm.binary64
      ((fin (u1 : ℚ) : Double Binary64) * (fin (u1 : ℚ) : Double Binary64)
        + (fin (u2 : ℚ) : Double Binary64) * (fin (u2 : ℚ) : Double Binary64))
      = fin (sqrt64 ((u1 * u1 + u2 * u2 : ℤ) : ℚ)) := by
    rw [Double.int_mul u1 u1 (le_trans k1 (by norm_num)),
      Double.int_mul u2 u2 (le_trans k2 (by norm_num)),
      Double.int_add _ _ (le_trans k3 (by norm_num))]
    show (if (0 : ℚ) ≤ ((u1 * u1 + u2 * u2 : ℤ) : ℚ)
      then fin (sqrt64 ((u1 * u1 + u2 * u2 : ℤ) : ℚ)) else nan) = _
    rw [if_pos hNq.le]
  have hu1 : (u1 : ℚ) * u1 ≤ ((u1 * u1 + u2 * u2 : ℤ) : ℚ) := by
    have : u1 * u1 ≤ u1 * u1 + u2 * u2 := by nlinarith [mul_self_nonneg u2]
    exact_mod_cast this
  have hu2 : (u2 : ℚ) * u2 ≤ ((u1 * u1 + u2 * u2 : ℤ) : ℚ) := by
    have : u2 * u2 ≤ u1 * u1 + u2 * u2 := by nlinarith [mul_self_nonneg u1]
    exact_mod_cast this
  obtain ⟨n1, hn1, e1⟩ := unit_coord_err u1 _ hNq hu1
  obtain ⟨n2, hn2, e2⟩ := unit_coord_err u2 _ hNq hu2
  have hcast : (((u1 * u1 + u2 * u2 : ℤ) : ℚ) : ℝ) = (u1 : ℝ) * u1 + (u2 : ℝ) * u2 := by
    push_cast
    ring
  rw [hcast] at e1 e2
  refine ⟨n1, n2, ?_, e1, e2⟩
  unfold norm
  dsimp only
  rw [hlen, Double.div_round64 _ _ hL.ne', Double.div_round64 _ _ hL.ne', hn1, hn2]

end Vector

namespace Vector

set_option maxRecDepth 100000 in
/-- The tolerance `0.001` of `Vector::operator==`, in binary64. -/
theorem tolerance_eq : (lit (1 / 1000) : Double Binary64)
    = fin (1152921504606847 / 1152921504606846976) := by
  decide!

/-- Two vectors whose coordinates differ by at most `2^-40` are equal under
`Vector::operator==` in binary64. -/
theorem eq_of_close (x1 y1 x2 y2 : ℚ) (hx : |x1 - x2| ≤ 1 / 2 ^ 40)
    (hy : |y1 - y2| ≤ 1 / 2 ^ 40) :
    Vector.eq (⟨fin x1, fin y1⟩ : Vector Binary64) ⟨fin x2, fin y2⟩ = true := by
  have key : ∀ p r : ℚ, |p - r| ≤ 1 / 2 ^ 40 →
      lt (fabs ((fin p : Double Binary64) - (fin r : Double Binary64))) (lit (1 / 1000))
        = true := by
    intro p r hpr
    obtain ⟨z, hz, ez⟩ := round64_err (p - r) (le_trans hpr (by norm_num))
    rw [Double.sub_round64, hz, tolerance_eq, Double.fabs_fin, Double.lt_fin,
      decide_eq_true_eq]
    have h1 : |z| ≤ |p - r| + |z - (p - r)| := by
      have := abs_add (z - (p - r)) (p - r)
      rw [sub_add_cancel] at this
      linarith
    have hk : (1 : ℚ) / 2 ^ 1075 ≤ 1 / 2 ^ 60 := by
      apply one_div_le_one_div_of_le (by positivity)
      exact pow_le_pow_right₀ (by norm_num) (by norm_num)
    have h2 : |p - r| / 2 ^ 53 ≤ 1 / 2 ^ 40 / 2 ^ 53 :=
      div_le_div_of_nonneg_right hpr (by positivity)
    have h3 : (1 : ℚ) / 2 ^ 40 + (1 / 2 ^ 40 / 2 ^ 53 + 1 / 2 ^ 60)
        < 1152921504606847 / 1152921504606846976 := by norm_num
    linarith
  unfold Vector.eq
  rw [key x1 x2 hx, key y1 y2 hy]
  rfl

/-- Negating a vector with coordinates of magnitude at most `2`, by `operator*(-1)`, in
binary64: the coordinates are finite doubles within `2^-51` of the negated coordinates. -/
theorem mul_minus_one (n1 n2 : ℚ) (h1 : |n1| ≤ 2) (h2 : |n2| ≤ 2) :
    ∃ w1 w2 : ℚ, Vector.mul (⟨fin n1, fin n2⟩ : Vector Binary64) (fin (-1)) = ⟨fin w1, fin w2⟩
      ∧ |w1 + n1| ≤ 1 / 2 ^ 51 ∧ |w2 + n2| ≤ 1 / 2 ^ 51 := by
  have key : ∀ n : ℚ, |n| ≤ 2 → ∃ w : ℚ, round64 (n * (-1)) = fin w ∧ |w + n| ≤ 1 / 2 ^ 51 := by
    intro n hn
    have hn' : |n * (-1)| ≤ 2 := by
      rw [mul_neg_one, abs_neg]
      exact hn
    obtain ⟨w, hw, ew⟩ := round64_err (n * (-1)) (le_trans hn' (by norm_num))
    refine ⟨w, hw, ?_⟩
    have e : w + n = w - n * (-1) := by ring
    rw [e]
    have hk : (1 : ℚ) / 2 ^ 1075 ≤ 1 / 2 ^ 60 := by
      apply one_div_le_one_div_of_le (by positivity)
      exact pow_le_pow_right₀ (by norm_num) (by norm_num)
    have h3 : |n * (-1)| / 2 ^ 53 ≤ 2 / 2 ^ 53 := div_le_div_of_nonneg_right hn' (by positivity)
    have h4 : (2 : ℚ) / 2 ^ 53 + 1 / 2 ^ 60 ≤ 1 / 2 ^ 51 := by norm_num
    linarith
  obtain ⟨w1, hw1, e1⟩ := key n1 h1
  obtain ⟨w2, hw2, e2⟩ := key n2 h2
  refine ⟨w1, w2, ?_, e1, e2⟩
  show (⟨round64 (n1 * (-1)), round64 (n2 * (-1))⟩ : Vector Binary64) = _
  rw [hw1, hw2]

end Vector

namespace LineSegment

/-- The direction vector of a segment with integer coordinates is computed exactly in
binary64. -/
theorem getVec_pixels (a b c d : ℤ) (ha : |a| ≤ 2 ^ 15) (hb : |b| ≤ 2 ^ 15)
    (hc : |c| ≤ 2 ^ 15) (hd : |d| ≤ 2 ^ 15) :
    getVec (pixels a b c d) = ⟨fin ((c - a : ℤ) : ℚ), fin ((d - b : ℤ) : ℚ)⟩ := by
  have k1 := abs_sub_le_of hc ha
  have k2 := abs_sub_le_of hd hb
  simp only [getVec, pixels, Point.sub]
  rw [Double.int_sub c a (le_trans k1 (by norm_num)),
    Double.int_sub d b (le_trans k2 (by norm_num))]

/-- A coordinate of a unit vector is at most `1` in magnitude. -/
theorem abs_le_one_of_unit {p q : ℝ} (h : p * p + q * q = 1) : |p| ≤ 1 := by
  rw [abs_le]
  constructor <;> nlinarith [mul_self_nonneg q, mul_self_nonneg (p - 1), mul_self_nonneg (p + 1)]

/-- In binary64, on non-degenerate segments with integer coordinates of magnitude at most
`2^15` that are exactly parallel, the parallel check of `intersect` fires. -/
theorem parallelCheck_of_parallel (a b c d e f g h : ℤ) (ha : |a| ≤ 2 ^ 15)
    (hb : |b| ≤ 2 ^ 15) (hc : |c| ≤ 2 ^ 15) (hd : |d| ≤ 2 ^ 15) (he : |e| ≤ 2 ^ 15)
    (hf : |f| ≤ 2 ^ 15) (hg : |g| ≤ 2 ^ 15) (hh : |h| ≤ 2 ^ 15) (hA : a ≠ c ∨ b ≠ d)
    (hB : e ≠ g ∨ f ≠ h) (hD : (a - c) * (f - h) - (b - d) * (e - g) = 0) :
    parallelCheck Libm.binary64 (pixels a b c d) (pixels e f g h) = true := by
  have hu : c - a ≠ 0 ∨ d - b ≠ 0 := by
    rcases hA with h1 | h1
    · exact Or.inl (sub_ne_zero.mpr (Ne.symm h1))
    · exact Or.inr (sub_ne_zero.mpr (Ne.symm h1))
  have hv : g - e ≠ 0 ∨ h - f ≠ 0 := by
    rcases hB with h1 | h1
    · exact Or.inl (sub_ne_zero.mpr (Ne.symm h1))
    · exact Or.inr (sub_ne_zero.mpr (Ne.symm h1))
  have ku1 : |c - a| ≤ 2 ^ 16 := le_trans (abs_sub_le_of hc ha) (by norm_num)
  have ku2 : |d - b| ≤ 2 ^ 16 := le_trans (abs_sub_le_of hd hb) (by norm_num)
  have kv1 : |g - e| ≤ 2 ^ 16 := le_trans (abs_sub_le_of hg he) (by norm_num)
  have kv2 : |h - f| ≤ 2 ^ 16 := le_trans (abs_sub_le_of hh hf) (by norm_num)
  obtain ⟨nu1, nu2, hnu, eu1, eu2⟩ := Vector.norm_pixels (c - a) (d - b) ku1 ku2 hu
  obtain ⟨nv1, nv2, hnv, ev1, ev2⟩ := Vector.norm_pixels (g - e) (h - f) kv1 kv2 hv
  -- the exact unit vectors
  have huR : ((c - a : ℤ) : ℝ) ≠ 0 ∨ ((d - b : ℤ) : ℝ) ≠ 0 := by
    rcases hu with h1 | h1
    · exact Or.inl (by exact_mod_cast h1)
    · exact Or.inr (by exact_mod_cast h1)
  have hvR : ((g - e : ℤ) : ℝ) ≠ 0 ∨ ((h - f : ℤ) : ℝ) ≠ 0 := by
    rcases hv with h1 | h1
    · exact Or.inl (by exact_mod_cast h1)
    · exact Or.inr (by exact_mod_cast h1)
  have U := unit_of_div huR
  have V := unit_of_div hvR
  have hcross : ((c - a : ℤ) : ℝ) / Real.sqrt (((c - a : ℤ) : ℝ) * ((c - a : ℤ) : ℝ)
          + ((d - b : ℤ) : ℝ) * ((d - b : ℤ) : ℝ))
        * (((h - f : ℤ) : ℝ) / Real.sqrt (((g - e : ℤ) : ℝ) * ((g - e : ℤ) : ℝ)
          + ((h - f : ℤ) : ℝ) * ((h - f : ℤ) : ℝ)))
      - ((d - b : ℤ) : ℝ) / Real.sqrt (((c - a : ℤ) : ℝ) * ((c - a : ℤ) : ℝ)
          + ((d - b : ℤ) : ℝ) * ((d - b : ℤ) : ℝ))
        * (((g - e : ℤ) : ℝ) / Real.sqrt (((g - e : ℤ) : ℝ) * ((g - e : ℤ) : ℝ)
          + ((h - f : ℤ) : ℝ) * ((h - f : ℤ) : ℝ))) = 0 := by
    rw [div_mul_div_comm, div_mul_div_comm, ← sub_div]
    have hz : ((c - a : ℤ) : ℝ) * ((h - f : ℤ) : ℝ) - ((d - b : ℤ) : ℝ) * ((g - e : ℤ) : ℝ)
        = 0 := by
      have : (c - a) * (h - f) - (d - b) * (g - e) = 0 := by linarith
      exact_mod_cast this
    rw [hz, zero_div]
  have hk : (1 : ℝ) / 2 ^ 1075 ≤ 1 / 2 ^ 60 := by
    apply one_div_le_one_div_of_le (by positivity)
    exact pow_le_pow_right₀ (by norm_num) (by norm_num)
  unfold parallelCheck
  rw [getVec_pixels a b c d ha hb hc hd, getVec_pixels e f g h he hf hg hh, hnu, hnv]
  generalize ((c - a : ℤ) : ℝ) / Real.sqrt (((c - a : ℤ) : ℝ) * ((c - a : ℤ) : ℝ)
      + ((d - b : ℤ) : ℝ) * ((d - b : ℤ) : ℝ)) = p at U hcross eu1
  generalize ((d - b : ℤ) : ℝ) / Real.sqrt (((c - a : ℤ) : ℝ) * ((c - a : ℤ) : ℝ)
      + ((d - b : ℤ) : ℝ) * ((d - b : ℤ) : ℝ)) = q at U hcross eu2
  generalize ((g - e : ℤ) : ℝ) / Real.sqrt (((g - e : ℤ) : ℝ) * ((g - e : ℤ) : ℝ)
      + ((h - f : ℤ) : ℝ) * ((h - f : ℤ) : ℝ)) = r at V hcross ev1
  generalize ((h - f : ℤ) : ℝ) / Real.sqrt (((g - e : ℤ) : ℝ) * ((g - e : ℤ) : ℝ)
      + ((h - f : ℤ) : ℝ) * ((h - f : ℤ) : ℝ)) = s at V hcross ev2
  rcases unit_parallel U V hcross with ⟨h1, h2⟩ | ⟨h1, h2⟩
  · -- the same direction: the first comparison succeeds
    have c1 : |nv1 - nu1| ≤ 1 / 2 ^ 40 := by
      have hR : |((nv1 - nu1 : ℚ) : ℝ)| ≤ 1 / 2 ^ 40 := by
        push_cast
        have e : (nv1 : ℝ) - (nu1 : ℝ) = ((nv1 : ℝ) - r) - ((nu1 : ℝ) - p) := by
          rw [h1]; ring
        rw [e]
        have := abs_sub ((nv1 : ℝ) - r) ((nu1 : ℝ) - p)
        have hfin : (1 : ℝ) / 2 ^ 50 + 1 / 2 ^ 50 ≤ 1 / 2 ^ 40 := by norm_num
        linarith
      have : ((|nv1 - nu1| : ℚ) : ℝ) ≤ ((1 / 2 ^ 40 : ℚ) : ℝ) := by
        push_cast
        push_cast at hR
        exact hR
      exact_mod_cast this
    have c2 : |nv2 - nu2| ≤ 1 / 2 ^ 40 := by
      have hR : |((nv2 - nu2 : ℚ) : ℝ)| ≤ 1 / 2 ^ 40 := by
        push_cast
        have e : (nv2 : ℝ) - (nu2 : ℝ) = ((nv2 : ℝ) - s) - ((nu2 : ℝ) - q) := by
          rw [h2]; ring
        rw [e]
        have := abs_sub ((nv2 : ℝ) - s) ((nu2 : ℝ) - q)
        have hfin : (1 : ℝ) / 2 ^ 50 + 1 / 2 ^ 50 ≤ 1 / 2 ^ 40 := by norm_num
        linarith
      have : ((|nv2 - nu2| : ℚ) : ℝ) ≤ ((1 / 2 ^ 40 : ℚ) : ℝ) := by
        push_cast
        push_cast at hR
        exact hR
      exact_mod_cast this
    rw [Vector.eq_of_close nv1 nv2 nu1 nu2 c1 c2]
    rfl
  · -- the opposite direction: the second comparison succeeds
    have hr1 := abs_le_one_of_unit V
    have hs1 : |s| ≤ 1 := abs_le_one_of_unit (by linarith : s * s + r * r = 1)
    have b1 : |nv1| ≤ 2 := by
      have hR : |(nv1 : ℝ)| ≤ 2 := by
        have := abs_add ((nv1 : ℝ) - r) r
        rw [sub_add_cancel] at this
        have hfin : (1 : ℝ) / 2 ^ 50 + 1 ≤ 2 := by norm_num
        linarith
      have : ((|nv1| : ℚ) : ℝ) ≤ ((2 : ℚ) : ℝ) := by
        push_cast
        exact hR
      exact_mod_cast this
    have b2 : |nv2| ≤ 2 := by
      have hR : |(nv2 : ℝ)| ≤ 2 := by
        have := abs_add ((nv2 : ℝ) - s) s
        rw [sub_add_cancel] at this
        have hfin : (1 : ℝ) / 2 ^ 50 + 1 ≤ 2 := by norm_num
        linarith
      have : ((|nv2| : ℚ) : ℝ) ≤ ((2 : ℚ) : ℝ) := by
        push_cast
        exact hR
      exact_mod_cast this
    obtain ⟨w1, w2, hw, ew1, ew2⟩ := Vector.mul_minus_one nv1 nv2 b1 b2
    have key : ∀ (w nv nu : ℚ) (x y : ℝ), |w + nv| ≤ 1 / 2 ^ 51 → |(nv : ℝ) - x| ≤ 1 / 2 ^ 50 →
        |(nu : ℝ) - y| ≤ 1 / 2 ^ 50 → x = -y → |w - nu| ≤ 1 / 2 ^ 40 := by
      intro w nv nu x y hw1 hv1 hu1 hxy
      have hwR : |(w : ℝ) + (nv : ℝ)| ≤ 1 / 2 ^ 51 := by
        have : ((|w + nv| : ℚ) : ℝ) ≤ ((1 / 2 ^ 51 : ℚ) : ℝ) := by exact_mod_cast hw1
        push_cast at this
        exact this
      have hR : |(w : ℝ) - (nu : ℝ)| ≤ 1 / 2 ^ 40 := by
        have e : (w : ℝ) - (nu : ℝ)
            = ((w : ℝ) + (nv : ℝ)) + (-((nv : ℝ) - x) + -((nu : ℝ) - y)) := by
          rw [hxy]; ring
        rw [e]
        have t1 := abs_add ((w : ℝ) + (nv : ℝ)) (-((nv : ℝ) - x) + -((nu : ℝ) - y))
        have t2 := abs_add (-((nv : ℝ) - x)) (-((nu : ℝ) - y))
        rw [abs_neg, abs_neg] at t2
        have hfin : (1 : ℝ) / 2 ^ 51 + (1 / 2 ^ 50 + 1 / 2 ^ 50) ≤ 1 / 2 ^ 40 := by norm_num
        linarith
      have : ((|w - nu| : ℚ) : ℝ) ≤ ((1 / 2 ^ 40 : ℚ) : ℝ) := by
        push_cast
        exact hR
      exact_mod_cast this
    have c1 := key w1 nv1 nu1 r p ew1 ev1 eu1 h1
    have c2 := key w2 nv2 nu2 s q ew2 ev2 eu2 h2
    rw [hw, Vector.eq_of_close w1 w2 nu1 nu2 c1 c2]
    simp

end LineSegment

/-! ## Binary64: segment intersection on integer coordinates -/

namespace LineSegment

/-- Lines with a nonzero divisor meet, over any field. -/
theorem crossing_exists_field {F : Type} [Field F] (a b c d e f g h : F)
    (hD : (a - c) * (f - h) - (b - d) * (e - g) ≠ 0) :
    ∃ s t : F, a + s * (c - a) = e + t * (g - e) ∧ b + s * (d - b) = f + t * (h - f) := by
  refine ⟨((e - a) * (h - f) - (f - b) * (g - e)) / ((a - c) * (f - h) - (b - d) * (e - g)),
    ((e - a) * (d - b) - (f - b) * (c - a)) / ((a - c) * (f - h) - (b - d) * (e - g)), ?_, ?_⟩
  · field_simp
    ring
  · field_simp
    ring

/-- A computed parameter within `2^-36 + |t| * 2^-34` of an exact parameter `t` of
`[0.01 + 2^-30, 0.99 - 2^-30]` passes both comparisons of the band test. -/
theorem band_inside (l t : ℚ) (hl : |l - t| ≤ 1 / 2 ^ 36 + |t| / 2 ^ 34)
    (h1 : 1 / 100 + 1 / 2 ^ 30 ≤ t) (h2 : t ≤ 99 / 100 - 1 / 2 ^ 30) :
    ¬ l < 5764607523034235 / 576460752303423488
    ∧ ¬ 4458563631096791 / 4503599627370496 < l := by
  have ht : |t| = t := abs_of_nonneg (by linarith [show (0 : ℚ) ≤ 1 / 100 + 1 / 2 ^ 30 by positivity])
  rw [ht] at hl
  obtain ⟨e1, e2⟩ := abs_le.mp hl
  constructor
  · rw [not_lt]
    norm_num at *
    linarith
  · rw [not_lt]
    norm_num at *
    linarith

/-- A computed parameter within `2^-36 + |t| * 2^-34` of an exact parameter `t` below
`0.01 - 2^-30` or above `0.99 + 2^-30` fails a comparison of the band test. -/
theorem band_outside (l t : ℚ) (hl : |l - t| ≤ 1 / 2 ^ 36 + |t| / 2 ^ 34)
    (h : t < 1 / 100 - 1 / 2 ^ 30 ∨ 99 / 100 + 1 / 2 ^ 30 < t) :
    l < 5764607523034235 / 576460752303423488
    ∨ 4458563631096791 / 4503599627370496 < l := by
  obtain ⟨e1, e2⟩ := abs_le.mp hl
  rcases h with h | h
  · left
    rcases le_total 0 t with h0 | h0
    · rw [abs_of_nonneg h0] at e1 e2
      norm_num at *
      linarith
    · rw [abs_of_nonpos h0] at e1 e2
      norm_num at *
      linarith
  · right
    have h0 : 0 ≤ t := by
      have : (0 : ℚ) ≤ 99 / 100 + 1 / 2 ^ 30 := by positivity
      linarith
    rw [abs_of_nonneg h0] at e1 e2
    norm_num at *
    linarith

end LineSegment

namespace LineSegment

/-- In binary64, on non-degenerate segments with integer coordinates of magnitude at most
`2^15` that pass the parallel check, the divisor of `intersect` is nonzero. -/
theorem divisor_ne_zero_pixels (a b c d e f g h : ℤ) (ha : |a| ≤ 2 ^ 15)
    (hb : |b| ≤ 2 ^ 15) (hc : |c| ≤ 2 ^ 15) (hd : |d| ≤ 2 ^ 15) (he : |e| ≤ 2 ^ 15)
    (hf : |f| ≤ 2 ^ 15) (hg : |g| ≤ 2 ^ 15) (hh : |h| ≤ 2 ^ 15) (hA : a ≠ c ∨ b ≠ d)
    (hB : e ≠ g ∨ f ≠ h)
    (hp : parallelCheck Libm.binary64 (pixels a b c d) (pixels e f g h) = false) :
    (a - c) * (f - h) - (b - d) * (e - g) ≠ 0 := by
  intro hD
  rw [parallelCheck_of_parallel a b c d e f g h ha hb hc hd he hf hg hh hA hB hD] at hp
  exact absurd hp (by simp)

/-- A point of a segment with integer coordinates of magnitude at most `2^15` has coordinates
of magnitude at most `2^15`. -/
theorem abs_on_segment (a c : ℤ) (s : ℚ) (ha : |a| ≤ 2 ^ 15) (hc : |c| ≤ 2 ^ 15)
    (h0 : 0 ≤ s) (h1 : s ≤ 1) : |(a : ℚ) + s * (c - a)| ≤ 2 ^ 15 := by
  have haq := abs_le.mp (abs_cast_le ha)
  have hcq := abs_le.mp (abs_cast_le hc)
  rw [abs_le]
  constructor
  · nlinarith [haq.1, hcq.1, mul_nonneg h0 (by linarith : (0 : ℚ) ≤ (c : ℚ) + 2 ^ 15),
      mul_nonneg (by linarith : (0 : ℚ) ≤ 1 - s) (by linarith : (0 : ℚ) ≤ (a : ℚ) + 2 ^ 15)]
  · nlinarith [haq.2, hcq.2, mul_nonneg h0 (by linarith : (0 : ℚ) ≤ 2 ^ 15 - (c : ℚ)),
      mul_nonneg (by linarith : (0 : ℚ) ≤ 1 - s) (by linarith : (0 : ℚ) ≤ 2 ^ 15 - (a : ℚ))]

/-- The rounding error of a coordinate of magnitude at most `2^15` is at most `2^-37`. -/
theorem err_small {p Q : ℚ} (h : |p - Q| ≤ |Q| / 2 ^ 53 + 1 / 2 ^ 1075) (hQ : |Q| ≤ 2 ^ 15) :
    |p - Q| ≤ 1 / 2 ^ 37 := by
  have hk : (1 : ℚ) / 2 ^ 1075 ≤ 1 / 2 ^ 60 := by
    apply one_div_le_one_div_of_le (by positivity)
    exact pow_le_pow_right₀ (by norm_num) (by norm_num)
  have h2 : |Q| / 2 ^ 53 ≤ 2 ^ 15 / 2 ^ 53 := div_le_div_of_nonneg_right hQ (by positivity)
  have h3 : (2 : ℚ) ^ 15 / 2 ^ 53 + 1 / 2 ^ 60 ≤ 1 / 2 ^ 37 := by norm_num
  linarith

/-- Evaluation of `intersect` in binary64 on non-degenerate segments with integer coordinates
of magnitude at most `2^15` that pass the parallel check and whose supporting lines meet at
parameters `s` and `t`. -/
theorem intersect_pixels (a b c d e f g h : ℤ) (s t : ℚ) (ha : |a| ≤ 2 ^ 15)
    (hb : |b| ≤ 2 ^ 15) (hc : |c| ≤ 2 ^ 15) (hd : |d| ≤ 2 ^ 15) (he : |e| ≤ 2 ^ 15)
    (hf : |f| ≤ 2 ^ 15) (hg : |g| ≤ 2 ^ 15) (hh : |h| ≤ 2 ^ 15) (hA : a ≠ c ∨ b ≠ d)
    (hB : e ≠ g ∨ f ≠ h)
    (hp : parallelCheck Libm.binary64 (pixels a b c d) (pixels e f g h) = false)
    (hx : (a : ℚ) + s * (c - a) = e + t * (g - e))
    (hy : (b : ℚ) + s * (d - b) = f + t * (h - f)) :
    ∃ px py l1 l2 : ℚ,
      |px - (a + s * (c - a))| ≤ |(a : ℚ) + s * (c - a)| / 2 ^ 53 + 1 / 2 ^ 1075
      ∧ |py - (b + s * (d - b))| ≤ |(b : ℚ) + s * (d - b)| / 2 ^ 53 + 1 / 2 ^ 1075
      ∧ px ≠ 1 / 2 ^ 1022
      ∧ |l1 - t| ≤ 1 / 2 ^ 36 + |t| / 2 ^ 34
      ∧ |l2 - s| ≤ 1 / 2 ^ 36 + |s| / 2 ^ 34
      ∧ intersect Libm.binary64 (pixels a b c d) (pixels e f g h)
        = if (decide (l1 < 5764607523034235 / 576460752303423488)
              || decide (4458563631096791 / 4503599627370496 < l1)
              || decide (l2 < 5764607523034235 / 576460752303423488)
              || decide (4458563631096791 / 4503599627370496 < l2)) = true
          then ⟨NO_INTERSECTION, NO_INTERSECTION⟩ else ⟨fin px, fin py⟩ := by
  have hD := divisor_ne_zero_pixels a b c d e f g h ha hb hc hd he hf hg hh hA hB hp
  obtain ⟨px, py, l1, l2, hP, ex, ey, hne, hl1, el1, hl2, el2⟩ :=
    eval_pixels a b c d e f g h s t ha hb hc hd he hf hg hh hA hB hD hx hy
  refine ⟨px, py, l1, l2, ex, ey, hne, el1, el2, ?_⟩
  rw [intersect_exits, hp, hl1, hl2, bandTest_fin, hP]
  simp only [Bool.false_eq_true, if_false]

end LineSegment

namespace LineSegment

/-- In binary64, for non-degenerate segments with integer coordinates of magnitude at most
`2^15` that pass the parallel check and cross at parameters `s` and `t` of
`[0.01 + 2^-30, 0.99 - 2^-30]`: `intersect` returns a point within `2^-37` of the crossing point
in each coordinate, and not the sentinel point. -/
theorem interior_crossing_pixels (a b c d e f g h : ℤ) (s t : ℚ) (ha : |a| ≤ 2 ^ 15)
    (hb : |b| ≤ 2 ^ 15) (hc : |c| ≤ 2 ^ 15) (hd : |d| ≤ 2 ^ 15) (he : |e| ≤ 2 ^ 15)
    (hf : |f| ≤ 2 ^ 15) (hg : |g| ≤ 2 ^ 15) (hh : |h| ≤ 2 ^ 15) (hA : a ≠ c ∨ b ≠ d)
    (hB : e ≠ g ∨ f ≠ h)
    (hp : parallelCheck Libm.binary64 (pixels a b c d) (pixels e f g h) = false)
    (hs : 1 / 100 + 1 / 2 ^ 30 ≤ s ∧ s ≤ 99 / 100 - 1 / 2 ^ 30)
    (ht : 1 / 100 + 1 / 2 ^ 30 ≤ t ∧ t ≤ 99 / 100 - 1 / 2 ^ 30)
    (hx : (a : ℚ) + s * (c - a) = e + t * (g - e))
    (hy : (b : ℚ) + s * (d - b) = f + t * (h - f)) :
    ∃ px py : ℚ,
      intersect Libm.binary64 (pixels a b c d) (pixels e f g h) = ⟨fin px, fin py⟩
      ∧ |px - (a + s * (c - a))| ≤ 1 / 2 ^ 37 ∧ |py - (b + s * (d - b))| ≤ 1 / 2 ^ 37
      ∧ intersect Libm.binary64 (pixels a b c d) (pixels e f g h)
          ≠ ⟨NO_INTERSECTION, NO_INTERSECTION⟩ := by
  obtain ⟨px, py, l1, l2, ex, ey, hne, el1, el2, hI⟩ :=
    intersect_pixels a b c d e f g h s t ha hb hc hd he hf hg hh hA hB hp hx hy
  obtain ⟨i1, i2⟩ := band_inside l1 t el1 ht.1 ht.2
  obtain ⟨j1, j2⟩ := band_inside l2 s el2 hs.1 hs.2
  have hband : (decide (l1 < 5764607523034235 / 576460752303423488)
      || decide (4458563631096791 / 4503599627370496 < l1)
      || decide (l2 < 5764607523034235 / 576460752303423488)
      || decide (4458563631096791 / 4503599627370496 < l2)) = false := by
    simp only [Bool.or_eq_false_iff, decide_eq_false_iff_not]
    exact ⟨⟨⟨i1, i2⟩, j1⟩, j2⟩
  rw [hband] at hI
  simp only [Bool.false_eq_true, if_false] at hI
  have s0 : (0 : ℚ) ≤ s := le_trans (by positivity) hs.1
  have s1 : s ≤ 1 := le_trans hs.2 (by norm_num)
  refine ⟨px, py, hI, err_small ex (abs_on_segment a c s ha hc s0 s1),
    err_small ey (abs_on_segment b d s hb hd s0 s1), ?_⟩
  rw [hI]
  intro heq
  injection heq with h1 h2
  exact hne (Double.fin_injective h1)

/-- In binary64, for non-degenerate segments with integer coordinates of magnitude at most
`2^15` whose supporting lines meet at parameters `s` and `t`, one of them below `0.01 - 2^-30`
or above `0.99 + 2^-30`: `intersect` returns the sentinel point. -/
theorem boundary_sentinel_pixels (a b c d e f g h : ℤ) (s t : ℚ) (ha : |a| ≤ 2 ^ 15)
    (hb : |b| ≤ 2 ^ 15) (hc : |c| ≤ 2 ^ 15) (hd : |d| ≤ 2 ^ 15) (he : |e| ≤ 2 ^ 15)
    (hf : |f| ≤ 2 ^ 15) (hg : |g| ≤ 2 ^ 15) (hh : |h| ≤ 2 ^ 15) (hA : a ≠ c ∨ b ≠ d)
    (hB : e ≠ g ∨ f ≠ h)
    (hx : (a : ℚ) + s * (c - a) = e + t * (g - e))
    (hy : (b : ℚ) + s * (d - b) = f + t * (h - f))
    (hout : s < 1 / 100 - 1 / 2 ^ 30 ∨ 99 / 100 + 1 / 2 ^ 30 < s
      ∨ t < 1 / 100 - 1 / 2 ^ 30 ∨ 99 / 100 + 1 / 2 ^ 30 < t) :
    intersect Libm.binary64 (pixels a b c d) (pixels e f g h)
      = ⟨NO_INTERSECTION, NO_INTERSECTION⟩ := by
  cases hp : parallelCheck Libm.binary64 (pixels a b c d) (pixels e f g h) with
  | true => exact sentinel_of_parallelCheck _ _ _ hp
  | false =>
    obtain ⟨px, py, l1, l2, ex, ey, hne, el1, el2, hI⟩ :=
      intersect_pixels a b c d e f g h s t ha hb hc hd he hf hg hh hA hB hp hx hy
    have hband : (decide (l1 < 5764607523034235 / 576460752303423488)
        || decide (4458563631096791 / 4503599627370496 < l1)
        || decide (l2 < 5764607523034235 / 576460752303423488)
        || decide (4458563631096791 / 4503599627370496 < l2)) = true := by
      simp only [Bool.or_eq_true, decide_eq_true_eq]
      rcases hout with h1 | h1 | h1 | h1
      · rcases band_outside l2 s el2 (Or.inl h1) with h2 | h2
        · exact Or.inl (Or.inr h2)
        · exact Or.inr h2
      · rcases band_outside l2 s el2 (Or.inr h1) with h2 | h2
        · exact Or.inl (Or.inr h2)
        · exact Or.inr h2
      · rcases band_outside l1 t el1 (Or.inl h1) with h2 | h2
        · exact Or.inl (Or.inl (Or.inl h2))
        · exact Or.inl (Or.inl (Or.inr h2))
      · rcases band_outside l1 t el1 (Or.inr h1) with h2 | h2
        · exact Or.inl (Or.inl (Or.inl h2))
        · exact Or.inl (Or.inl (Or.inr h2))
    rw [hI, if_pos hband]

/-- In binary64, for non-degenerate segments with integer coordinates of magnitude at most
`2^15`: a result of `intersect` other than the sentinel point is within `2^-37`, in each
coordinate, of a point that lies on both segments, at parameters of
`[0.01 - 2^-30, 0.99 + 2^-30]`. -/
theorem on_both_segments_pixels (a b c d e f g h : ℤ) (ha : |a| ≤ 2 ^ 15)
    (hb : |b| ≤ 2 ^ 15) (hc : |c| ≤ 2 ^ 15) (hd : |d| ≤ 2 ^ 15) (he : |e| ≤ 2 ^ 15)
    (hf : |f| ≤ 2 ^ 15) (hg : |g| ≤ 2 ^ 15) (hh : |h| ≤ 2 ^ 15) (hA : a ≠ c ∨ b ≠ d)
    (hB : e ≠ g ∨ f ≠ h)
    (hne : intersect Libm.binary64 (pixels a b c d) (pixels e f g h)
      ≠ ⟨NO_INTERSECTION, NO_INTERSECTION⟩) :
    ∃ s t px py : ℚ,
      (1 / 100 - 1 / 2 ^ 30 ≤ s ∧ s ≤ 99 / 100 + 1 / 2 ^ 30)
      ∧ (1 / 100 - 1 / 2 ^ 30 ≤ t ∧ t ≤ 99 / 100 + 1 / 2 ^ 30)
      ∧ ((a : ℚ) + s * (c - a) = e + t * (g - e) ∧ (b : ℚ) + s * (d - b) = f + t * (h - f))
      ∧ intersect Libm.binary64 (pixels a b c d) (pixels e f g h) = ⟨fin px, fin py⟩
      ∧ |px - (a + s * (c - a))| ≤ 1 / 2 ^ 37 ∧ |py - (b + s * (d - b))| ≤ 1 / 2 ^ 37 := by
  cases hp : parallelCheck Libm.binary64 (pixels a b c d) (pixels e f g h) with
  | true => exact absurd (sentinel_of_parallelCheck _ _ _ hp) hne
  | false =>
    have hD := divisor_ne_zero_pixels a b c d e f g h ha hb hc hd he hf hg hh hA hB hp
    have hDq : ((a : ℚ) - c) * (f - h) - ((b : ℚ) - d) * (e - g) ≠ 0 := by
      have : (((a - c) * (f - h) - (b - d) * (e - g) : ℤ) : ℚ) ≠ 0 := by exact_mod_cast hD
      push_cast at this
      exact this
    obtain ⟨s, t, hx, hy⟩ := crossing_exists_field (a : ℚ) b c d e f g h hDq
    by_cases hout : s < 1 / 100 - 1 / 2 ^ 30 ∨ 99 / 100 + 1 / 2 ^ 30 < s
        ∨ t < 1 / 100 - 1 / 2 ^ 30 ∨ 99 / 100 + 1 / 2 ^ 30 < t
    · exact absurd (boundary_sentinel_pixels a b c d e f g h s t ha hb hc hd he hf hg hh hA hB
        hx hy hout) hne
    · simp only [not_or, not_lt] at hout
      obtain ⟨o1, o2, o3, o4⟩ := hout
      obtain ⟨px, py, l1, l2, ex, ey, hpne, el1, el2, hI⟩ :=
        intersect_pixels a b c d e f g h s t ha hb hc hd he hf hg hh hA hB hp hx hy
      have hI2 : intersect Libm.binary64 (pixels a b c d) (pixels e f g h)
          = ⟨fin px, fin py⟩ := by
        by_cases hband : (decide (l1 < 5764607523034235 / 576460752303423488)
            || decide (4458563631096791 / 4503599627370496 < l1)
            || decide (l2 < 5764607523034235 / 576460752303423488)
            || decide (4458563631096791 / 4503599627370496 < l2)) = true
        · rw [if_pos hband] at hI
          exact absurd hI hne
        · rw [if_neg hband] at hI
          exact hI
      have s0 : (0 : ℚ) ≤ s := le_trans (by norm_num) o1
      have s1 : s ≤ 1 := le_trans o2 (by norm_num)
      exact ⟨s, t, px, py, ⟨o1, o2⟩, ⟨o3, o4⟩, ⟨hx, hy⟩, hI2,
        err_small ex (abs_on_segment a c s ha hc s0 s1),
        err_small ey (abs_on_segment b d s hb hd s0 s1)⟩

/-- In binary64, for non-degenerate segments with integer coordinates of magnitude at most
`2^15`: if `intersect` returns the sentinel point then the parallel check fired, or the
supporting lines meet at parameters one of which lies outside `[0.01 + 2^-30, 0.99 - 2^-30]`. -/
theorem sentinel_exits_pixels (a b c d e f g h : ℤ) (ha : |a| ≤ 2 ^ 15)
    (hb : |b| ≤ 2 ^ 15) (hc : |c| ≤ 2 ^ 15) (hd : |d| ≤ 2 ^ 15) (he : |e| ≤ 2 ^ 15)
    (hf : |f| ≤ 2 ^ 15) (hg : |g| ≤ 2 ^ 15) (hh : |h| ≤ 2 ^ 15) (hA : a ≠ c ∨ b ≠ d)
    (hB : e ≠ g ∨ f ≠ h)
    (hs : intersect Libm.binary64 (pixels a b c d) (pixels e f g h)
      = ⟨NO_INTERSECTION, NO_INTERSECTION⟩) :
    parallelCheck Libm.binary64 (pixels a b c d) (pixels e f g h) = true
    ∨ ∃ s t : ℚ,
      ((a : ℚ) + s * (c - a) = e + t * (g - e) ∧ (b : ℚ) + s * (d - b) = f + t * (h - f))
      ∧ (s < 1 / 100 + 1 / 2 ^ 30 ∨ 99 / 100 - 1 / 2 ^ 30 < s
        ∨ t < 1 / 100 + 1 / 2 ^ 30 ∨ 99 / 100 - 1 / 2 ^ 30 < t) := by
  cases hp : parallelCheck Libm.binary64 (pixels a b c d) (pixels e f g h) with
  | true => exact Or.inl rfl
  | false =>
    right
    have hD := divisor_ne_zero_pixels a b c d e f g h ha hb hc hd he hf hg hh hA hB hp
    have hDq : ((a : ℚ) - c) * (f - h) - ((b : ℚ) - d) * (e - g) ≠ 0 := by
      have : (((a - c) * (f - h) - (b - d) * (e - g) : ℤ) : ℚ) ≠ 0 := by exact_mod_cast hD
      push_cast at this
      exact this
    obtain ⟨s, t, hx, hy⟩ := crossing_exists_field (a : ℚ) b c d e f g h hDq
    refine ⟨s, t, ⟨hx, hy⟩, ?_⟩
    by_contra hin
    simp only [not_or, not_lt] at hin
    obtain ⟨o1, o2, o3, o4⟩ := hin
    obtain ⟨px, py, hI, _, _, hne⟩ := interior_crossing_pixels a b c d e f g h s t ha hb hc hd
      he hf hg hh hA hB hp ⟨o1, o2⟩ ⟨o3, o4⟩ hx hy
    exact hne hs

end LineSegment

/-! ## Binary64: the angle between vectors with integer coordinates -/

namespace Vector

end Vector

namespace Vector

end Vector

/-! ## Binary64: the turtle -/

namespace Turtle

/-- One coordinate of `forward(d)` followed by `back(d)` in binary64: with a direction
coordinate `c` of magnitude at most `1`, the coordinate `x` is restored up to
`(|x| + |d|) * 2^-50 + 2^-1070`. -/
theorem coordinate_roundtrip (x c d : ℚ) (hc : |c| ≤ 1) (hx : |x| ≤ 2 ^ 500)
    (hd : |d| ≤ 2 ^ 500) :
    ∃ x' : ℚ, ((fin x : Double Binary64) + (fin c : Double Binary64) * (fin d : Double Binary64))
        + (fin c : Double Binary64) * -(fin d : Double Binary64) = fin x'
      ∧ |x' - x| ≤ (|x| + |d|) / 2 ^ 50 + 1 / 2 ^ 1070 := by
  have hcd : |c * d| ≤ |d| := by
    rw [abs_mul]
    calc |c| * |d| ≤ 1 * |d| := mul_le_mul_of_nonneg_right hc (abs_nonneg d)
      _ = |d| := one_mul _
  have hcd' : |c * -d| ≤ |d| := by
    rw [mul_neg, abs_neg]
    exact hcd
  have hk : (1 : ℚ) / 2 ^ 1075 ≤ 1 / 2 ^ 1072 := by
    apply one_div_le_one_div_of_le (by positivity)
    exact pow_le_pow_right₀ (by norm_num) (by norm_num)
  have hk2 : (1 : ℚ) / 2 ^ 1072 ≤ 1 := by
    rw [div_le_one (by positivity)]
    exact one_le_pow₀ (by norm_num)
  have h500 : (2 : ℚ) ^ 500 * 8 ≤ 2 ^ 1023 := by
    rw [show (8 : ℚ) = 2 ^ 3 by norm_num, ← pow_add]
    exact pow_le_pow_right₀ (by norm_num) (by norm_num)
  have h1le : (1 : ℚ) ≤ 2 ^ 500 := one_le_pow₀ (by norm_num)
  obtain ⟨w, hw, ew⟩ := round64_err (c * d) (by linarith)
  have hwb : |w| ≤ |d| + |w - c * d| := by
    have := abs_add (w - c * d) (c * d)
    rw [sub_add_cancel] at this
    linarith
  have e53 : ∀ z : ℚ, 0 ≤ z → z / 2 ^ 53 ≤ z := fun z hz => div_le_self hz (one_le_pow₀ (by norm_num))
  have hxw : |x + w| ≤ |x| + |w| := abs_add x w
  have hwsmall : |w - c * d| ≤ 2 ^ 500 + 1 := by
    have := e53 |c * d| (abs_nonneg _)
    linarith
  obtain ⟨p, hp, ep⟩ := round64_err (x + w) (by linarith)
  obtain ⟨w', hw', ew'⟩ := round64_err (c * -d) (by linarith)
  have hw'b : |w'| ≤ |d| + |w' - c * -d| := by
    have := abs_add (w' - c * -d) (c * -d)
    rw [sub_add_cancel] at this
    linarith
  have hpb : |p| ≤ |x + w| + |p - (x + w)| := by
    have := abs_add (p - (x + w)) (x + w)
    rw [sub_add_cancel] at this
    linarith
  have hpw : |p + w'| ≤ |p| + |w'| := abs_add p w'
  have hpwb : |p + w'| ≤ 2 ^ 1023 := by
    have t1 := e53 |c * -d| (abs_nonneg _)
    have t2 := e53 |x + w| (abs_nonneg _)
    linarith
  obtain ⟨x', hx', ex'⟩ := round64_err (p + w') hpwb
  refine ⟨x', ?_, ?_⟩
  · rw [Double.fin_neg, Double.mul_round64, hw, Double.add_round64, hp, Double.mul_round64, hw',
      Double.add_round64, hx']
  · have hsplit : |x' - x| ≤ |x' - (p + w')| + |p - (x + w)| + |w - c * d| + |w' - c * -d| := by
      have e : x' - x = (x' - (p + w')) + (p - (x + w)) + (w - c * d) + (w' - c * -d) := by ring
      rw [e]
      have t1 := abs_add ((x' - (p + w')) + (p - (x + w)) + (w - c * d)) (w' - c * -d)
      have t2 := abs_add ((x' - (p + w')) + (p - (x + w))) (w - c * d)
      have t3 := abs_add (x' - (p + w')) (p - (x + w))
      linarith
    have hpw2 : |p + w'| ≤ |x| + |p - (x + w)| + |w - c * d| + |w' - c * -d| := by
      have e : p + w' = x + (p - (x + w)) + (w - c * d) + (w' - c * -d) := by ring
      rw [e]
      have t1 := abs_add (x + (p - (x + w)) + (w - c * d)) (w' - c * -d)
      have t2 := abs_add (x + (p - (x + w))) (w - c * d)
      have t3 := abs_add x (p - (x + w))
      linarith
    have hτ : (1 : ℚ) / 2 ^ 1075 * 32 ≤ 1 / 2 ^ 1070 := by
      rw [show (2 : ℚ) ^ 1075 = 2 ^ 1070 * 32 by
        rw [show (32 : ℚ) = 2 ^ 5 by norm_num, ← pow_add], one_div, one_div, mul_inv, mul_assoc,
        inv_mul_cancel₀ (by norm_num), mul_one]
    have hτ0 : (0 : ℚ) ≤ 1 / 2 ^ 1075 := by positivity
    have hx0 := abs_nonneg x
    have hd0 := abs_nonneg d
    generalize |x' - x| = X at *
    generalize |x' - (p + w')| = E4 at *
    generalize |p - (x + w)| = E2 at *
    generalize |w - c * d| = E1 at *
    generalize |w' - c * -d| = E3 at *
    generalize |p + w'| = PW at *
    generalize |x + w| = XW at *
    generalize |c * d| = CD at *
    generalize |c * -d| = CD' at *
    generalize |w| = W at *
    generalize |x| = AX at *
    generalize |d| = AD at *
    generalize (1 : ℚ) / 2 ^ 1075 = τ at *
    generalize (1 : ℚ) / 2 ^ 1070 = σ at *
    clear hk hk2 h500 h1le e53 hwsmall hpwb hx hd
    have q1 : CD / 2 ^ 53 ≤ AD / 2 ^ 53 := div_le_div_of_nonneg_right hcd (by positivity)
    have q2 : CD' / 2 ^ 53 ≤ AD / 2 ^ 53 := div_le_div_of_nonneg_right hcd' (by positivity)
    norm_num at *
    linarith

/-- In binary64, with any `<cmath>` whose cosine and sine of the heading are of magnitude at most
`1`: from a finite position with coordinates of magnitude at most `2^500`, and for a distance `d`
of magnitude at most `2^500`, `forward(d)` followed by `back(d)` ends at a finite position whose
coordinates differ from the old ones by at most `(|coordinate| + |d|) * 2^-50 + 2^-1070`. -/
theorem forward_back_binary64 (m : Libm Binary64) (f : SVGFile Binary64) (px py h r d : ℚ)
    (b : Bool) (hpx : |px| ≤ 2 ^ 500) (hpy : |py| ≤ 2 ^ 500) (hd : |d| ≤ 2 ^ 500)
    (hr : toRad m (fin h) = fin r) (hcos : |m.cos r| ≤ 1) (hsin : |m.sin r| ≤ 1) :
    ∃ x' y' : ℚ,
      (back m (forward m ⟨f, ⟨fin px, fin py⟩, fin h, b⟩ (fin d)) (fin d)).m_pos
          = ⟨fin x', fin y'⟩
        ∧ |x' - px| ≤ (|px| + |d|) / 2 ^ 50 + 1 / 2 ^ 1070
        ∧ |y' - py| ≤ (|py| + |d|) / 2 ^ 50 + 1 / 2 ^ 1070 := by
  obtain ⟨x', ex, bx⟩ := coordinate_roundtrip px (m.cos r) d hcos hpx hd
  obtain ⟨y', ey, by_⟩ := coordinate_roundtrip py (-(m.sin r)) d (by rwa [abs_neg]) hpy hd
  refine ⟨x', y', ?_, bx, by_⟩
  simp only [back, forward, Point.add, Vector.mul, hr, Double.cos_fin, Double.sin_fin,
    Double.fin_neg]
  rw [← ex, ← ey]
  simp only [Double.fin_neg]

end Turtle

namespace Turtle

end Turtle

/-! ## Segment intersection: the amended claims

The lemmas over the real numbers are about exact arithmetic; the lemmas on integer coordinates
are about IEEE 754 binary64, the arithmetic of the code.  The statements below evaluate the
definitions in binary64 on concrete segments, and state what holds in every arithmetic (the
exits of `intersect` in terms of the parallel check, the band test on the computed parameters
and the computed point), what holds in binary64 on segments with integer coordinates, and what
holds over the real numbers. -/

namespace LineSegment

/-- In every arithmetic: when the band test on the computed parameters fires, `intersect` gives
the sentinel point. -/
theorem sentinel_of_bandTest {K : Type} [LinearOrderedField K] [Rounding K] (m : Libm K)
    (A B : LineSegment K)
    (hb : bandTest (intersectLambda1 A B) (intersectLambda2 A B) = true) :
    intersect m A B = ⟨NO_INTERSECTION, NO_INTERSECTION⟩ := by
  rw [intersect_exits, if_pos hb]
  split_ifs <;> rfl

/-- In every arithmetic: when neither the parallel check nor the band test fires, `intersect`
gives the computed point `P`. -/
theorem intersect_of_pass {K : Type} [LinearOrderedField K] [Rounding K] (m : Libm K)
    (A B : LineSegment K) (hp : parallelCheck m A B = false)
    (hb : bandTest (intersectLambda1 A B) (intersectLambda2 A B) = false) :
    intersect m A B = intersectP A B := by
  rw [intersect_exits, hp, hb]
  rfl

/-- The unit segment on the X axis and the segment `(-1,-2)-(2,2)` pass the parallel check, over
exact real arithmetic. -/
theorem parallelCheck_slanted :
    parallelCheck Libm.real (finite (0 : ℝ) 0 1 0) (finite (-1) (-2) 2 2) = false := by
  rw [parallelCheck_finite _ _ _ _ _ _ _ _ (Or.inl (by norm_num)) (Or.inl (by norm_num))]
  have e1 : Real.sqrt ((2 - -1) * (2 - -1) + (2 - -2) * (2 - -2)) = 5 := by
    rw [show ((2 - -1) * (2 - -1) + (2 - -2) * (2 - -2) : ℝ) = 5 ^ 2 by norm_num]
    exact Real.sqrt_sq (by norm_num)
  have e2 : Real.sqrt (((1 : ℝ) - 0) * (1 - 0) + (0 - 0) * (0 - 0)) = 1 := by
    norm_num
  rw [e1, e2]
  have h1 : ¬ |((2 : ℝ) - -1) / 5 - (1 - 0) / 1| < 1 / 1000 := by
    rw [show ((2 : ℝ) - -1) / 5 - (1 - 0) / 1 = -(2 / 5) by norm_num, abs_neg,
      abs_of_pos (by norm_num)]
    norm_num
  have h2 : ¬ |((2 : ℝ) - -1) / 5 * -1 - (1 - 0) / 1| < 1 / 1000 := by
    rw [show ((2 : ℝ) - -1) / 5 * -1 - (1 - 0) / 1 = -(8 / 5) by norm_num, abs_neg,
      abs_of_pos (by norm_num)]
    norm_num
  simp only [h1, h2, decide_False, Bool.false_and, Bool.or_self]

set_option maxRecDepth 100000 in
/-- Counterexample to C2 as stated, evaluated in binary64.  First, the unit segment
`(0,0)-(1,0)` and the segment `(-7999999,-4000)-(8000000,4000)` cross at `(1/2, 0)`, at parameter
`1/2` along both, yet the parallel check fires (the normalised directions differ by less than
`0.001` in each coordinate) and `intersect` returns the sentinel.  Second, the segments
`(0,0)-(2.1,0)` and `(0.7,-5)-(0.7,5)` pass the parallel check and cross at parameters `s` (about
`1/3`) and `t = 1/2`, yet the computed `P.X` is the double above `0.7`, the X-span ratio along the
vertical segment is `+inf` and not `NaN`, the Y-span ratio is not used, the band test fires and
`intersect` returns the sentinel. -/
theorem intersect_crossing_rejected_counterexample :
    (((1 / 100 : Binary64) < 1 / 2 ∧ (1 / 2 : Binary64) < 99 / 100)
      ∧ ((0 : Binary64) + 1 / 2 * (1 - 0) = -7999999 + 1 / 2 * (8000000 - -7999999)
        ∧ (0 : Binary64) + 1 / 2 * (0 - 0) = -4000 + 1 / 2 * (4000 - -4000))
      ∧ parallelCheck Libm.binary64 (finite (0 : Binary64) 0 1 0)
          (finite (-7999999) (-4000) 8000000 4000) = true
      ∧ intersect Libm.binary64 (finite (0 : Binary64) 0 1 0)
          (finite (-7999999) (-4000) 8000000 4000) = ⟨NO_INTERSECTION, NO_INTERSECTION⟩)
    ∧ ((lit (21 / 10) : Double Binary64) = fin (4728779608739021 / 2251799813685248)
      ∧ (lit (7 / 10) : Double Binary64) = fin (3152519739159347 / 4503599627370496)
      ∧ ((1 / 100 : Binary64) < 3152519739159347 / 9457559217478042
        ∧ (3152519739159347 / 9457559217478042 : Binary64) < 99 / 100)
      ∧ ((0 : Binary64) + 3152519739159347 / 9457559217478042
            * (4728779608739021 / 2251799813685248 - 0)
          = 3152519739159347 / 4503599627370496
            + 1 / 2 * (3152519739159347 / 4503599627370496 - 3152519739159347 / 4503599627370496)
        ∧ (0 : Binary64) + 3152519739159347 / 9457559217478042 * (0 - 0)
          = -5 + 1 / 2 * (5 - -5))
      ∧ parallelCheck Libm.binary64 ⟨⟨fin 0, fin 0⟩, ⟨lit (21 / 10), fin 0⟩⟩
          ⟨⟨lit (7 / 10), fin (-5)⟩, ⟨lit (7 / 10), fin 5⟩⟩ = false
      ∧ intersectP (K := Binary64) ⟨⟨fin 0, fin 0⟩, ⟨lit (21 / 10), fin 0⟩⟩
          ⟨⟨lit (7 / 10), fin (-5)⟩, ⟨lit (7 / 10), fin 5⟩⟩
          = ⟨fin (6305039478318695 / 9007199254740992), fin 0⟩
      ∧ intersectLambda1 (K := Binary64) ⟨⟨fin 0, fin 0⟩, ⟨lit (21 / 10), fin 0⟩⟩
          ⟨⟨lit (7 / 10), fin (-5)⟩, ⟨lit (7 / 10), fin 5⟩⟩ = pinf
      ∧ intersect Libm.binary64 ⟨⟨fin 0, fin 0⟩, ⟨lit (21 / 10), fin 0⟩⟩
          ⟨⟨lit (7 / 10), fin (-5)⟩, ⟨lit (7 / 10), fin 5⟩⟩
          = ⟨NO_INTERSECTION, NO_INTERSECTION⟩) := by
  decide!

/-- Claim C2, amended.  In every arithmetic, and so in binary64: when the segments `A`, `B` pass
the parallel check and the band test on the computed parameters does not fire,
`A.intersect(B)` is the computed point `P`, the pair of quotients.  In binary64: for
non-degenerate segments with integer coordinates of magnitude at most `2^15`, vertical ones
included, that pass the parallel check and cross at a point `Q` whose parameters `u` (along `A`)
and `v` (along `B`) lie in `[0.01 + 2^-30, 0.99 - 2^-30]`, `A.intersect(B)` is a finite point
whose coordinates match those of `Q` within `2^-37`, and it is not the sentinel.  Over exact
real arithmetic: for finite non-vertical segments that pass the parallel check and cross at a
point `Q` whose parameters `s` (along `A`) and `t` (along `B`) are strictly between `0.01` and
`0.99`, `A.intersect(B)` is a point whose coordinates match `Q` within `1e-2` (they are equal to
those of `Q`), and it is not the sentinel unless `Q` is the sentinel point itself. -/
theorem intersect_interior_crossing {K : Type} [LinearOrderedField K] [Rounding K] (m : Libm K)
    (A B : LineSegment K) (x1 y1 x2 y2 x3 y3 x4 y4 : ℤ) (u v : ℚ) (a b c d e f g h s t : ℝ)
    (hpass : parallelCheck m A B = false)
    (hband : bandTest (intersectLambda1 A B) (intersectLambda2 A B) = false)
    (hx1 : |x1| ≤ 2 ^ 15) (hy1 : |y1| ≤ 2 ^ 15) (hx2 : |x2| ≤ 2 ^ 15) (hy2 : |y2| ≤ 2 ^ 15)
    (hx3 : |x3| ≤ 2 ^ 15) (hy3 : |y3| ≤ 2 ^ 15) (hx4 : |x4| ≤ 2 ^ 15) (hy4 : |y4| ≤ 2 ^ 15)
    (hP : x1 ≠ x2 ∨ y1 ≠ y2) (hQ : x3 ≠ x4 ∨ y3 ≠ y4)
    (hpp : parallelCheck Libm.binary64 (pixels x1 y1 x2 y2) (pixels x3 y3 x4 y4) = false)
    (hu : 1 / 100 + 1 / 2 ^ 30 ≤ u ∧ u ≤ 99 / 100 - 1 / 2 ^ 30)
    (hv : 1 / 100 + 1 / 2 ^ 30 ≤ v ∧ v ≤ 99 / 100 - 1 / 2 ^ 30)
    (hux : (x1 : ℚ) + u * (x2 - x1) = x3 + v * (x4 - x3))
    (huy : (y1 : ℚ) + u * (y2 - y1) = y3 + v * (y4 - y3))
    (hA : a ≠ c) (hB : e ≠ g)
    (hp : parallelCheck Libm.real (finite a b c d) (finite e f g h) = false)
    (hs : 1 / 100 < s ∧ s < 99 / 100) (ht : 1 / 100 < t ∧ t < 99 / 100)
    (hx : a + s * (c - a) = e + t * (g - e)) (hy : b + s * (d - b) = f + t * (h - f)) :
    intersect m A B = intersectP A B
    ∧ (∃ px py : ℚ,
      intersect Libm.binary64 (pixels x1 y1 x2 y2) (pixels x3 y3 x4 y4) = ⟨fin px, fin py⟩
      ∧ |px - (x1 + u * (x2 - x1))| ≤ 1 / 2 ^ 37 ∧ |py - (y1 + u * (y2 - y1))| ≤ 1 / 2 ^ 37
      ∧ intersect Libm.binary64 (pixels x1 y1 x2 y2) (pixels x3 y3 x4 y4)
          ≠ ⟨NO_INTERSECTION, NO_INTERSECTION⟩)
    ∧ ∃ px py : ℝ, intersect Libm.real (finite a b c d) (finite e f g h) = ⟨fin px, fin py⟩
      ∧ |px - (a + s * (c - a))| < 1 / 100 ∧ |py - (b + s * (d - b))| < 1 / 100
      ∧ px = a + s * (c - a) ∧ py = b + s * (d - b)
      ∧ (¬ (a + s * (c - a) = 1 / 2 ^ 1022 ∧ b + s * (d - b) = 1 / 2 ^ 1022) →
          intersect Libm.real (finite a b c d) (finite e f g h)
            ≠ ⟨NO_INTERSECTION, NO_INTERSECTION⟩) :=
  ⟨intersect_of_pass m A B hpass hband,
    interior_crossing_pixels x1 y1 x2 y2 x3 y3 x4 y4 u v hx1 hy1 hx2 hy2 hx3 hy3 hx4 hy4 hP hQ
      hpp hu hv hux huy,
    interior_crossing_exact a b c d e f g h s t (Or.inl hA) (Or.inl hB) hp hs ht hx hy⟩

set_option maxRecDepth 100000 in
/-- Witness of C2 (amended): the unit segment `(0,0)-(1,0)` and the segment `(-1,-2)-(2,2)`,
which cross at `(1/2, 0)`, at parameter `1/2` along both, in binary64 and over exact real
arithmetic. -/
theorem intersect_interior_crossing_witness :
    intersect Libm.binary64 (pixels 0 0 1 0) (pixels (-1) (-2) 2 2)
      = intersectP (pixels 0 0 1 0) (pixels (-1) (-2) 2 2)
    ∧ (∃ px py : ℚ,
      intersect Libm.binary64 (pixels 0 0 1 0) (pixels (-1) (-2) 2 2) = ⟨fin px, fin py⟩
      ∧ |px - (((0 : ℤ) : ℚ) + 1 / 2 * (((1 : ℤ) : ℚ) - ((0 : ℤ) : ℚ)))| ≤ 1 / 2 ^ 37
      ∧ |py - (((0 : ℤ) : ℚ) + 1 / 2 * (((0 : ℤ) : ℚ) - ((0 : ℤ) : ℚ)))| ≤ 1 / 2 ^ 37
      ∧ intersect Libm.binary64 (pixels 0 0 1 0) (pixels (-1) (-2) 2 2)
          ≠ ⟨NO_INTERSECTION, NO_INTERSECTION⟩)
    ∧ ∃ px py : ℝ,
      intersect Libm.real (finite (0 : ℝ) 0 1 0) (finite (-1) (-2) 2 2) = ⟨fin px, fin py⟩
      ∧ |px - (0 + 1 / 2 * (1 - 0))| < 1 / 100 ∧ |py - (0 + 1 / 2 * (0 - 0))| < 1 / 100
      ∧ px = 0 + 1 / 2 * (1 - 0) ∧ py = 0 + 1 / 2 * (0 - 0)
      ∧ (¬ ((0 : ℝ) + 1 / 2 * (1 - 0) = 1 / 2 ^ 1022
            ∧ (0 : ℝ) + 1 / 2 * (0 - 0) = 1 / 2 ^ 1022) →
          intersect Libm.real (finite (0 : ℝ) 0 1 0) (finite (-1) (-2) 2 2)
            ≠ ⟨NO_INTERSECTION, NO_INTERSECTION⟩) :=
  intersect_interior_crossing Libm.binary64 (pixels 0 0 1 0) (pixels (-1) (-2) 2 2)
    0 0 1 0 (-1) (-2) 2 2 (1 / 2) (1 / 2) 0 0 1 0 (-1) (-2) 2 2 (1 / 2) (1 / 2)
    (by decide!) (by decide!)
    (by decide) (by decide) (by decide) (by decide) (by decide) (by decide) (by decide)
    (by decide) (Or.inl (by decide)) (Or.inl (by decide)) (by decide!)
    ⟨by norm_num, by norm_num⟩ ⟨by norm_num, by norm_num⟩ (by norm_num) (by norm_num)
    (by norm_num) (by norm_num) parallelCheck_slanted
    ⟨by norm_num, by norm_num⟩ ⟨by norm_num, by norm_num⟩ (by norm_num) (by norm_num)

set_option maxRecDepth 100000 in
/-- Counterexample to C3 as stated, evaluated in binary64.  First, the segments `(0,0)-(3,0)`
and `(0.03,-1)-(0.03,1)`: the lines meet at `(x, 0)` with `x` the double nearest to `0.03`, at
parameter `x/3` along the first segment, which is below `0.01`; yet the computed parameter is the
double nearest to `0.01`, the band test does not fire and `intersect` returns the point
`(x, 0)`, not the sentinel.  Second, with `u = 2^-600`, the segments `(0,0)-(u,0)` and
`(5u,-u)-(5u,u)`: the lines meet at `(5u, 0)`, at parameter `5` along the first segment, outside
the segment; yet `intersect` returns `(NaN, NaN)`, not the sentinel. -/
theorem intersect_boundary_accepted_counterexample :
    ((lit (3 / 100) : Double Binary64) = fin (1080863910568919 / 36028797018963968)
      ∧ (1080863910568919 / 36028797018963968 / 3 : Binary64) < 1 / 100
      ∧ ((0 : Binary64) + 1080863910568919 / 36028797018963968 / 3 * (3 - 0)
          = 1080863910568919 / 36028797018963968
            + 1 / 2 * (1080863910568919 / 36028797018963968
              - 1080863910568919 / 36028797018963968)
        ∧ (0 : Binary64) + 1080863910568919 / 36028797018963968 / 3 * (0 - 0)
          = -1 + 1 / 2 * (1 - -1))
      ∧ intersectLambda2 (K := Binary64) ⟨⟨fin 0, fin 0⟩, ⟨fin 3, fin 0⟩⟩
          ⟨⟨lit (3 / 100), fin (-1)⟩, ⟨lit (3 / 100), fin 1⟩⟩ = lit (1 / 100)
      ∧ intersect Libm.binary64 ⟨⟨fin 0, fin 0⟩, ⟨fin 3, fin 0⟩⟩
          ⟨⟨lit (3 / 100), fin (-1)⟩, ⟨lit (3 / 100), fin 1⟩⟩ = ⟨lit (3 / 100), fin 0⟩
      ∧ intersect Libm.binary64 ⟨⟨fin 0, fin 0⟩, ⟨fin 3, fin 0⟩⟩
          ⟨⟨lit (3 / 100), fin (-1)⟩, ⟨lit (3 / 100), fin 1⟩⟩
          ≠ ⟨NO_INTERSECTION, NO_INTERSECTION⟩)
    ∧ (((99 / 100 : Binary64) < 5
      ∧ (0 : Binary64) + 5 * (1 / 2 ^ 600 - 0) = 5 / 2 ^ 600 + 1 / 2 * (5 / 2 ^ 600
          - 5 / 2 ^ 600)
      ∧ (0 : Binary64) + 5 * (0 - 0) = -(1 / 2 ^ 600) + 1 / 2 * (1 / 2 ^ 600 - -(1 / 2 ^ 600)))
      ∧ intersect Libm.binary64 (finite (0 : Binary64) 0 (1 / 2 ^ 600) 0)
          (finite (5 / 2 ^ 600) (-(1 / 2 ^ 600)) (5 / 2 ^ 600) (1 / 2 ^ 600))
          = ⟨nan, nan⟩
      ∧ intersect Libm.binary64 (finite (0 : Binary64) 0 (1 / 2 ^ 600) 0)
          (finite (5 / 2 ^ 600) (-(1 / 2 ^ 600)) (5 / 2 ^ 600) (1 / 2 ^ 600))
          ≠ ⟨NO_INTERSECTION, NO_INTERSECTION⟩) := by
  decide!

/-- Claim C3, amended.  In every arithmetic, and so in binary64: when the parallel check fires,
or one of the two computed parameters (the X-span ratio, or the Y-span ratio when the X-span
ratio is `NaN`) is below `0 + 0.01` or above `1 - 0.01`, `A.intersect(B)` is the sentinel point.
In binary64: for non-degenerate segments with integer coordinates of magnitude at most `2^15`,
vertical ones included, whose supporting lines meet at a point with parameter `u` along `A` and
`v` along `B`, if `u` or `v` is below `0.01 - 2^-30` or above `0.99 + 2^-30` then
`A.intersect(B)` is the sentinel point.  Over exact real arithmetic: for finite non-degenerate
segments whose supporting lines meet at a point with parameter `s` along `A` and `t` along `B`,
if `s` or `t` is below `0.01` or above `0.99` then `A.intersect(B)` is the sentinel point. -/
theorem intersect_boundary_sentinel {K : Type} [LinearOrderedField K] [Rounding K] (m : Libm K)
    (A B : LineSegment K) (x1 y1 x2 y2 x3 y3 x4 y4 : ℤ) (u v : ℚ) (a b c d e f g h s t : ℝ)
    (hrej : parallelCheck m A B = true
      ∨ bandTest (intersectLambda1 A B) (intersectLambda2 A B) = true)
    (hx1 : |x1| ≤ 2 ^ 15) (hy1 : |y1| ≤ 2 ^ 15) (hx2 : |x2| ≤ 2 ^ 15) (hy2 : |y2| ≤ 2 ^ 15)
    (hx3 : |x3| ≤ 2 ^ 15) (hy3 : |y3| ≤ 2 ^ 15) (hx4 : |x4| ≤ 2 ^ 15) (hy4 : |y4| ≤ 2 ^ 15)
    (hP : x1 ≠ x2 ∨ y1 ≠ y2) (hQ : x3 ≠ x4 ∨ y3 ≠ y4)
    (hux : (x1 : ℚ) + u * (x2 - x1) = x3 + v * (x4 - x3))
    (huy : (y1 : ℚ) + u * (y2 - y1) = y3 + v * (y4 - y3))
    (huv : u < 1 / 100 - 1 / 2 ^ 30 ∨ 99 / 100 + 1 / 2 ^ 30 < u
      ∨ v < 1 / 100 - 1 / 2 ^ 30 ∨ 99 / 100 + 1 / 2 ^ 30 < v)
    (hA : a ≠ c ∨ b ≠ d) (hB : e ≠ g ∨ f ≠ h)
    (hx : a + s * (c - a) = e + t * (g - e)) (hy : b + s * (d - b) = f + t * (h - f))
    (hout : s < 1 / 100 ∨ 99 / 100 < s ∨ t < 1 / 100 ∨ 99 / 100 < t) :
    intersect m A B = ⟨NO_INTERSECTION, NO_INTERSECTION⟩
    ∧ intersect Libm.binary64 (pixels x1 y1 x2 y2) (pixels x3 y3 x4 y4)
        = ⟨NO_INTERSECTION, NO_INTERSECTION⟩
    ∧ intersect Libm.real (finite a b c d) (finite e f g h)
        = ⟨NO_INTERSECTION, NO_INTERSECTION⟩ := by
  refine ⟨?_, boundary_sentinel_pixels x1 y1 x2 y2 x3 y3 x4 y4 u v hx1 hy1 hx2 hy2 hx3 hy3 hx4
    hy4 hP hQ hux huy huv, boundary_sentinel_exact a b c d e f g h s t hA hB hx hy hout⟩
  rcases hrej with hp | hb
  · exact sentinel_of_parallelCheck m A B hp
  · exact sentinel_of_bandTest m A B hb

set_option maxRecDepth 100000 in
/-- Witness of C3 (amended): the segment `(0,0)-(1000,0)` is met by the vertical segment
`(5,-1)-(5,1)` at `(5, 0)`, at parameter `0.005` along the horizontal one and `1/2` along the
vertical one, in binary64 and over exact real arithmetic. -/
theorem intersect_boundary_sentinel_witness :
    intersect Libm.binary64 (pixels 0 0 1000 0) (pixels 5 (-1) 5 1)
        = ⟨NO_INTERSECTION, NO_INTERSECTION⟩
    ∧ intersect Libm.binary64 (pixels 0 0 1000 0) (pixels 5 (-1) 5 1)
        = ⟨NO_INTERSECTION, NO_INTERSECTION⟩
    ∧ intersect Libm.real (finite (0 : ℝ) 0 1000 0) (finite 5 (-1) 5 1)
        = ⟨NO_INTERSECTION, NO_INTERSECTION⟩ :=
  intersect_boundary_sentinel Libm.binary64 (pixels 0 0 1000 0) (pixels 5 (-1) 5 1)
    0 0 1000 0 5 (-1) 5 1 (1 / 200) (1 / 2) 0 0 1000 0 5 (-1) 5 1 (1 / 200) (1 / 2)
    (Or.inr (by decide!))
    (by decide) (by decide) (by decide) (by decide) (by decide) (by decide) (by decide)
    (by decide) (Or.inl (by decide)) (Or.inr (by decide)) (by norm_num) (by norm_num)
    (Or.inl (by norm_num))
    (Or.inl (by norm_num)) (Or.inr (by norm_num)) (by norm_num) (by norm_num)
    (Or.inl (by norm_num))

set_option maxRecDepth 100000 in
/-- Counterexample to C4 as stated, evaluated in binary64.  First, with `u = 2^-600`, the
parallel non-degenerate segments `(0,0)-(u,0)` and `(0,u)-(u,u)`: the squared length underflows
to `0`, the normalised direction is `(+inf, NaN)`, the parallel check does not fire, the divisor
is `0`, and `intersect` returns `(NaN, NaN)`, which is not the sentinel and is no point of either
segment.  Second, the segments `(0,0)-(3,0)` and `(0.03,-1)-(0.03,1)`: `intersect` returns the
point `(x, 0)` with `x` the double nearest to `0.03`, whose parameter along the first segment,
`x/3`, is below `0.01`. -/
theorem intersect_off_segment_counterexample :
    (Vector.norm Libm.binary64 (getVec (finite (0 : Binary64) 0 (1 / 2 ^ 600) 0)) = ⟨pinf, nan⟩
      ∧ parallelCheck Libm.binary64 (finite (0 : Binary64) 0 (1 / 2 ^ 600) 0)
          (finite (0 : Binary64) (1 / 2 ^ 600) (1 / 2 ^ 600) (1 / 2 ^ 600)) = false
      ∧ divisor (finite (0 : Binary64) 0 (1 / 2 ^ 600) 0)
          (finite (0 : Binary64) (1 / 2 ^ 600) (1 / 2 ^ 600) (1 / 2 ^ 600)) = fin 0
      ∧ intersect Libm.binary64 (finite (0 : Binary64) 0 (1 / 2 ^ 600) 0)
          (finite (0 : Binary64) (1 / 2 ^ 600) (1 / 2 ^ 600) (1 / 2 ^ 600)) = ⟨nan, nan⟩
      ∧ intersect Libm.binary64 (finite (0 : Binary64) 0 (1 / 2 ^ 600) 0)
          (finite (0 : Binary64) (1 / 2 ^ 600) (1 / 2 ^ 600) (1 / 2 ^ 600))
          ≠ ⟨NO_INTERSECTION, NO_INTERSECTION⟩)
    ∧ ((lit (3 / 100) : Double Binary64) = fin (1080863910568919 / 36028797018963968)
      ∧ intersect Libm.binary64 ⟨⟨fin 0, fin 0⟩, ⟨fin 3, fin 0⟩⟩
          ⟨⟨lit (3 / 100), fin (-1)⟩, ⟨lit (3 / 100), fin 1⟩⟩
          = ⟨fin (0 + 1080863910568919 / 36028797018963968 / 3 * (3 - 0)),
              fin (0 + 1080863910568919 / 36028797018963968 / 3 * (0 - 0))⟩
      ∧ intersect Libm.binary64 ⟨⟨fin 0, fin 0⟩, ⟨fin 3, fin 0⟩⟩
          ⟨⟨lit (3 / 100), fin (-1)⟩, ⟨lit (3 / 100), fin 1⟩⟩
          ≠ ⟨NO_INTERSECTION, NO_INTERSECTION⟩
      ∧ (1080863910568919 / 36028797018963968 / 3 : Binary64) < 1 / 100) := by
  decide!

/-- Claim C4, amended.  In every arithmetic, and so in binary64: whenever `A.intersect(B)` is
not the sentinel point, the parallel check did not fire, neither computed parameter is below
`0 + 0.01` or above `1 - 0.01` (a `NaN` parameter is neither), and the result is the computed
point `P`.  In binary64: for non-degenerate segments with integer coordinates of magnitude at
most `2^15`, whenever `A.intersect(B)` is not the sentinel point it is a finite point whose
coordinates are within `2^-37` of those of a point `Q` on both segments,
`Q = A.P1 + u*(A.P2 - A.P1) = B.P1 + v*(B.P2 - B.P1)` with `u` and `v` in
`[0.01 - 2^-30, 0.99 + 2^-30]`.  Over exact real arithmetic: for finite non-degenerate
segments, whenever `A.intersect(B)` is not the sentinel point it is a point `P` on both
segments: `P = A.P1 + s*(A.P2 - A.P1)` and `P = B.P1 + t*(B.P2 - B.P1)` with `s` and `t` in
`[0.01, 0.99]`. -/
theorem intersect_on_both_segments {K : Type} [LinearOrderedField K] [Rounding K] (m : Libm K)
    (A B : LineSegment K) (x1 y1 x2 y2 x3 y3 x4 y4 : ℤ) (a b c d e f g h : ℝ)
    (hne : intersect m A B ≠ ⟨NO_INTERSECTION, NO_INTERSECTION⟩)
    (hx1 : |x1| ≤ 2 ^ 15) (hy1 : |y1| ≤ 2 ^ 15) (hx2 : |x2| ≤ 2 ^ 15) (hy2 : |y2| ≤ 2 ^ 15)
    (hx3 : |x3| ≤ 2 ^ 15) (hy3 : |y3| ≤ 2 ^ 15) (hx4 : |x4| ≤ 2 ^ 15) (hy4 : |y4| ≤ 2 ^ 15)
    (hP : x1 ≠ x2 ∨ y1 ≠ y2) (hQ : x3 ≠ x4 ∨ y3 ≠ y4)
    (hne64 : intersect Libm.binary64 (pixels x1 y1 x2 y2) (pixels x3 y3 x4 y4)
      ≠ ⟨NO_INTERSECTION, NO_INTERSECTION⟩)
    (hA : a ≠ c ∨ b ≠ d) (hB : e ≠ g ∨ f ≠ h)
    (hneR : intersect Libm.real (finite a b c d) (finite e f g h)
      ≠ ⟨NO_INTERSECTION, NO_INTERSECTION⟩) :
    (parallelCheck m A B = false
      ∧ bandTest (intersectLambda1 A B) (intersectLambda2 A B) = false
      ∧ intersect m A B = intersectP A B)
    ∧ (∃ u v px py : ℚ,
      (1 / 100 - 1 / 2 ^ 30 ≤ u ∧ u ≤ 99 / 100 + 1 / 2 ^ 30)
      ∧ (1 / 100 - 1 / 2 ^ 30 ≤ v ∧ v ≤ 99 / 100 + 1 / 2 ^ 30)
      ∧ ((x1 : ℚ) + u * (x2 - x1) = x3 + v * (x4 - x3)
        ∧ (y1 : ℚ) + u * (y2 - y1) = y3 + v * (y4 - y3))
      ∧ intersect Libm.binary64 (pixels x1 y1 x2 y2) (pixels x3 y3 x4 y4) = ⟨fin px, fin py⟩
      ∧ |px - (x1 + u * (x2 - x1))| ≤ 1 / 2 ^ 37 ∧ |py - (y1 + u * (y2 - y1))| ≤ 1 / 2 ^ 37)
    ∧ ∃ s t : ℝ, (1 / 100 ≤ s ∧ s ≤ 99 / 100) ∧ (1 / 100 ≤ t ∧ t ≤ 99 / 100)
      ∧ intersect Libm.real (finite a b c d) (finite e f g h)
          = ⟨fin (a + s * (c - a)), fin (b + s * (d - b))⟩
      ∧ intersect Libm.real (finite a b c d) (finite e f g h)
          = ⟨fin (e + t * (g - e)), fin (f + t * (h - f))⟩ := by
  refine ⟨?_, on_both_segments_pixels x1 y1 x2 y2 x3 y3 x4 y4 hx1 hy1 hx2 hy2 hx3 hy3 hx4 hy4
    hP hQ hne64, on_both_segments_exact a b c d e f g h hA hB hneR⟩
  cases hp : parallelCheck m A B with
  | true => exact absurd (sentinel_of_parallelCheck m A B hp) hne
  | false =>
    cases hb : bandTest (intersectLambda1 A B) (intersectLambda2 A B) with
    | true => exact absurd (sentinel_of_bandTest m A B hb) hne
    | false => exact ⟨rfl, rfl, intersect_of_pass m A B hp hb⟩

set_option maxRecDepth 100000 in
/-- Witness of C4 (amended): in binary64 the segment `(0,0)-(4,0)` and the vertical segment
`(2,-2)-(2,2)`, which cross at `(2, 0)`; over exact real arithmetic the horizontal and the
vertical unit segment through `(1/2, 1/2)`. -/
theorem intersect_on_both_segments_witness :
    (parallelCheck Libm.binary64 (pixels 0 0 4 0) (pixels 2 (-2) 2 2) = false
      ∧ bandTest (intersectLambda1 (pixels 0 0 4 0) (pixels 2 (-2) 2 2))
          (intersectLambda2 (pixels 0 0 4 0) (pixels 2 (-2) 2 2)) = false
      ∧ intersect Libm.binary64 (pixels 0 0 4 0) (pixels 2 (-2) 2 2)
        = intersectP (pixels 0 0 4 0) (pixels 2 (-2) 2 2))
    ∧ (∃ u v px py : ℚ,
      (1 / 100 - 1 / 2 ^ 30 ≤ u ∧ u ≤ 99 / 100 + 1 / 2 ^ 30)
      ∧ (1 / 100 - 1 / 2 ^ 30 ≤ v ∧ v ≤ 99 / 100 + 1 / 2 ^ 30)
      ∧ ((((0 : ℤ) : ℚ) + u * (((4 : ℤ) : ℚ) - ((0 : ℤ) : ℚ))
            = ((2 : ℤ) : ℚ) + v * (((2 : ℤ) : ℚ) - ((2 : ℤ) : ℚ)))
        ∧ (((0 : ℤ) : ℚ) + u * (((0 : ℤ) : ℚ) - ((0 : ℤ) : ℚ))
            = ((-2 : ℤ) : ℚ) + v * (((2 : ℤ) : ℚ) - ((-2 : ℤ) : ℚ))))
      ∧ intersect Libm.binary64 (pixels 0 0 4 0) (pixels 2 (-2) 2 2) = ⟨fin px, fin py⟩
      ∧ |px - (((0 : ℤ) : ℚ) + u * (((4 : ℤ) : ℚ) - ((0 : ℤ) : ℚ)))| ≤ 1 / 2 ^ 37
      ∧ |py - (((0 : ℤ) : ℚ) + u * (((0 : ℤ) : ℚ) - ((0 : ℤ) : ℚ)))| ≤ 1 / 2 ^ 37)
    ∧ ∃ s t : ℝ, (1 / 100 ≤ s ∧ s ≤ 99 / 100) ∧ (1 / 100 ≤ t ∧ t ≤ 99 / 100)
      ∧ intersect Libm.real (finite (0 : ℝ) (1 / 2) 1 (1 / 2)) (finite (1 / 2) 0 (1 / 2) 1)
          = ⟨fin (0 + s * (1 - 0)), fin (1 / 2 + s * (1 / 2 - 1 / 2))⟩
      ∧ intersect Libm.real (finite (0 : ℝ) (1 / 2) 1 (1 / 2)) (finite (1 / 2) 0 (1 / 2) 1)
          = ⟨fin (1 / 2 + t * (1 / 2 - 1 / 2)), fin (0 + t * (1 - 0))⟩ :=
  intersect_on_both_segments Libm.binary64 (pixels 0 0 4 0) (pixels 2 (-2) 2 2)
    0 0 4 0 2 (-2) 2 2 0 (1 / 2) 1 (1 / 2) (1 / 2) 0 (1 / 2) 1
    (by decide!)
    (by decide) (by decide) (by decide) (by decide) (by decide) (by decide) (by decide)
    (by decide) (Or.inl (by decide)) (Or.inr (by decide)) (by decide!)
    (Or.inl (by norm_num)) (Or.inr (by norm_num))
    (by
      rw [intersect_cross]
      intro heq
      injection heq with h1 h2
      exact half_ne_sentinel (fin_injective h1))

/-- Claim C17, amended.  In every arithmetic, and so in binary64: if `A.intersect(B)` is the
sentinel point then the parallel check fired, or one of the two computed parameters is below
`0 + 0.01` or above `1 - 0.01`, or the computed point `P` has both coordinates equal to
`NO_INTERSECTION`.  In binary64: for non-degenerate segments with integer coordinates of
magnitude at most `2^15`, if `A.intersect(B)` is the sentinel point then the parallel check
fired, or the supporting lines meet at parameters `u`, `v` one of which lies outside
`[0.01 + 2^-30, 0.99 - 2^-30]`.  Over exact real arithmetic: for finite non-degenerate segments,
if `A.intersect(B)` is the sentinel point then the parallel check fired, or the supporting lines
meet at parameters `s`, `t` one of which lies outside `[0.01, 0.99]`, or they meet at the point
whose two coordinates are `NO_INTERSECTION`. -/
theorem sentinel_cases {K : Type} [LinearOrderedField K] [Rounding K] (m : Libm K)
    (A B : LineSegment K) (x1 y1 x2 y2 x3 y3 x4 y4 : ℤ) (a b c d e f g h : ℝ)
    (hs : intersect m A B = ⟨NO_INTERSECTION, NO_INTERSECTION⟩)
    (hx1 : |x1| ≤ 2 ^ 15) (hy1 : |y1| ≤ 2 ^ 15) (hx2 : |x2| ≤ 2 ^ 15) (hy2 : |y2| ≤ 2 ^ 15)
    (hx3 : |x3| ≤ 2 ^ 15) (hy3 : |y3| ≤ 2 ^ 15) (hx4 : |x4| ≤ 2 ^ 15) (hy4 : |y4| ≤ 2 ^ 15)
    (hP : x1 ≠ x2 ∨ y1 ≠ y2) (hQ : x3 ≠ x4 ∨ y3 ≠ y4)
    (hs64 : intersect Libm.binary64 (pixels x1 y1 x2 y2) (pixels x3 y3 x4 y4)
      = ⟨NO_INTERSECTION, NO_INTERSECTION⟩)
    (hA : a ≠ c ∨ b ≠ d) (hB : e ≠ g ∨ f ≠ h)
    (hsR : intersect Libm.real (finite a b c d) (finite e f g h)
      = ⟨NO_INTERSECTION, NO_INTERSECTION⟩) :
    (parallelCheck m A B = true
      ∨ bandTest (intersectLambda1 A B) (intersectLambda2 A B) = true
      ∨ intersectP A B = ⟨NO_INTERSECTION, NO_INTERSECTION⟩)
    ∧ (parallelCheck Libm.binary64 (pixels x1 y1 x2 y2) (pixels x3 y3 x4 y4) = true
      ∨ ∃ u v : ℚ,
        ((x1 : ℚ) + u * (x2 - x1) = x3 + v * (x4 - x3)
          ∧ (y1 : ℚ) + u * (y2 - y1) = y3 + v * (y4 - y3))
        ∧ (u < 1 / 100 + 1 / 2 ^ 30 ∨ 99 / 100 - 1 / 2 ^ 30 < u
          ∨ v < 1 / 100 + 1 / 2 ^ 30 ∨ 99 / 100 - 1 / 2 ^ 30 < v))
    ∧ (parallelCheck Libm.real (finite a b c d) (finite e f g h) = true
      ∨ ∃ s t : ℝ, (a + s * (c - a) = e + t * (g - e) ∧ b + s * (d - b) = f + t * (h - f))
          ∧ ((s < 1 / 100 ∨ 99 / 100 < s ∨ t < 1 / 100 ∨ 99 / 100 < t)
            ∨ (a + s * (c - a) = 1 / 2 ^ 1022 ∧ b + s * (d - b) = 1 / 2 ^ 1022))) := by
  refine ⟨?_, sentinel_exits_pixels x1 y1 x2 y2 x3 y3 x4 y4 hx1 hy1 hx2 hy2 hx3 hy3 hx4 hy4
    hP hQ hs64, sentinel_exits_exact a b c d e f g h hA hB hsR⟩
  cases hp : parallelCheck m A B with
  | true => exact Or.inl rfl
  | false =>
    cases hb : bandTest (intersectLambda1 A B) (intersectLambda2 A B) with
    | true => exact Or.inr (Or.inl rfl)
    | false =>
      rw [intersect_of_pass m A B hp hb] at hs
      exact Or.inr (Or.inr hs)

set_option maxRecDepth 100000 in
/-- Witness of C17 (amended): in binary64 the segment `(0,0)-(1000,0)` and the vertical segment
`(5,-1)-(5,1)`, which meet at parameter `0.005` along the first, so that `intersect` returns the
sentinel; over exact real arithmetic two overlapping collinear unit segments on the X axis. -/
theorem sentinel_cases_witness :
    (parallelCheck Libm.binary64 (pixels 0 0 1000 0) (pixels 5 (-1) 5 1) = true
      ∨ bandTest (intersectLambda1 (pixels 0 0 1000 0) (pixels 5 (-1) 5 1))
          (intersectLambda2 (pixels 0 0 1000 0) (pixels 5 (-1) 5 1)) = true
      ∨ intersectP (pixels 0 0 1000 0) (pixels 5 (-1) 5 1)
          = ⟨NO_INTERSECTION, NO_INTERSECTION⟩)
    ∧ (parallelCheck Libm.binary64 (pixels 0 0 1000 0) (pixels 5 (-1) 5 1) = true
      ∨ ∃ u v : ℚ,
        ((((0 : ℤ) : ℚ) + u * (((1000 : ℤ) : ℚ) - ((0 : ℤ) : ℚ))
            = ((5 : ℤ) : ℚ) + v * (((5 : ℤ) : ℚ) - ((5 : ℤ) : ℚ)))
          ∧ (((0 : ℤ) : ℚ) + u * (((0 : ℤ) : ℚ) - ((0 : ℤ) : ℚ))
            = ((-1 : ℤ) : ℚ) + v * (((1 : ℤ) : ℚ) - ((-1 : ℤ) : ℚ))))
        ∧ (u < 1 / 100 + 1 / 2 ^ 30 ∨ 99 / 100 - 1 / 2 ^ 30 < u
          ∨ v < 1 / 100 + 1 / 2 ^ 30 ∨ 99 / 100 - 1 / 2 ^ 30 < v))
    ∧ (parallelCheck Libm.real (finite (0 : ℝ) 0 1 0) (finite (1 / 2) 0 (3 / 2) 0) = true
      ∨ ∃ s t : ℝ, ((0 : ℝ) + s * (1 - 0) = 1 / 2 + t * (3 / 2 - 1 / 2)
            ∧ (0 : ℝ) + s * (0 - 0) = 0 + t * (0 - 0))
          ∧ ((s < 1 / 100 ∨ 99 / 100 < s ∨ t < 1 / 100 ∨ 99 / 100 < t)
            ∨ ((0 : ℝ) + s * (1 - 0) = 1 / 2 ^ 1022
              ∧ (0 : ℝ) + s * (0 - 0) = 1 / 2 ^ 1022))) :=
  sentinel_cases Libm.binary64 (pixels 0 0 1000 0) (pixels 5 (-1) 5 1)
    0 0 1000 0 5 (-1) 5 1 0 0 1 0 (1 / 2) 0 (3 / 2) 0
    (by decide!)
    (by decide) (by decide) (by decide) (by decide) (by decide) (by decide) (by decide)
    (by decide) (Or.inl (by decide)) (Or.inr (by decide)) (by decide!)
    (Or.inl (by norm_num)) (Or.inl (by norm_num))
    (sentinel_of_parallelCheck _ _ _ parallelCheck_collinear)

end LineSegment

/-! ## The angle between two vectors: the amended claim -/

namespace Vector

end Vector

/-! ## The turtle: the amended claims -/

namespace Turtle

variable {K : Type} [LinearOrderedField K] [Rounding K]

/-- Claim C19, amended.  In every arithmetic, and so in binary64: for every turtle state and
every distance `d`, `forward(d)` followed by `back(d)` leaves heading and pen flag unchanged; with
the pen down and a good stream it writes exactly two lines, the first from the old position `p`
to the position `q` reached by `forward(d)`, the second from `q` to the final position; with the
pen up it leaves the image untouched.  In binary64, with any `<cmath>` whose cosine and sine of
the heading are of magnitude at most `1`: from a finite position with coordinates of magnitude at
most `2^500`, with a heading whose radian value is finite and for a distance `d` of magnitude at
most `2^500`, the final position is finite and each of its coordinates differs from the old one
by at most `(|coordinate| + |d|) * 2^-50 + 2^-1070`.  Over exact real arithmetic, from a finite
position and heading and for a finite distance, the final position is the old position `p`, so
that the second line is the first with its endpoints swapped. -/
theorem forward_back_inverse (m : Libm K) (f : SVGFile K) (p : Point K) (deg len : Double K)
    (b : Bool) (hK wK : Double K) (outK : List (Element K))
    (m64 : Libm Binary64) (f64 : SVGFile Binary64) (qx qy q r l : ℚ) (b64 : Bool)
    (hd wd : Double ℝ) (out : List (Element ℝ)) (px py h d : ℝ) (dr : Bool)
    (hqx : |qx| ≤ 2 ^ 500) (hqy : |qy| ≤ 2 ^ 500) (hl : |l| ≤ 2 ^ 500)
    (hr : toRad m64 (fin q) = fin r) (hcos : |m64.cos r| ≤ 1) (hsin : |m64.sin r| ≤ 1) :
    ((back m (forward m ⟨f, p, deg, b⟩ len) len).m_degree = deg
      ∧ (back m (forward m ⟨f, p, deg, b⟩ len) len).m_drawing = b
      ∧ (back m (forward m ⟨⟨hK, wK, ⟨true, outK⟩⟩, p, deg, true⟩ len) len).m_file.m_file.written
          = outK ++ [Element.line p.X p.Y
                (forward m ⟨⟨hK, wK, ⟨true, outK⟩⟩, p, deg, true⟩ len).m_pos.X
                (forward m ⟨⟨hK, wK, ⟨true, outK⟩⟩, p, deg, true⟩ len).m_pos.Y defaultColor,
              Element.line
                (forward m ⟨⟨hK, wK, ⟨true, outK⟩⟩, p, deg, true⟩ len).m_pos.X
                (forward m ⟨⟨hK, wK, ⟨true, outK⟩⟩, p, deg, true⟩ len).m_pos.Y
                (back m (forward m ⟨⟨hK, wK, ⟨true, outK⟩⟩, p, deg, true⟩ len) len).m_pos.X
                (back m (forward m ⟨⟨hK, wK, ⟨true, outK⟩⟩, p, deg, true⟩ len) len).m_pos.Y
                defaultColor]
      ∧ (back m (forward m ⟨f, p, deg, false⟩ len) len).m_file = f)
    ∧ (∃ x' y' : ℚ,
      (back m64 (forward m64 ⟨f64, ⟨fin qx, fin qy⟩, fin q, b64⟩ (fin l)) (fin l)).m_pos
          = ⟨fin x', fin y'⟩
        ∧ |x' - qx| ≤ (|qx| + |l|) / 2 ^ 50 + 1 / 2 ^ 1070
        ∧ |y' - qy| ≤ (|qy| + |l|) / 2 ^ 50 + 1 / 2 ^ 1070)
    ∧ ((back Libm.real (forward Libm.real ⟨⟨hd, wd, ⟨true, out⟩⟩, ⟨fin px, fin py⟩, fin h, dr⟩
        (fin d)) (fin d)).m_pos = ⟨fin px, fin py⟩
      ∧ (back Libm.real (forward Libm.real ⟨⟨hd, wd, ⟨true, out⟩⟩, ⟨fin px, fin py⟩, fin h, dr⟩
          (fin d)) (fin d)).m_degree = fin h
      ∧ (back Libm.real (forward Libm.real ⟨⟨hd, wd, ⟨true, out⟩⟩, ⟨fin px, fin py⟩, fin h, dr⟩
          (fin d)) (fin d)).m_drawing = dr
      ∧ (∃ qx qy : ℝ,
          (back Libm.real (forward Libm.real
              ⟨⟨hd, wd, ⟨true, out⟩⟩, ⟨fin px, fin py⟩, fin h, true⟩ (fin d))
              (fin d)).m_file.m_file.written
            = out ++ [Element.line (fin px) (fin py) (fin qx) (fin qy) defaultColor,
                Element.line (fin qx) (fin qy) (fin px) (fin py) defaultColor]
          ∧ (forward Libm.real ⟨⟨hd, wd, ⟨true, out⟩⟩, ⟨fin px, fin py⟩, fin h, true⟩
              (fin d)).m_pos = ⟨fin qx, fin qy⟩)
      ∧ (back Libm.real (forward Libm.real
            ⟨⟨hd, wd, ⟨true, out⟩⟩, ⟨fin px, fin py⟩, fin h, false⟩ (fin d))
            (fin d)).m_file.m_file.written = out) := by
  refine ⟨⟨rfl, rfl, ?_, rfl⟩,
    forward_back_binary64 m64 f64 qx qy q r l b64 hqx hqy hl hr hcos hsin,
    forward_back_exact hd wd out px py h d dr⟩
  simp only [back, forward, if_true, addLine_plain, List.append_assoc, List.singleton_append]

set_option maxRecDepth 100000 in
/-- Witness of C19 (amended): a turtle at `(960, 540)` with heading `0` and the pen down, on an
empty image of height `1080` and width `1920`, and the distance `100`, in binary64 and over exact
real arithmetic. -/
theorem forward_back_inverse_witness :
    ((back Libm.binary64 (forward Libm.binary64
          ⟨⟨fin 1080, fin 1920, ⟨true, []⟩⟩, ⟨fin 960, fin 540⟩, fin 0, true⟩ (fin 100))
          (fin 100)).m_degree = fin 0
      ∧ (back Libm.binary64 (forward Libm.binary64
          ⟨⟨fin 1080, fin 1920, ⟨true, []⟩⟩, ⟨fin 960, fin 540⟩, fin 0, true⟩ (fin 100))
          (fin 100)).m_drawing = true
      ∧ (back Libm.binary64 (forward Libm.binary64
          ⟨⟨fin 1080, fin 1920, ⟨true, []⟩⟩, ⟨fin 960, fin 540⟩, fin 0, true⟩ (fin 100))
          (fin 100)).m_file.m_file.written
          = [] ++ [Element.line (fin 960) (fin 540)
                (forward Libm.binary64 ⟨⟨fin 1080, fin 1920, ⟨true, []⟩⟩, ⟨fin 960, fin 540⟩,
                  fin 0, true⟩ (fin 100)).m_pos.X
                (forward Libm.binary64 ⟨⟨fin 1080, fin 1920, ⟨true, []⟩⟩, ⟨fin 960, fin 540⟩,
                  fin 0, true⟩ (fin 100)).m_pos.Y defaultColor,
              Element.line
                (forward Libm.binary64 ⟨⟨fin 1080, fin 1920, ⟨true, []⟩⟩, ⟨fin 960, fin 540⟩,
                  fin 0, true⟩ (fin 100)).m_pos.X
                (forward Libm.binary64 ⟨⟨fin 1080, fin 1920, ⟨true, []⟩⟩, ⟨fin 960, fin 540⟩,
                  fin 0, true⟩ (fin 100)).m_pos.Y
                (back Libm.binary64 (forward Libm.binary64 ⟨⟨fin 1080, fin 1920, ⟨true, []⟩⟩,
                  ⟨fin 960, fin 540⟩, fin 0, true⟩ (fin 100)) (fin 100)).m_pos.X
                (back Libm.binary64 (forward Libm.binary64 ⟨⟨fin 1080, fin 1920, ⟨true, []⟩⟩,
                  ⟨fin 960, fin 540⟩, fin 0, true⟩ (fin 100)) (fin 100)).m_pos.Y
                defaultColor]
      ∧ (back Libm.binary64 (forward Libm.binary64
          ⟨⟨fin 1080, fin 1920, ⟨true, []⟩⟩, ⟨fin 960, fin 540⟩, fin 0, false⟩ (fin 100))
          (fin 100)).m_file = ⟨fin 1080, fin 1920, ⟨true, []⟩⟩)
    ∧ (∃ x' y' : ℚ,
      (back Libm.binary64 (forward Libm.binary64
          ⟨⟨fin 1080, fin 1920, ⟨true, []⟩⟩, ⟨fin 960, fin 540⟩, fin 0, true⟩ (fin 100))
          (fin 100)).m_pos = ⟨fin x', fin y'⟩
        ∧ |x' - 960| ≤ (|(960 : ℚ)| + |(100 : ℚ)|) / 2 ^ 50 + 1 / 2 ^ 1070
        ∧ |y' - 540| ≤ (|(540 : ℚ)| + |(100 : ℚ)|) / 2 ^ 50 + 1 / 2 ^ 1070)
    ∧ ((back Libm.real (forward Libm.real
          ⟨⟨fin 1080, fin 1920, ⟨true, []⟩⟩, ⟨fin 960, fin 540⟩, fin 0, true⟩ (fin 100))
          (fin 100)).m_pos = ⟨fin 960, fin 540⟩
      ∧ (back Libm.real (forward Libm.real
          ⟨⟨fin 1080, fin 1920, ⟨true, []⟩⟩, ⟨fin 960, fin 540⟩, fin 0, true⟩ (fin 100))
          (fin 100)).m_degree = fin 0
      ∧ (back Libm.real (forward Libm.real
          ⟨⟨fin 1080, fin 1920, ⟨true, []⟩⟩, ⟨fin 960, fin 540⟩, fin 0, true⟩ (fin 100))
          (fin 100)).m_drawing = true
      ∧ (∃ qx qy : ℝ,
          (back Libm.real (forward Libm.real
              ⟨⟨fin 1080, fin 1920, ⟨true, []⟩⟩, ⟨fin 960, fin 540⟩, fin 0, true⟩ (fin 100))
              (fin 100)).m_file.m_file.written
            = [] ++ [Element.line (fin 960) (fin 540) (fin qx) (fin qy) defaultColor,
                Element.line (fin qx) (fin qy) (fin 960) (fin 540) defaultColor]
          ∧ (forward Libm.real ⟨⟨fin 1080, fin 1920, ⟨true, []⟩⟩, ⟨fin 960, fin 540⟩, fin 0,
              true⟩ (fin 100)).m_pos = ⟨fin qx, fin qy⟩)
      ∧ (back Libm.real (forward Libm.real
            ⟨⟨fin 1080, fin 1920, ⟨true, []⟩⟩, ⟨fin 960, fin 540⟩, fin 0, false⟩ (fin 100))
            (fin 100)).m_file.m_file.written = []) :=
  forward_back_inverse Libm.binary64 ⟨fin 1080, fin 1920, ⟨true, []⟩⟩ ⟨fin 960, fin 540⟩
    (fin 0) (fin 100) true (fin 1080) (fin 1920) []
    Libm.binary64 ⟨fin 1080, fin 1920, ⟨true, []⟩⟩ 960 540 0 0 100 true
    (fin 1080) (fin 1920) [] 960 540 0 100 true
    (by norm_num [abs_le]) (by norm_num [abs_le]) (by norm_num [abs_le])
    (by decide!) (by simp [Libm.binary64]) (by simp [Libm.binary64])

end Turtle

/-! ## Matrix multiplication -/

/-- The invariant rule for `forLoop`: an invariant that holds at the start and is kept by every
iteration, none of which fails, holds at the end, and the loop does not fail. -/
theorem forLoop_inv {σ : Type} (n : Nat) (body : Nat → σ → Except Failure σ)
    (I : Nat → σ → Prop) (s0 : σ) (h0 : I 0 s0)
    (hstep : ∀ i s, i < n → I i s → ∃ s', body i s = Except.ok s' ∧ I (i + 1) s') :
    ∃ s', forLoop n body s0 = Except.ok s' ∧ I n s' := by
  induction n with
  | zero => exact ⟨s0, rfl, h0⟩
  | succ n ih =>
    obtain ⟨s1, h1, hI1⟩ := ih (fun i s hi hI => hstep i s (Nat.lt_succ_of_lt hi) hI)
    obtain ⟨s2, h2, hI2⟩ := hstep n s1 (Nat.lt_succ_self n) hI1
    refine ⟨s2, ?_, hI2⟩
    unfold forLoop at h1 ⊢
    rw [List.range_succ, List.foldlM_append, h1]
    simpa using h2

/-- A loop whose body does nothing does nothing. -/
theorem forLoop_skip {σ : Type} (n : Nat) (body : Nat → σ → Except Failure σ) (s0 : σ)
    (hbody : ∀ i s, body i s = Except.ok s) : forLoop n body s0 = Except.ok s0 := by
  obtain ⟨s', h1, h2⟩ := forLoop_inv n body (fun _ s => s = s0) s0 rfl
    (fun i s _ hs => ⟨s, hbody i s, hs⟩)
  rw [h1, h2]

theorem vectorAt_ok {α : Type} (v : List α) (i : Nat) (h : i < v.length) :
    vectorAt v i = Except.ok (v.get ⟨i, h⟩) := by
  simp [vectorAt, List.getElem?_eq_getElem h]

theorem vectorAt_getD {α : Type} (v : List α) (i : Nat) (d : α) (h : i < v.length) :
    vectorAt v i = Except.ok (v.getD i d) := by
  simp [vectorAt, List.getElem?_eq_getElem h, List.getD_eq_getElem?_getD]

namespace Matrix

variable {K : Type} [LinearOrderedField K] [Rounding K]

theorem dotUpTo_succ (A B : Matrix K) (row col k : Nat) :
    dotUpTo A B row col (k + 1)
      = dotUpTo A B row col k
        + (A._d.getD (A._cols * row + k) nan) * (B._d.getD (k * B._cols + col) nan) := by
  simp only [dotUpTo, List.range_succ, List.foldl_append, List.foldl_cons, List.foldl_nil]

/-- The index of a cell of an `r x c` matrix in row-major layout is below `r * c`. -/
theorem index_lt {r c row col : Nat} (hrow : row < r) (hcol : col < c) :
    row * c + col < r * c := by
  calc row * c + col < row * c + c := Nat.add_lt_add_left hcol _
    _ = (row + 1) * c := by ring
    _ ≤ r * c := Nat.mul_le_mul_right c hrow

/-- One iteration of the innermost loop adds one product to the cell. -/
theorem mulStep_ok (w : Nat) (A B : Matrix K) (hA : WellFormed w A) (hB : WellFormed w B)
    (hdim : A._cols = B._rows) (row col i : Nat) (hrow : row < A._rows) (hcol : col < B._cols)
    (hi : i < A._cols) (hfit : A._rows * B._cols < 2 ^ w) (d : List (Double K)) (r c : Nat)
    (hlen : d.length = A._rows * B._cols) (acc : Double K) :
    mulStep w A B row col i ⟨d.set (row * B._cols + col) acc, r, c⟩
      = Except.ok ⟨d.set (row * B._cols + col)
          (acc + (A._d.getD (A._cols * row + i) nan) * (B._d.getD (i * B._cols + col) nan)),
          r, c⟩ := by
  obtain ⟨hA1, hA2, _, _⟩ := hA
  obtain ⟨hB1, hB2, _, _⟩ := hB
  have hidx : row * B._cols + col < A._rows * B._cols := index_lt hrow hcol
  have ha : A._cols * row + i < A._d.length := by
    rw [hA1, Nat.mul_comm A._cols row]
    exact index_lt hrow hi
  have hb : i * B._cols + col < B._d.length := by
    rw [hB1]
    exact index_lt (hdim ▸ hi) hcol
  have hc : row * B._cols + col < (d.set (row * B._cols + col) acc).length := by
    rw [List.length_set, hlen]
    exact hidx
  have m1 : (A._cols * row + i) % 2 ^ w = A._cols * row + i :=
    Nat.mod_eq_of_lt (lt_trans ha hA2)
  have m2 : (i * B._cols + col) % 2 ^ w = i * B._cols + col :=
    Nat.mod_eq_of_lt (lt_trans hb hB2)
  have m3 : (row * B._cols + col) % 2 ^ w = row * B._cols + col :=
    Nat.mod_eq_of_lt (lt_trans hidx hfit)
  have hget : (d.set (row * B._cols + col) acc).getD (row * B._cols + col) nan = acc := by
    rw [List.length_set] at hc
    simp [List.getD_eq_getElem?_getD, List.getElem?_set, hc]
  unfold mulStep
  rw [m1, m2, m3, vectorAt_getD _ _ nan ha, vectorAt_getD _ _ nan hb, vectorAt_getD _ _ nan hc,
    hget]
  simp only [List.set_set]
  rfl

theorem set_self {α : Type} (l : List α) (i : Nat) (v : α) (h : l[i]? = some v) :
    l.set i v = l := by
  apply List.ext_getElem?
  intro j
  by_cases hj : i = j
  · subst hj
    have hlt : i < l.length := by
      by_contra hge
      rw [List.getElem?_eq_none (Nat.le_of_not_lt hge)] at h
      exact absurd h (by simp)
    simp [List.getElem?_set, hlt, h]
  · simp [List.getElem?_set, hj]

/-- The innermost loop computes one cell that was `0`. -/
theorem inner_loop (w : Nat) (A B : Matrix K) (hA : WellFormed w A) (hB : WellFormed w B)
    (hdim : A._cols = B._rows) (row col : Nat) (hrow : row < A._rows) (hcol : col < B._cols)
    (hfit : A._rows * B._cols < 2 ^ w) (d : List (Double K)) (r c : Nat)
    (hlen : d.length = A._rows * B._cols) (hz : d[row * B._cols + col]? = some (fin 0)) :
    forLoop A._cols (fun i product => mulStep w A B row col i product) ⟨d, r, c⟩
      = Except.ok ⟨d.set (row * B._cols + col) (dot A B row col), r, c⟩ := by
  obtain ⟨s', h1, h2⟩ := forLoop_inv A._cols
    (fun i product => mulStep w A B row col i product)
    (fun i P => P = ⟨d.set (row * B._cols + col) (dotUpTo A B row col i), r, c⟩) ⟨d, r, c⟩
    (by
      show (⟨d, r, c⟩ : Matrix K) = ⟨d.set (row * B._cols + col) (fin 0), r, c⟩
      rw [set_self d _ _ hz])
    (by
      intro i s hi hs
      refine ⟨_, ?_, rfl⟩
      subst hs
      show mulStep w A B row col i
          ⟨d.set (row * B._cols + col) (dotUpTo A B row col i), r, c⟩ = _
      rw [mulStep_ok w A B hA hB hdim row col i hrow hcol hi hfit d r c hlen,
        dotUpTo_succ])
  rw [h1, h2]
  rfl

theorem filled_length (A B : Matrix K) (k : Nat) :
    (filled A B k).length = A._rows * B._cols := by
  simp [filled]

/-- Computing the next cell turns `filled k` into `filled (k + 1)`. -/
theorem filled_step (A B : Matrix K) (row col : Nat) (hrow : row < A._rows)
    (hcol : col < B._cols) :
    (filled A B (row * B._cols + col))[row * B._cols + col]? = some (fin 0)
    ∧ (filled A B (row * B._cols + col)).set (row * B._cols + col) (dot A B row col)
        = filled A B (row * B._cols + col + 1) := by
  have hidx : row * B._cols + col < A._rows * B._cols := index_lt hrow hcol
  have hc0 : 0 < B._cols := Nat.lt_of_le_of_lt (Nat.zero_le _) hcol
  have hdiv : (row * B._cols + col) / B._cols = row := by
    rw [Nat.add_comm, Nat.add_mul_div_right _ _ hc0, Nat.div_eq_of_lt hcol, Nat.zero_add]
  have hmod : (row * B._cols + col) % B._cols = col := by
    rw [Nat.add_comm, Nat.add_mul_mod_self_right, Nat.mod_eq_of_lt hcol]
  constructor
  · simp [filled, List.getElem?_map, List.getElem?_range hidx]
  · apply List.ext_getElem?
    intro j
    by_cases hj : j < A._rows * B._cols
    · by_cases hjk : row * B._cols + col = j
      · subst hjk
        simp [filled, List.getElem?_set, List.getElem?_map, List.getElem?_range hidx, hidx,
          hdiv, hmod]
      · have hne : j ≠ row * B._cols + col := fun h => hjk h.symm
        simp only [filled, List.getElem?_set, hjk, if_false, List.getElem?_map,
          List.getElem?_range hj, Option.map_some']
        by_cases hlt : j < row * B._cols + col
        · rw [if_pos hlt, if_pos (Nat.lt_succ_of_lt hlt)]
        · have : ¬ j < row * B._cols + col + 1 := by omega
          rw [if_neg hlt, if_neg this]
    · have hge : A._rows * B._cols ≤ j := Nat.le_of_not_lt hj
      rw [List.getElem?_eq_none (by rw [List.length_set, filled_length]; exact hge),
        List.getElem?_eq_none (by rw [filled_length]; exact hge)]

/-- The loop over the columns computes the cells of one row. -/
theorem col_loop (w : Nat) (A B : Matrix K) (hA : WellFormed w A) (hB : WellFormed w B)
    (hdim : A._cols = B._rows) (row : Nat) (hrow : row < A._rows)
    (hfit : A._rows * B._cols < 2 ^ w) (r c : Nat) :
    forLoop B._cols (fun col product =>
        forLoop A._cols (fun i product => mulStep w A B row col i product) product)
        ⟨filled A B (row * B._cols), r, c⟩
      = Except.ok ⟨filled A B (row * B._cols + B._cols), r, c⟩ := by
  obtain ⟨s', h1, h2⟩ := forLoop_inv B._cols
    (fun col product =>
      forLoop A._cols (fun i product => mulStep w A B row col i product) product)
    (fun col P => P = ⟨filled A B (row * B._cols + col), r, c⟩)
    ⟨filled A B (row * B._cols), r, c⟩ rfl
    (by
      intro col s hcol hs
      refine ⟨_, ?_, rfl⟩
      subst hs
      obtain ⟨hz, hset⟩ := filled_step A B row col hrow hcol
      show forLoop A._cols (fun i product => mulStep w A B row col i product)
          ⟨filled A B (row * B._cols + col), r, c⟩ = _
      rw [inner_loop w A B hA hB hdim row col hrow hcol hfit _ r c (filled_length A B _) hz,
        hset, Nat.add_assoc])
  rw [h1, h2]

/-- The loop over the rows computes all cells. -/
theorem row_loop (w : Nat) (A B : Matrix K) (hA : WellFormed w A) (hB : WellFormed w B)
    (hdim : A._cols = B._rows) (hfit : A._rows * B._cols < 2 ^ w) (r c : Nat) :
    forLoop A._rows (fun row product =>
        forLoop B._cols (fun col product =>
          forLoop A._cols (fun i product => mulStep w A B row col i product) product) product)
        ⟨filled A B 0, r, c⟩
      = Except.ok ⟨filled A B (A._rows * B._cols), r, c⟩ := by
  obtain ⟨s', h1, h2⟩ := forLoop_inv A._rows
    (fun row product =>
      forLoop B._cols (fun col product =>
        forLoop A._cols (fun i product => mulStep w A B row col i product) product) product)
    (fun row P => P = ⟨filled A B (row * B._cols), r, c⟩)
    ⟨filled A B 0, r, c⟩
    (by
      show (⟨filled A B 0, r, c⟩ : Matrix K) = ⟨filled A B (0 * B._cols), r, c⟩
      rw [Nat.zero_mul])
    (by
      intro row s hrow hs
      refine ⟨_, ?_, rfl⟩
      subst hs
      show forLoop B._cols (fun col product =>
          forLoop A._cols (fun i product => mulStep w A B row col i product) product)
          ⟨filled A B (row * B._cols), r, c⟩ = _
      rw [col_loop w A B hA hB hdim row hrow hfit r c, Nat.succ_mul])
  rw [h1, h2]

/-- The zero matrix built by the constructor, when a vector of `rows * cols` entries can be
constructed. -/
theorem zero_eq_filled (M : Machine) (A B : Matrix K) (hmax : M.max_size < 2 ^ M.w)
    (hsize : A._rows * B._cols ≤ M.max_size)
    (halloc : M.canAllocate (A._rows * B._cols) = true) :
    (zero M A._rows B._cols : Except Failure (Matrix K))
      = Except.ok ⟨filled A B 0, A._rows, B._cols⟩ := by
  have hfit : A._rows * B._cols < 2 ^ M.w := lt_of_le_of_lt hsize hmax
  have : List.replicate (A._rows * B._cols) (fin 0 : Double K) = filled A B 0 := by
    apply List.ext_getElem?
    intro j
    by_cases hj : j < A._rows * B._cols
    · simp [filled, List.getElem?_replicate, hj, List.getElem?_map, List.getElem?_range hj]
    · have hge : A._rows * B._cols ≤ j := Nat.le_of_not_lt hj
      rw [List.getElem?_eq_none (by rw [List.length_replicate]; exact hge),
        List.getElem?_eq_none (by rw [filled_length]; exact hge)]
  unfold zero vectorFill
  rw [Nat.mod_eq_of_lt hfit, if_neg (Nat.not_lt.mpr hsize), if_pos halloc, this]
  rfl

/-- Claim C20, amended: for well-formed matrices `A` (`r x n`, exactly `r*n` stored entries) and
`B` (`n x c`, exactly `n*c` stored entries) such that a vector of `r*c` entries can be
constructed (`r*c` is at most the `max_size()` of the vector, itself a value of `size_t`, and
the allocation of `r*c` entries succeeds), `A * B` fails neither the assertion nor an `at`, nor
in the constructor of the result, and the result is an `r x c` matrix with exactly `r*c` entries
whose entry at `(row, col)`, stored at index `row*c + col`, is the sum over `i < n` of
`A[row, i] * B[i, col]`. -/
theorem mul_correct (M : Machine) (A B : Matrix K) (hA : WellFormed M.w A)
    (hB : WellFormed M.w B) (hdim : A._cols = B._rows) (hmax : M.max_size < 2 ^ M.w)
    (hsize : A._rows * B._cols ≤ M.max_size)
    (halloc : M.canAllocate (A._rows * B._cols) = true) :
    ∃ P : Matrix K, mul M A B = Except.ok P
      ∧ P._rows = A._rows ∧ P._cols = B._cols ∧ P._d.length = A._rows * B._cols
      ∧ ∀ row col, row < A._rows → col < B._cols →
          P._d[row * B._cols + col]? = some (dot A B row col) := by
  have hfit : A._rows * B._cols < 2 ^ M.w := lt_of_le_of_lt hsize hmax
  refine ⟨⟨filled A B (A._rows * B._cols), A._rows, B._cols⟩, ?_, rfl, rfl,
    filled_length A B _, ?_⟩
  · unfold mul
    rw [if_neg (not_not.mpr hdim), zero_eq_filled M A B hmax hsize halloc]
    exact row_loop M.w A B hA hB hdim hfit _ _
  · intro row col hrow hcol
    have hidx : row * B._cols + col < A._rows * B._cols := index_lt hrow hcol
    have hc0 : 0 < B._cols := Nat.lt_of_le_of_lt (Nat.zero_le _) hcol
    have hdiv : (row * B._cols + col) / B._cols = row := by
      rw [Nat.add_comm, Nat.add_mul_div_right _ _ hc0, Nat.div_eq_of_lt hcol, Nat.zero_add]
    have hmod : (row * B._cols + col) % B._cols = col := by
      rw [Nat.add_comm, Nat.add_mul_mod_self_right, Nat.mod_eq_of_lt hcol]
    simp [filled, List.getElem?_map, List.getElem?_range hidx, hidx, hdiv, hmod]

/-- Witness of C20 (amended): two `2 x 2` matrices on the LP64 machine. -/
theorem mul_correct_witness :
    ∃ P : Matrix ℚ,
      mul Machine.lp64 (ofList [fin 1, fin 2, fin 3, fin 4] 2 2)
          (ofList [fin 5, fin 6, fin 7, fin 8] 2 2)
        = Except.ok P
      ∧ P._rows = (ofList [fin 1, fin 2, fin 3, fin 4] 2 2 : Matrix ℚ)._rows
      ∧ P._cols = (ofList [fin 5, fin 6, fin 7, fin 8] 2 2 : Matrix ℚ)._cols
      ∧ P._d.length = (ofList [fin 1, fin 2, fin 3, fin 4] 2 2 : Matrix ℚ)._rows
          * (ofList [fin 5, fin 6, fin 7, fin 8] 2 2 : Matrix ℚ)._cols
      ∧ ∀ row col, row < (ofList [fin 1, fin 2, fin 3, fin 4] 2 2 : Matrix ℚ)._rows →
          col < (ofList [fin 5, fin 6, fin 7, fin 8] 2 2 : Matrix ℚ)._cols →
          P._d[row * (ofList [fin 5, fin 6, fin 7, fin 8] 2 2 : Matrix ℚ)._cols + col]?
            = some (dot (ofList [fin 1, fin 2, fin 3, fin 4] 2 2)
                (ofList [fin 5, fin 6, fin 7, fin 8] 2 2) row col) :=
  mul_correct Machine.lp64 (ofList [fin 1, fin 2, fin 3, fin 4] 2 2)
    (ofList [fin 5, fin 6, fin 7, fin 8] 2 2)
    (by simp [WellFormed, ofList, Machine.lp64]) (by simp [WellFormed, ofList, Machine.lp64])
    rfl (by simp [Machine.lp64]) (by simp [ofList, Machine.lp64]) rfl

/-- Counterexample to C20 as stated, on the LP64 machine (64-bit `size_t`, `max_size()` of a
vector of doubles `2^60 - 1`): the matrices `A` (`2^33 x 0`, no entries) and `B` (`0 x 2^30`,
no entries) are well-formed with matching inner dimension, and `rows*cols = 2^63` is a value of
`size_t`, yet `A * B` produces no matrix: the constructor of the result throws
`std::length_error`, before any loop runs. -/
theorem mul_length_error_counterexample :
    WellFormed Machine.lp64.w (ofList [] (2 ^ 33) 0 : Matrix ℚ)
    ∧ WellFormed Machine.lp64.w (ofList [] 0 (2 ^ 30) : Matrix ℚ)
    ∧ (ofList [] (2 ^ 33) 0 : Matrix ℚ)._cols = (ofList [] 0 (2 ^ 30) : Matrix ℚ)._rows
    ∧ (ofList [] (2 ^ 33) 0 : Matrix ℚ)._rows * (ofList [] 0 (2 ^ 30) : Matrix ℚ)._cols
        < 2 ^ Machine.lp64.w
    ∧ mul Machine.lp64 (ofList [] (2 ^ 33) 0 : Matrix ℚ) (ofList [] 0 (2 ^ 30))
        = Except.error Failure.length_error := by
  refine ⟨by simp [WellFormed, ofList, Machine.lp64], by simp [WellFormed, ofList, Machine.lp64],
    rfl, by simp [ofList, Machine.lp64], ?_⟩
  simp [mul, zero, vectorFill, ofList, Machine.lp64, bind, Except.bind]

end Matrix
end svg
